import Mathlib

/-!
Shallow embedding of the maximum-flow engine of the Traffic_Simulation
repository (`src/maxflow.py`, with the cross-validation policy of
`src/app.py`).  Python dictionaries are modelled as insertion-ordered
association lists; dictionary writes replace the first matching key in
place and append fresh keys at the end, exactly like CPython dicts.
Loops are modelled as fuelled recursions returning `Option`; `none`
marks a run that raised (KeyError) or exceeded its fuel, and fuel bounds
are chosen from the source's own termination argument.
-/

namespace Traffic

abbrev Node := String

/-- An inner Python dict `{v: capacity}` as an insertion-ordered assoc list. -/
abbrev Row := List (Node × Int)

/-- The outer Python dict `{u: {v: capacity}}` (a capacity or residual graph). -/
abbrev Graph := List (Node × Row)

/-- Lookup in an inner dict (first matching key, as in a dict without duplicates). -/
def rowGet (r : Row) (k : Node) : Option Int :=
  match r with
  | [] => none
  | (k', v) :: rest => if k' = k then some v else rowGet rest k

/-- Python `d[k] = x` on an inner dict: overwrite in place, else append. -/
def rowSet (r : Row) (k : Node) (x : Int) : Row :=
  match r with
  | [] => [(k, x)]
  | (k', v) :: rest => if k' = k then (k, x) :: rest else (k', v) :: rowSet rest k x

/-- Lookup in the outer dict. -/
def gGet (g : Graph) (k : Node) : Option Row :=
  match g with
  | [] => none
  | (k', r) :: rest => if k' = k then some r else gGet rest k

/-- Python `d[k] = row` on the outer dict. -/
def gSet (g : Graph) (k : Node) (r : Row) : Graph :=
  match g with
  | [] => [(k, r)]
  | (k', r') :: rest => if k' = k then (k, r) :: rest else (k', r') :: gSet rest k r

/-- Python `res.setdefault(k, {})`. -/
def gSetdefault (g : Graph) (k : Node) : Graph :=
  if (gGet g k).isSome then g else g ++ [(k, [])]

/-- The adjacency row `res[u]` (present whenever `u` is a key; the `[]`
default models that the algorithms below only read rows of existing keys). -/
def resAdj (res : Graph) (u : Node) : Row := (gGet res u).getD []

/-- `res[u].get(v, 0)`-style read of a residual capacity.  The algorithms
only read pairs whose key is present, except `edmonds_karp_with_flows`'s
final extraction which uses exactly this defaulted read. -/
def resCap (res : Graph) (u v : Node) : Int := (rowGet (resAdj res u) v).getD 0

/-- Python `res[u][v] = x`. -/
def resUpdate (res : Graph) (u v : Node) (x : Int) : Graph :=
  gSet res u (rowSet (resAdj res u) v x)

/-- One step of `_build_residual`'s inner loop:
`res[u][v] = cap; res.setdefault(v, {}); if u not in res[v]: res[v][u] = 0`. -/
def buildResidualStep (res : Graph) (u v : Node) (cap : Int) : Graph :=
  let res := gSet res u (rowSet (resAdj res u) v cap)
  let res := gSetdefault res v
  if (rowGet (resAdj res v) u).isSome then res
  else gSet res v (rowSet (resAdj res v) u 0)

/-- `_build_residual(graph)`: residual adjacency with reverse edges
initialised to 0, iterating the outer dict and each row in order. -/
def build_residual (graph : Graph) : Graph :=
  graph.foldl
    (fun res p =>
      p.2.foldl (fun res q => buildResidualStep res p.1 q.1 q.2) (gSetdefault res p.1))
    []

/-! ### Breadth-first search with parent pointers (edmonds_karp's inner loop) -/

/-- The Python dict `parent`; `s` maps to `None`.  Fresh keys are inserted at
the front: the dict is only ever read by key lookup and membership, so the
insertion position is unobservable. -/
abbrev ParentMap := List (Node × Option Node)

def pLookup (p : ParentMap) (k : Node) : Option (Option Node) :=
  match p with
  | [] => none
  | (k', v) :: rest => if k' = k then some v else pLookup rest k

/-- `v in parent`. -/
def pMem (p : ParentMap) (k : Node) : Bool := (pLookup p k).isSome

/-- The inner `for v, cap in res[u].items():` loop of the BFS, including the
early `break` once the sink is discovered. -/
def bfsScan (t u : Node) (row : Row) (parent : ParentMap) (q : List Node) :
    ParentMap × List Node :=
  match row with
  | [] => (parent, q)
  | (v, cap) :: rest =>
    if 0 < cap ∧ pLookup parent v = none then
      if v = t then ((v, some u) :: parent, q)
      else bfsScan t u rest ((v, some u) :: parent) (q ++ [v])
    else bfsScan t u rest parent q

/-- The `while q:` BFS loop; returns the parent map when the queue empties or
the sink enters it (`if t in parent: break`).  `none` = fuel exhausted, which
`bfsLoop_fuel` below rules out for the fuel used by the solvers. -/
def bfsLoop (res : Graph) (t : Node) : Nat → ParentMap → List Node → Option ParentMap
  | 0, _, _ => none
  | fuel + 1, parent, q =>
    match q with
    | [] => some parent
    | u :: q' =>
      let pq := bfsScan t u (resAdj res u) parent q'
      if pMem pq.1 t then some pq.1 else bfsLoop res t fuel pq.1 pq.2

/-- Distinct target nodes of the residual adjacency; every node the BFS can
enqueue is among them, which bounds the number of BFS iterations. -/
def targets (res : Graph) : List Node :=
  ((res.map (fun p => p.2.map Prod.fst)).flatten).dedup

def bfsFuel (res : Graph) : Nat := (targets res).length + 2

/-! ### Reconstructing the augmenting path (`while v != s: u = parent[v] ...`) -/

/-- Walk the parent pointers from `v` back to `s`, returning the path in
source-to-sink order.  `none` models a broken parent chain (a KeyError in the
Python walk), which cannot occur for BFS-produced maps. -/
def walkPath (parent : ParentMap) (s : Node) : Nat → Node → Option (List Node)
  | 0, _ => none
  | fuel + 1, v =>
    if v = s then some [s]
    else
      match pLookup parent v with
      | some (some u) => (walkPath parent s fuel u).map (fun l => l ++ [v])
      | _ => none

/-- Consecutive edges of a node path. -/
def pathEdges : List Node → List (Node × Node)
  | u :: v :: rest => (u, v) :: pathEdges (v :: rest)
  | _ => []

/-- `min` against Python's `float('inf')` start value: `none` is infinity. -/
def omin (acc : Option Int) (x : Int) : Option Int :=
  match acc with
  | none => some x
  | some b => some (min b x)

/-- Infinity-absorbing addition for the `flow += bottleneck` accumulator. -/
def oadd (a b : Option Int) : Option Int :=
  match a, b with
  | some a, some b => some (a + b)
  | _, _ => none

/-- `bottleneck = min(bottleneck, res[u][v])` along the path (`none` = the
initial `float('inf')`, which survives only when the path has no edge,
i.e. when source = sink). -/
def pathMin (res : Graph) (p : List Node) : Option Int :=
  (pathEdges p).foldl (fun acc e => omin acc (resCap res e.1 e.2)) none

/-- `res[u][v] -= bottleneck; res[v][u] += bottleneck` along the path. -/
def applyAug (res : Graph) (p : List Node) (b : Int) : Graph :=
  (pathEdges p).foldl
    (fun res e =>
      let res := resUpdate res e.1 e.2 (resCap res e.1 e.2 - b)
      resUpdate res e.2 e.1 (resCap res e.2 e.1 + b))
    res

/-! ### The Edmonds–Karp loop -/

/-- The solver state: the caller's capacity graph plus the residual the run
owns.  Every write in the source targets `res`; the `graph` field is carried
through so the no-mutation property is a theorem about the run itself. -/
structure St where
  graph : Graph
  res : Graph

/-- One iteration of edmonds_karp's `while True:` body.
`none`: internal shortfall (provably unreachable BFS fuel or broken walk);
`some none`: BFS failed to reach the sink, the loop exits;
`some (some (st, b))`: a path was augmented with bottleneck `b`
(`b = none` encodes the `float('inf')` bottleneck of the empty walk, in which
case the path has no edges and `applyAug` is the identity; the subtraction
argument `b.getD 0` is then unread). -/
def ekStep (st : St) (s t : Node) : Option (Option (St × Option Int)) :=
  match bfsLoop st.res t (bfsFuel st.res) [(s, none)] [s] with
  | none => none
  | some parent =>
    if pMem parent t then
      match walkPath parent s (parent.length + 1) t with
      | none => none
      | some p =>
        let b := pathMin st.res p
        some (some ({ st with res := applyAug st.res p (b.getD 0) }, b))
    else some none

/-- `while True:` of edmonds_karp, accumulating `flow` (an `Option Int` whose
`none` is the float infinity that `int()` would reject at the return). -/
def ekLoop (s t : Node) : Nat → St → Option Int → Option (Option Int × St)
  | 0, _, _ => none
  | fuel + 1, st, flow =>
    match ekStep st s t with
    | none => none
    | some none => some (flow, st)
    | some (some (st', b)) => ekLoop s t fuel st' (oadd flow b)

/-- Sum of the (clamped-to-zero) residual capacities out of `s`: each
augmentation removes the bottleneck from it, so it bounds the number of
iterations — the source's own termination argument. -/
def rowPot (row : Row) : Nat := (row.map (fun p => p.2.toNat)).sum

def ekFuel (res : Graph) (s : Node) : Nat := rowPot (resAdj res s) + 1

/-- `edmonds_karp(graph, s, t)` run to its final state.  The source raises a
KeyError at the first queue pop when `s` is not a key of the residual; this is
the guard.  Otherwise the fuelled loop runs; `ekFuel` is provably enough. -/
def edmonds_karpS (graph : Graph) (s t : Node) : Option (Option Int × St) :=
  let st : St := { graph := graph, res := build_residual graph }
  if (gGet st.res s).isNone then none
  else ekLoop s t (ekFuel st.res s) st (some 0)

/-- `edmonds_karp(graph, s, t)`: the returned `int(flow)`. -/
def edmonds_karp (graph : Graph) (s t : Node) : Option Int :=
  match edmonds_karpS graph s t with
  | some (some f, _) => some f
  | _ => none

/-! ### edmonds_karp_with_flows -/

abbrev FlowDict := List ((Node × Node) × Int)

def fdGet (fd : FlowDict) (k : Node × Node) : Option Int :=
  match fd with
  | [] => none
  | (k', v) :: rest => if k' = k then some v else fdGet rest k

/-- The final extraction: for every original edge,
`sent = orig_cap - res.get(u, {}).get(v, 0)`, clamped to zero. -/
def flowExtract (graph res : Graph) : FlowDict :=
  graph.foldl
    (fun fd p =>
      p.2.foldl
        (fun fd q =>
          let sent := q.2 - resCap res p.1 q.1
          fd ++ [((p.1, q.1), if 0 ≤ sent then sent else 0)])
        fd)
    []

/-- `edmonds_karp_with_flows(graph, s, t)`: the same loop, then the
per-original-edge extraction from the final residual. -/
def edmonds_karp_with_flowsS (graph : Graph) (s t : Node) :
    Option ((Int × FlowDict) × St) :=
  match edmonds_karpS graph s t with
  | some (some f, st) => some ((f, flowExtract graph st.res), st)
  | _ => none

def edmonds_karp_with_flows (graph : Graph) (s t : Node) : Option (Int × FlowDict) :=
  (edmonds_karp_with_flowsS graph s t).map Prod.fst

/-! ### Dinic -/

abbrev LevelMap := List (Node × Int)

def lLookup (l : LevelMap) (k : Node) : Option Int :=
  match l with
  | [] => none
  | (k', v) :: rest => if k' = k then some v else lLookup rest k

/-- `level.get(v, -1)`. -/
def levelD (l : LevelMap) (k : Node) : Int := (lLookup l k).getD (-1)

/-- Inner loop of `bfs_level`. -/
def levelScan (u : Node) (row : Row) (level : LevelMap) (q : List Node) :
    LevelMap × List Node :=
  match row with
  | [] => (level, q)
  | (v, cap) :: rest =>
    if 0 < cap ∧ lLookup level v = none then
      levelScan u rest ((v, levelD level u + 1) :: level) (q ++ [v])
    else levelScan u rest level q

/-- `while q:` of `bfs_level` (no early break at the sink). -/
def levelLoop (res : Graph) : Nat → LevelMap → List Node → Option LevelMap
  | 0, _, _ => none
  | fuel + 1, level, q =>
    match q with
    | [] => some level
    | u :: q' =>
      let lq := levelScan u (resAdj res u) level q'
      levelLoop res fuel lq.1 lq.2

/-- `bfs_level()`: `some (some level)` when the sink is levelled, `some none`
for Python's `return None`, `none` for fuel exhaustion (unreachable). -/
def bfs_level (res : Graph) (s t : Node) : Option (Option LevelMap) :=
  match levelLoop res (bfsFuel res) [(s, 0)] [s] with
  | none => none
  | some level => some (if pMemL level t then some level else none)
where
  pMemL (l : LevelMap) (k : Node) : Bool := (lLookup l k).isSome

/-- Phase-frozen `adj = {u: list(res[u].keys()) for u in res}`. -/
def adjOf (res : Graph) : List (Node × List Node) := res.map (fun p => (p.1, p.2.map Prod.fst))

def adjGet (adj : List (Node × List Node)) (u : Node) : List Node :=
  match adj with
  | [] => []
  | (k, l) :: rest => if k = u then l else adjGet rest u

abbrev ItMap := List (Node × Nat)

def itGet (it : ItMap) (u : Node) : Nat :=
  match it with
  | [] => 0
  | (k, n) :: rest => if k = u then n else itGet rest u

def itSet (it : ItMap) (u : Node) (n : Nat) : ItMap :=
  match it with
  | [] => [(u, n)]
  | (k, m) :: rest => if k = u then (u, n) :: rest else (k, m) :: itSet rest u n

/-- `for i in range(it[u], len(adj[u])):` — the body of dinic's `dfs` loop.
The scanned index range is frozen at loop entry, so it is the dropped suffix
of the phase-frozen adjacency; `dfsF` is the one-level-deeper `dfs`. -/
def dinicScan (dfsF : Node → Int → Graph → ItMap → Int × Graph × ItMap)
    (level : LevelMap) (u : Node) :
    List Node → Int → Graph → ItMap → Int × Graph × ItMap
  | [], _, res, it => (0, res, it)
  | v :: rest, f, res, it =>
    if 0 < resCap res u v ∧ levelD level v = levelD level u + 1 then
      match dfsF v (min f (resCap res u v)) res it with
      | (pushed, res', it') =>
        if 0 < pushed then
          let res2 := resUpdate res' u v (resCap res' u v - pushed)
          (pushed, resUpdate res2 v u (resCap res2 v u + pushed), it')
        else dinicScan dfsF level u rest f res' (itSet it' u (itGet it' u + 1))
    else dinicScan dfsF level u rest f res (itSet it u (itGet it u + 1))

/-- `dfs(u, f, t, level, it)` of dinic.  Fuel bounds the recursion depth
(levels strictly increase along it); a fuel of `level-map size + 2` is enough,
and exhaustion (returning 0 unchanged) is provably unreachable there. -/
def dinicDfs (t : Node) (level : LevelMap) (adj : List (Node × List Node)) :
    Nat → Node → Int → Graph → ItMap → Int × Graph × ItMap
  | 0, _, _, res, it => (0, res, it)
  | fuel + 1, u, f, res, it =>
    if u = t then (f, res, it)
    else dinicScan (dinicDfs t level adj fuel) level u
      ((adjGet adj u).drop (itGet it u)) f res it

/-- `while True: f = dfs(s, INF, t, level, it); if not f: break; pushed += f`. -/
def dinicPhase (s t : Node) (level : LevelMap) (adj : List (Node × List Node)) :
    Nat → Graph → ItMap → Int → Option (Int × Graph)
  | 0, _, _, _ => none
  | fuel + 1, res, it, pushed =>
    match dinicDfs t level adj (level.length + 2) s (10 ^ 9) res it with
    | (f, res', it') =>
      if f = 0 then some (pushed, res')
      else dinicPhase s t level adj fuel res' it' (pushed + f)

/-- The outer phase loop of dinic, accumulating `flow` (initialised on first
use, per the `locals()` dance in the source). -/
def dinicLoop (s t : Node) : Nat → St → Int → Option (Int × St)
  | 0, _, _ => none
  | fuel + 1, st, flow =>
    match bfs_level st.res s t with
    | none => none
    | some none => some (flow, st)
    | some (some level) =>
      match dinicPhase s t level (adjOf st.res) (ekFuel st.res s) st.res
          (st.res.map (fun p => (p.1, 0))) 0 with
      | none => none
      | some (pushed, res') =>
        if pushed = 0 then some (flow + pushed, { st with res := res' })
        else dinicLoop s t fuel { st with res := res' } (flow + pushed)

/-- `dinic(graph, s, t)` run to its final state; the guard models the KeyError
of `bfs_level` popping a source that is not a key of the residual. -/
def dinicS (graph : Graph) (s t : Node) : Option (Int × St) :=
  let st : St := { graph := graph, res := build_residual graph }
  if (gGet st.res s).isNone then none
  else dinicLoop s t (ekFuel st.res s) st 0

def dinic (graph : Graph) (s t : Node) : Option Int :=
  (dinicS graph s t).map Prod.fst

/-! ### The cross-validator of `app.py` (`_compute_and_handle`) -/

/-- `correct_flow = ek_flow; alg_disagree = False;
if dinic_flow != ek_flow: alg_disagree = True; correct_flow = max(...)`.
Returns (authoritative value, disagreement flag). -/
def reconcile (ek_flow dinic_flow : Int) : Int × Bool :=
  if dinic_flow ≠ ek_flow then (max ek_flow dinic_flow, true) else (ek_flow, false)

/-! ### Concrete graphs from the spec's scenarios and the repository's tests -/

/-- Scenario A of the spec, the graph of `test_simple_graph` in
`src/tests/test_maxflow.py`. -/
def scenarioA : Graph :=
  [("A", [("B", 3), ("C", 2)]), ("B", [("C", 1), ("T", 2)]), ("C", [("T", 3)]), ("T", [])]

/-- Scenario B of the spec (`test_bottleneck`). -/
def scenarioB : Graph :=
  [("A", [("B", 5)]), ("B", [("C", 3)]), ("C", [("T", 4)]), ("T", [])]

/-- A graph containing a negative capacity. -/
def negGraph : Graph := [("A", [("B", -1)]), ("T", [])]

/-- A graph whose sink `T` has no incoming edge at all (Scenario C shape). -/
def noInGraph : Graph := [("A", [("B", 5)]), ("B", []), ("T", [])]

/-! ### Invariant vocabulary -/

/-- Structural invariant of a BFS parent map (entries are prepended): keys
are unique, only the root `s` maps to `None`, and every other entry `(v, u)`
was inserted across a positive residual edge `u → v` with `u` already
present. -/
def ParentOk (res : Graph) (s : Node) : ParentMap → Prop
  | [] => True
  | (v, po) :: rest =>
      (match po with
       | none => v = s
       | some u => 0 < resCap res u v ∧ (pLookup rest u).isSome ∧ v ≠ s) ∧
      pLookup rest v = none ∧ ParentOk res s rest

/-- The suffix of a parent map starting at `v`'s entry. -/
def pSuffix (parent : ParentMap) (v : Node) : ParentMap :=
  match parent with
  | [] => []
  | (k, po) :: rest => if k = v then (k, po) :: rest else pSuffix rest v

/-- What the parent-pointer walk yields: a simple path from the source to `v`
whose edges all had strictly positive residual capacity when discovered. -/
structure PathOk (res : Graph) (s v : Node) (p : List Node) : Prop where
  ne : p ≠ []
  head : p.head? = some s
  last : p.getLast? = some v
  nodup : p.Nodup
  pos : ∀ e ∈ pathEdges p, 0 < resCap res e.1 e.2


/-- Residual non-negativity (claim C10's invariant). -/
def Nonneg (res : Graph) : Prop := ∀ u v, 0 ≤ resCap res u v

/-- Pair-sum conservation relative to the initial residual: every update moves
capacity between an entry and its reverse. -/
def PairSum (res0 res : Graph) : Prop :=
  ∀ u v, resCap res u v + resCap res v u = resCap res0 u v + resCap res0 v u

/-- Net flow pushed on a pair: initial residual minus current residual. -/
def flowVal (res0 res : Graph) (u v : Node) : Int := resCap res0 u v - resCap res u v

/-- Net flow into `w` from the node set `U`. -/
def excess (res0 res : Graph) (U : Finset Node) (w : Node) : Int :=
  ∑ v ∈ U, flowVal res0 res v w

/-- Pointwise description of one augmentation along `p` by `b`. -/
def AugDelta (res res' : Graph) (p : List Node) (b : Int) : Prop :=
  ∀ a c, resCap res' a c =
    resCap res a c - (if (a, c) ∈ pathEdges p then b else 0)
      + (if (c, a) ∈ pathEdges p then b else 0)



/-- The joint invariant of edmonds_karp's loop relative to the initial
residual `res0` and node universe `U`. -/
structure RunInv (res0 : Graph) (s t : Node) (U : Finset Node) (res : Graph) : Prop where
  pair : PairSum res0 res
  rkeys : ∀ w, (resAdj res w).map Prod.fst = (resAdj res0 w).map Prod.fst
  exc : ∀ w, w ≠ s → w ≠ t → excess res0 res U w = 0
  nnstep : Nonneg res0 → Nonneg res


/-- The node universe used by the flow-accounting invariants: the source plus
every node that occurs as a target in the residual adjacency. -/
def universeU (res0 : Graph) (s : Node) : Finset Node :=
  insert s (targets res0).toFinset

/-- Nodes of the residual's target universe not yet discovered by the BFS:
the termination measure of the `while q:` loop. -/
def freshCount (res : Graph) (parent : ParentMap) : Nat :=
  ((targets res).filter (fun v => pLookup parent v = none)).length

/-- The edges of a capacity graph as a flat list, in iteration order. -/
def flatEdges (g : Graph) : List (Node × Node × Int) :=
  (g.map (fun p => p.2.map (fun q => (p.1, q.1, q.2)))).flatten

def elookup (D : List (Node × Node × Int)) (a b : Node) : Option Int :=
  match D with
  | [] => none
  | (x, y, c) :: rest => if x = a ∧ y = b then some c else elookup rest a b

/-- Well-formedness of a Python capacity graph: dict keys are unique. -/
def GraphWF (g : Graph) : Prop :=
  (g.map Prod.fst).Nodup ∧ ∀ p ∈ g, (p.2.map Prod.fst).Nodup

/-- The running invariant of `_build_residual`'s fold: `outs` are the outer
keys seen by `setdefault`, `D` the original edges copied so far. -/
structure BuildInv (res : Graph) (outs : List Node) (D : List (Node × Node × Int)) : Prop where
  val : ∀ a b, resCap res a b = (elookup D a b).getD 0
  key : ∀ a b, (rowGet (resAdj res a) b).isSome ↔
      (elookup D a b).isSome ∨ (elookup D b a).isSome
  outer : ∀ a, (gGet res a).isSome ↔ a ∈ outs ∨ ∃ x c, (x, a, c) ∈ D
  nodupKeys : (res.map Prod.fst).Nodup
  nodupRows : ∀ p ∈ res, (p.2.map Prod.fst).Nodup

/-- The edges contributed to `flatEdges` by one outer item. -/
def edgesOfRow (u : Node) (row : Row) : List (Node × Node × Int) :=
  row.map (fun q => (u, q.1, q.2))

/-- Two edge records with distinct (source, target) pairs. -/
def EdgeNe (e1 e2 : Node × Node × Int) : Prop := ¬ (e1.1 = e2.1 ∧ e1.2.1 = e2.2.1)

/-- One outer item's contribution to the flow dict. -/
def fdSeg (res : Graph) (u : Node) (row : Row) : FlowDict :=
  row.map (fun q =>
    ((u, q.1), if 0 ≤ q.2 - resCap res u q.1 then q.2 - resCap res u q.1 else 0))

/-- Value of the flow assignment on a pair, zero when absent. -/
def fdVal (fd : FlowDict) (u v : Node) : Int := (fdGet fd (u, v)).getD 0

/-- Sum of assignment values on the original edges into `w`: each outer item
`(u, row)` of the graph contributes `assignment(u, w)` when `row` has key `w`. -/
def inFlowSum (fd : FlowDict) (g : Graph) (w : Node) : Int :=
  (g.map (fun p => if (rowGet p.2 w).isSome then fdVal fd p.1 w else 0)).sum

/-- Sum of assignment values on the original edges out of `w`. -/
def outFlowSum (fd : FlowDict) (g : Graph) (w : Node) : Int :=
  ((resAdj g w).map (fun q => fdVal fd w q.1)).sum

/-- Undiscovered targets of the level BFS: termination measure of `bfs_level`. -/
def freshCountL (res : Graph) (level : LevelMap) : Nat :=
  ((targets res).filter (fun v => lLookup level v = none)).length

/-- Capacity of the cut `(S, U \x5c S)` in the original capacities. -/
def cutCap (res0 : Graph) (U S : Finset Node) : Int :=
  ∑ u ∈ S, ∑ v ∈ U \ S, resCap res0 u v

/-- A level-respecting positive path: from `u`, through the listed nodes, to
`t`, each edge positive in the residual and descending one level deeper. -/
def LPath (res : Graph) (level : LevelMap) (t : Node) : Node → List Node → Prop
  | u, [] => u = t
  | u, v :: rest =>
    0 < resCap res u v ∧ levelD level v = levelD level u + 1 ∧ LPath res level t v rest

/-- `t` is reachable from `u` in the level graph. -/
def LReach (res : Graph) (level : LevelMap) (t u : Node) : Prop :=
  ∃ p, LPath res level t u p

/-- The iterator map only ever skips dead edges: every edge strictly below a
node's iterator position is unusable for reaching `t` in the level graph. -/
def DeadSkip (res : Graph) (level : LevelMap) (adj : List (Node × List Node))
    (t : Node) (it : ItMap) : Prop :=
  ∀ x v, v ∈ (adjGet adj x).take (itGet it x) →
    ¬ (0 < resCap res x v ∧ levelD level v = levelD level x + 1 ∧ LReach res level t v)

/-! ### The Backend variant of `edmonds_karp_with_flows` (`Backend/algorithms.py`)

The residual starts as a per-row copy of the graph (reverse entries are created
lazily on first push), the BFS carries whole paths, and `flow_dict` records the
gross amount pushed over each original edge: a push along a reverse residual
edge is never deducted from the forward edge's entry. -/

namespace Backend

/-- `for u in graph: for v in graph[u]: flow_dict[(u, v)] = 0`. -/
def fdInit (graph : Graph) : FlowDict :=
  graph.foldl (fun fd p => p.2.foldl (fun fd q => fd ++ [((p.1, q.1), (0 : Int))]) fd) []

/-- `if (u, v) in flow_dict: flow_dict[(u, v)] += flow` — in-place, no-op when
the key is absent. -/
def fdBump (fd : FlowDict) (k : Node × Node) (flow : Int) : FlowDict :=
  match fd with
  | [] => []
  | (k', x) :: rest =>
    if k' = k then (k', x + flow) :: rest else (k', x) :: fdBump rest k flow

/-- Inner scan of `bfs_find_path` over `residual[node].items()`:
`if neighbor not in visited and capacity > 0: visited.add; queue.append`. -/
def bfsScan (path : List Node) (row : Row) (visited : List Node)
    (queue : List (Node × List Node)) : List Node × List (Node × List Node) :=
  match row with
  | [] => (visited, queue)
  | (v, cap) :: rest =>
    if v ∉ visited ∧ 0 < cap then
      bfsScan path rest (visited ++ [v]) (queue ++ [(v, path ++ [v])])
    else bfsScan path rest visited queue

/-- `bfs_find_path()`: pops `(node, path)` FIFO, returns the path when the sink
is popped; `if node in residual` is the empty-row default of `resAdj`.
`some none` is Python's `return None`, `none` is fuel exhaustion. -/
def bfs_find_path (res : Graph) (t : Node) :
    Nat → List Node → List (Node × List Node) → Option (Option (List Node))
  | 0, _, _ => none
  | fuel + 1, visited, queue =>
    match queue with
    | [] => some none
    | (node, path) :: rest =>
      if node = t then some (some path)
      else
        let vq := bfsScan path (resAdj res node) visited rest
        bfs_find_path res t fuel vq.1 vq.2

/-- Per-edge update pass: `residual[u][v] -= flow`, lazy reverse
`residual[v][u] = residual[v].get(u, 0) + flow`, and the gross
`flow_dict[(u, v)] += flow` when `(u, v)` is an original edge. -/
def augPath : Graph → FlowDict → Int → List Node → Graph × FlowDict
  | res, fd, flow, u :: v :: rest =>
    let res1 := resUpdate res u v (resCap res u v - flow)
    let res2 := resUpdate res1 v u (resCap res1 v u + flow)
    augPath res2 (fdBump fd (u, v) flow) flow (v :: rest)
  | res, fd, _, _ => (res, fd)

/-- `while True:` of the Backend variant; the flow accumulator is an
`Option Int` whose `none` is the float infinity of an edgeless path. -/
def ekLoop (s t : Node) : Nat → Graph → FlowDict → Option Int → Option (Int × FlowDict)
  | 0, _, _, _ => none
  | fuel + 1, res, fd, mf =>
    match bfs_find_path res t (bfsFuel res) [s] [(s, [s])] with
    | none => none
    | some none =>
      match mf with
      | some v => some (v, fd)
      | none => none
    | some (some path) =>
      let b := pathMin res path
      match augPath res fd (b.getD 0) path with
      | (res', fd') => ekLoop s t fuel res' fd' (oadd mf b)

/-- `edmonds_karp_with_flows` of `Backend/algorithms.py`. -/
def edmonds_karp_with_flows (graph : Graph) (s t : Node) : Option (Int × FlowDict) :=
  ekLoop s t (ekFuel graph s) graph (fdInit graph) (some 0)

end Backend

/-- Push–cancel–repush graph: the first augmentation saturates `A→B`, the
second cancels it through the reverse edge `B→A`, the third pushes over `A→B`
again, so the Backend variant's gross flow dict reaches 2 on the capacity-1
edge `A→B`. -/
def cancelGraph : Graph :=
  [("S", [("A", 1), ("C", 1), ("X", 1)]), ("A", [("B", 1), ("D", 1)]),
   ("B", [("T", 1), ("G", 1)]), ("C", [("B", 1)]), ("D", [("T", 1)]),
   ("X", [("Y", 1)]), ("Y", [("A", 1)]), ("G", [("H", 1)]), ("H", [("I", 1)]),
   ("I", [("T", 1)]), ("T", [])]

/-- Graph whose second augmenting path `S→E→B→A→F→T` traverses the reverse
residual edge `B→A`: the Backend variant's flow dict then shows 1 unit into
`A` but 2 units out of it. -/
def crossGraph : Graph :=
  [("S", [("A", 1), ("E", 1)]), ("A", [("B", 1), ("F", 1)]), ("E", [("B", 1)]),
   ("B", [("T", 1)]), ("F", [("T", 1)]), ("T", [])]

/-! ## Dictionary lemmas -/

theorem rowGet_rowSet_self (r : Row) (k : Node) (x : Int) :
    rowGet (rowSet r k x) k = some x := by
  induction r with
  | nil => simp [rowSet, rowGet]
  | cons p rest ih =>
    obtain ⟨ka, va⟩ := p
    by_cases hk : ka = k
    · subst hk; simp [rowSet, rowGet]
    · simp [rowSet, rowGet, hk, ih]

theorem rowGet_rowSet_ne (r : Row) (k : Node) (x : Int) (k' : Node) (h : k' ≠ k) :
    rowGet (rowSet r k x) k' = rowGet r k' := by
  have h2 : ¬ k = k' := fun hh => h hh.symm
  induction r with
  | nil => simp [rowSet, rowGet, h2]
  | cons p rest ih =>
    obtain ⟨ka, va⟩ := p
    by_cases hk : ka = k
    · subst hk
      simp [rowSet, rowGet, h2]
    · simp [rowSet, rowGet, hk, ih]

theorem gGet_gSet_self (g : Graph) (k : Node) (r : Row) :
    gGet (gSet g k r) k = some r := by
  induction g with
  | nil => simp [gSet, gGet]
  | cons p rest ih =>
    obtain ⟨ka, ra⟩ := p
    by_cases hk : ka = k
    · subst hk; simp [gSet, gGet]
    · simp [gSet, gGet, hk, ih]

theorem gGet_gSet_ne (g : Graph) (k : Node) (r : Row) (k' : Node) (h : k' ≠ k) :
    gGet (gSet g k r) k' = gGet g k' := by
  have h2 : ¬ k = k' := fun hh => h hh.symm
  induction g with
  | nil => simp [gSet, gGet, h2]
  | cons p rest ih =>
    obtain ⟨ka, ra⟩ := p
    by_cases hk : ka = k
    · subst hk
      simp [gSet, gGet, h2]
    · simp [gSet, gGet, hk, ih]

theorem resCap_resUpdate (res : Graph) (u v : Node) (x : Int) (a b : Node) :
    resCap (resUpdate res u v x) a b =
      if a = u ∧ b = v then x else resCap res a b := by
  by_cases ha : a = u
  · subst ha
    by_cases hb : b = v
    · subst hb
      simp [resCap, resUpdate, resAdj, gGet_gSet_self, rowGet_rowSet_self]
    · simp [resCap, resUpdate, resAdj, gGet_gSet_self, rowGet_rowSet_ne _ _ _ _ hb, hb]
  · simp [resCap, resUpdate, resAdj, gGet_gSet_ne _ _ _ _ ha, ha]

theorem resAdj_resUpdate_ne (res : Graph) (u v : Node) (x : Int) (a : Node) (ha : a ≠ u) :
    resAdj (resUpdate res u v x) a = resAdj res a := by
  unfold resAdj resUpdate
  rw [gGet_gSet_ne _ _ _ _ ha]

theorem resAdj_resUpdate_self (res : Graph) (u v : Node) (x : Int) :
    resAdj (resUpdate res u v x) u = rowSet (resAdj res u) v x := by
  unfold resAdj resUpdate
  rw [gGet_gSet_self]
  rfl

/-- Writing an existing key leaves the key sequence of a row unchanged. -/
theorem rowSet_keys_of_mem (r : Row) (k : Node) (x : Int)
    (h : (rowGet r k).isSome) :
    (rowSet r k x).map Prod.fst = r.map Prod.fst := by
  induction r with
  | nil => simp [rowGet] at h
  | cons a rest ih =>
    obtain ⟨ka, va⟩ := a
    by_cases hk : ka = k
    · subst hk; simp [rowSet]
    · simp only [rowGet, if_pos, if_neg hk] at h
      simp [rowSet, if_neg hk, ih h]

theorem gSet_keys_of_mem (g : Graph) (k : Node) (r : Row)
    (h : (gGet g k).isSome) :
    (gSet g k r).map Prod.fst = g.map Prod.fst := by
  induction g with
  | nil => simp [gGet] at h
  | cons a rest ih =>
    obtain ⟨ka, ra⟩ := a
    by_cases hk : ka = k
    · subst hk; simp [gSet]
    · simp only [gGet, if_neg hk] at h
      simp [gSet, if_neg hk, ih h]

theorem keys_rowSet_sub (r : Row) (k : Node) (x : Int) (a : Node)
    (h : a ∈ (rowSet r k x).map Prod.fst) : a ∈ r.map Prod.fst ∨ a = k := by
  induction r with
  | nil => simpa [rowSet] using h
  | cons p rest ih =>
    obtain ⟨ka, va⟩ := p
    by_cases hk : ka = k
    · subst hk
      simp only [rowSet, if_pos rfl] at h
      simpa using Or.inl (by simpa using h)
    · simp only [rowSet, if_neg hk, List.map_cons, List.mem_cons] at h ⊢
      rcases h with h | h
      · tauto
      · rcases ih h with h1 | h1 <;> tauto

theorem keys_gSet_sub (g : Graph) (k : Node) (r : Row) (a : Node)
    (h : a ∈ (gSet g k r).map Prod.fst) : a ∈ g.map Prod.fst ∨ a = k := by
  induction g with
  | nil => simpa [gSet] using h
  | cons p rest ih =>
    obtain ⟨ka, ra⟩ := p
    by_cases hk : ka = k
    · subst hk
      simp only [gSet, if_pos rfl] at h
      simpa using Or.inl (by simpa using h)
    · simp only [gSet, if_neg hk, List.map_cons, List.mem_cons] at h ⊢
      rcases h with h | h
      · tauto
      · rcases ih h with h1 | h1 <;> tauto

theorem gSet_nodup (g : Graph) (k : Node) (r : Row)
    (h : (g.map Prod.fst).Nodup) : ((gSet g k r).map Prod.fst).Nodup := by
  induction g with
  | nil => simp [gSet]
  | cons p rest ih =>
    obtain ⟨ka, ra⟩ := p
    simp only [List.map_cons, List.nodup_cons] at h
    by_cases hk : ka = k
    · subst hk; simpa [gSet] using h
    · simp only [gSet, if_neg hk, List.map_cons, List.nodup_cons]
      refine ⟨?_, ih h.2⟩
      intro hmem
      rcases keys_gSet_sub rest k r ka hmem with h1 | h1
      · exact h.1 h1
      · exact hk h1

theorem rowSet_nodup (r : Row) (k : Node) (x : Int)
    (h : (r.map Prod.fst).Nodup) : ((rowSet r k x).map Prod.fst).Nodup := by
  induction r with
  | nil => simp [rowSet]
  | cons p rest ih =>
    obtain ⟨ka, va⟩ := p
    simp only [List.map_cons, List.nodup_cons] at h
    by_cases hk : ka = k
    · subst hk; simpa [rowSet] using h
    · simp only [rowSet, if_neg hk, List.map_cons, List.nodup_cons]
      refine ⟨?_, ih h.2⟩
      intro hmem
      rcases keys_rowSet_sub rest k x ka hmem with h1 | h1
      · exact h.1 h1
      · exact hk h1

theorem mem_gSet (g : Graph) (k : Node) (r : Row) (p : Node × Row)
    (h : p ∈ gSet g k r) : p ∈ g ∨ p = (k, r) := by
  induction g with
  | nil => simpa [gSet] using h
  | cons a rest ih =>
    obtain ⟨ka, ra⟩ := a
    by_cases hk : ka = k
    · subst hk
      simp only [gSet, if_pos rfl, List.mem_cons] at h
      rcases h with h | h
      · tauto
      · tauto
    · simp only [gSet, if_neg hk, List.mem_cons] at h ⊢
      rcases h with h | h
      · tauto
      · rcases ih h with h1 | h1 <;> tauto

theorem gGet_append (g1 g2 : Graph) (k : Node) :
    gGet (g1 ++ g2) k = match gGet g1 k with | some r => some r | none => gGet g2 k := by
  induction g1 with
  | nil => simp [gGet]
  | cons p rest ih =>
    obtain ⟨ka, ra⟩ := p
    by_cases hk : ka = k <;> simp [gGet, hk, ih]

theorem gGet_gSetdefault (g : Graph) (k k' : Node) :
    gGet (gSetdefault g k) k' =
      if k' = k then some ((gGet g k).getD []) else gGet g k' := by
  unfold gSetdefault
  by_cases hp : (gGet g k).isSome
  · obtain ⟨r, hr⟩ := Option.isSome_iff_exists.mp hp
    simp only [hp, if_pos]
    by_cases hk : k' = k
    · subst hk; simp [hr]
    · simp [hk]
  · simp only [hp, Bool.false_eq_true, if_false]
    rw [gGet_append]
    have hn : gGet g k = none := Option.not_isSome_iff_eq_none.mp hp
    by_cases hk : k' = k
    · subst hk
      rw [hn]
      simp [gGet]
    · cases hg : gGet g k' with
      | some r => simp [hg, hk]
      | none =>
        have h2 : ¬ k = k' := fun hh => hk hh.symm
        simp [hg, gGet, hk, h2]

/-! ## Characterisation of `_build_residual` -/

theorem elookup_append (D1 D2 : List (Node × Node × Int)) (a b : Node) :
    elookup (D1 ++ D2) a b =
      match elookup D1 a b with | some c => some c | none => elookup D2 a b := by
  induction D1 with
  | nil => simp [elookup]
  | cons e rest ih =>
    obtain ⟨x, y, c⟩ := e
    by_cases hx : x = a ∧ y = b <;> simp [elookup, hx, ih]

theorem elookup_none (D : List (Node × Node × Int)) (a b : Node)
    (h : ∀ e ∈ D, ¬(e.1 = a ∧ e.2.1 = b)) : elookup D a b = none := by
  induction D with
  | nil => rfl
  | cons e rest ih =>
    obtain ⟨x, y, c⟩ := e
    have h1 := h (x, y, c) (by simp)
    simp only [elookup]
    rw [if_neg (by simpa using h1)]
    exact ih (fun e he => h e (by simp [he]))

theorem resAdj_gSetdefault (g : Graph) (k a : Node) :
    resAdj (gSetdefault g k) a = resAdj g a := by
  unfold resAdj
  rw [gGet_gSetdefault]
  by_cases hk : a = k
  · subst hk; cases h : gGet g a <;> simp [h]
  · simp [hk]

theorem resCap_gSetdefault (g : Graph) (k a b : Node) :
    resCap (gSetdefault g k) a b = resCap g a b := by
  unfold resCap
  rw [resAdj_gSetdefault]

theorem gGet_isSome_gSetdefault (g : Graph) (k a : Node) :
    (gGet (gSetdefault g k) a).isSome ↔ a = k ∨ (gGet g a).isSome := by
  rw [gGet_gSetdefault]
  by_cases hk : a = k <;> simp [hk]

theorem gGet_isSome_gSet (g : Graph) (k : Node) (r : Row) (a : Node) :
    (gGet (gSet g k r) a).isSome ↔ a = k ∨ (gGet g a).isSome := by
  by_cases hk : a = k
  · subst hk; simp [gGet_gSet_self]
  · rw [gGet_gSet_ne _ _ _ _ hk]; simp [hk]

theorem rowGet_isSome_rowSet (r : Row) (k : Node) (x : Int) (b : Node) :
    (rowGet (rowSet r k x) b).isSome ↔ b = k ∨ (rowGet r b).isSome := by
  by_cases hk : b = k
  · subst hk; simp [rowGet_rowSet_self]
  · rw [rowGet_rowSet_ne _ _ _ _ hk]; simp [hk]

theorem gGet_isSome_iff_mem (g : Graph) (k : Node) :
    (gGet g k).isSome ↔ k ∈ g.map Prod.fst := by
  induction g with
  | nil => simp [gGet]
  | cons p rest ih =>
    obtain ⟨ka, ra⟩ := p
    by_cases hk : ka = k
    · subst hk; simp [gGet]
    · have h2 : ¬ k = ka := fun hh => hk hh.symm
      simp [gGet, hk, h2, ih]

theorem gGet_mem (g : Graph) (k : Node) (r : Row) (h : gGet g k = some r) :
    (k, r) ∈ g := by
  induction g with
  | nil => simp [gGet] at h
  | cons p rest ih =>
    obtain ⟨ka, ra⟩ := p
    by_cases hk : ka = k
    · subst hk
      simp [gGet] at h
      simp [h]
    · simp only [gGet, if_neg hk] at h
      simp [ih h]

theorem buildInv_nil : BuildInv [] [] [] := by
  refine ⟨?_, ?_, ?_, ?_, ?_⟩
  · intro a b; simp [resCap, resAdj, gGet, rowGet, elookup]
  · intro a b; simp [resAdj, gGet, rowGet, elookup]
  · intro a; simp [gGet]
  · simp
  · intro p hp; simp at hp

theorem resCap_eq_zero_of_no_key (res : Graph) (a b : Node)
    (h : ¬ (rowGet (resAdj res a) b).isSome) : resCap res a b = 0 := by
  unfold resCap
  rw [Option.not_isSome_iff_eq_none.mp h]
  rfl

theorem elookup_snoc_getD (D : List (Node × Node × Int)) (u v : Node) (c : Int)
    (hfresh : elookup D u v = none) (a b : Node) :
    (elookup (D ++ [(u, v, c)]) a b).getD 0 =
      if a = u ∧ b = v then c else (elookup D a b).getD 0 := by
  rw [elookup_append]
  by_cases h : a = u ∧ b = v
  · obtain ⟨ha, hb⟩ := h
    subst ha; subst hb
    rw [hfresh]
    simp [elookup]
  · have h' : ¬ (u = a ∧ v = b) := fun hh => h ⟨hh.1.symm, hh.2.symm⟩
    cases hD : elookup D a b <;> simp [elookup, h', h]

theorem elookup_snoc_isSome (D : List (Node × Node × Int)) (u v : Node) (c : Int)
    (a b : Node) :
    (elookup (D ++ [(u, v, c)]) a b).isSome ↔
      (a = u ∧ b = v) ∨ (elookup D a b).isSome := by
  rw [elookup_append]
  cases hD : elookup D a b with
  | some x => simp
  | none =>
    constructor
    · intro h
      simp only [elookup] at h
      by_cases hc : u = a ∧ v = b
      · exact Or.inl ⟨hc.1.symm, hc.2.symm⟩
      · rw [if_neg hc] at h; simp [elookup] at h
    · rintro (⟨ha, hb⟩ | h)
      · subst ha; subst hb; simp [elookup]
      · simp at h

theorem buildInv_setdefault (res : Graph) (outs : List Node)
    (D : List (Node × Node × Int)) (k : Node)
    (inv : BuildInv res outs D) : BuildInv (gSetdefault res k) (outs ++ [k]) D := by
  refine ⟨?_, ?_, ?_, ?_, ?_⟩
  · intro a b; rw [resCap_gSetdefault]; exact inv.val a b
  · intro a b; unfold resAdj; rw [show gGet (gSetdefault res k) a = _ from rfl]
    rw [← resAdj, resAdj_gSetdefault]
    exact inv.key a b
  · intro a
    rw [gGet_isSome_gSetdefault, inv.outer a]
    simp only [List.mem_append, List.mem_singleton]
    tauto
  · unfold gSetdefault
    by_cases hp : (gGet res k).isSome
    · simpa [hp] using inv.nodupKeys
    · simp only [hp, Bool.false_eq_true, if_false, List.map_append]
      rw [List.nodup_append]
      refine ⟨inv.nodupKeys, by simp, ?_⟩
      intro a ha hb
      simp at hb
      rw [hb] at ha
      exact hp ((gGet_isSome_iff_mem res k).mpr ha)
  · intro p hp
    unfold gSetdefault at hp
    by_cases hq : (gGet res k).isSome
    · rw [if_pos hq] at hp; exact inv.nodupRows p hp
    · simp only [hq, Bool.false_eq_true, if_false, List.mem_append] at hp
      rcases hp with hp | hp
      · exact inv.nodupRows p hp
      · simp at hp; subst hp; simp

theorem buildInv_step (res : Graph) (outs : List Node)
    (D : List (Node × Node × Int)) (u v : Node) (c : Int)
    (inv : BuildInv res outs D) (hu : (gGet res u).isSome)
    (hfresh : elookup D u v = none) :
    BuildInv (buildResidualStep res u v c) outs (D ++ [(u, v, c)]) := by
  have hres1 : ∀ a b, resCap (resUpdate res u v c) a b =
      if a = u ∧ b = v then c else resCap res a b := resCap_resUpdate res u v c
  have hkey1 : ∀ a b, (rowGet (resAdj (resUpdate res u v c) a) b).isSome ↔
      (a = u ∧ b = v) ∨ (rowGet (resAdj res a) b).isSome := by
    intro a b
    by_cases ha : a = u
    · subst ha
      rw [resAdj_resUpdate_self, rowGet_isSome_rowSet]
      constructor
      · rintro (h | h)
        · exact Or.inl ⟨rfl, h⟩
        · exact Or.inr h
      · rintro (⟨_, h⟩ | h)
        · exact Or.inl h
        · exact Or.inr h
    · rw [resAdj_resUpdate_ne _ _ _ _ _ ha]
      simp [ha]
  have houter1 : ∀ a, (gGet (resUpdate res u v c) a).isSome ↔ (gGet res a).isSome := by
    intro a
    rw [show resUpdate res u v c = gSet res u (rowSet (resAdj res u) v c) from rfl]
    rw [gGet_isSome_gSet]
    constructor
    · rintro (h | h)
      · subst h; exact hu
      · exact h
    · exact Or.inr
  -- stage 2: setdefault v
  have hcap2 : ∀ a b, resCap (gSetdefault (resUpdate res u v c) v) a b =
      if a = u ∧ b = v then c else resCap res a b := by
    intro a b; rw [resCap_gSetdefault]; exact hres1 a b
  have hkey2 : ∀ a b,
      (rowGet (resAdj (gSetdefault (resUpdate res u v c) v) a) b).isSome ↔
      (a = u ∧ b = v) ∨ (rowGet (resAdj res a) b).isSome := by
    intro a b; rw [resAdj_gSetdefault]; exact hkey1 a b
  have houter2 : ∀ a, (gGet (gSetdefault (resUpdate res u v c) v) a).isSome ↔
      a = v ∨ (gGet res a).isSome := by
    intro a; rw [gGet_isSome_gSetdefault, houter1 a]
  have hvpres : (gGet (gSetdefault (resUpdate res u v c) v) v).isSome :=
    (houter2 v).mpr (Or.inl rfl)
  have hnodupK1 : ((resUpdate res u v c).map Prod.fst).Nodup := by
    rw [show resUpdate res u v c = gSet res u (rowSet (resAdj res u) v c) from rfl]
    exact gSet_nodup _ _ _ inv.nodupKeys
  have hnodupR1 : ∀ p ∈ resUpdate res u v c, (p.2.map Prod.fst).Nodup := by
    intro p hp
    rcases mem_gSet _ _ _ _ hp with h | h
    · exact inv.nodupRows p h
    · subst h
      refine rowSet_nodup _ _ _ ?_
      cases hg : gGet res u with
      | none => simp [resAdj, hg]
      | some row =>
        have := inv.nodupRows (u, row) (gGet_mem _ _ _ hg)
        simpa [resAdj, hg] using this
  have hnodupK2 : ((gSetdefault (resUpdate res u v c) v).map Prod.fst).Nodup := by
    unfold gSetdefault
    by_cases hp : (gGet (resUpdate res u v c) v).isSome
    · simpa [hp] using hnodupK1
    · simp only [hp, Bool.false_eq_true, if_false, List.map_append]
      rw [List.nodup_append]
      refine ⟨hnodupK1, by simp, ?_⟩
      intro a ha hb
      simp at hb
      rw [hb] at ha
      exact hp ((gGet_isSome_iff_mem _ v).mpr ha)
  have hnodupR2 : ∀ p ∈ gSetdefault (resUpdate res u v c) v,
      (p.2.map Prod.fst).Nodup := by
    intro p hp
    unfold gSetdefault at hp
    by_cases hq : (gGet (resUpdate res u v c) v).isSome
    · rw [if_pos hq] at hp; exact hnodupR1 p hp
    · simp only [hq, Bool.false_eq_true, if_false, List.mem_append] at hp
      rcases hp with hp | hp
      · exact hnodupR1 p hp
      · simp at hp; subst hp; simp
  have hdef : buildResidualStep res u v c =
      if (rowGet (resAdj (gSetdefault (resUpdate res u v c) v) v) u).isSome
      then gSetdefault (resUpdate res u v c) v
      else resUpdate (gSetdefault (resUpdate res u v c) v) v u 0 := rfl
  by_cases h3 : (rowGet (resAdj (gSetdefault (resUpdate res u v c) v) v) u).isSome
  · -- reverse key already present: the guard leaves the residual unchanged
    rw [hdef, if_pos h3]
    refine ⟨?_, ?_, ?_, hnodupK2, hnodupR2⟩
    · intro a b
      rw [hcap2 a b, elookup_snoc_getD D u v c hfresh a b, inv.val a b]
    · intro a b
      rw [hkey2 a b, elookup_snoc_isSome, elookup_snoc_isSome, inv.key a b]
      by_cases hab : a = v ∧ b = u
      · obtain ⟨ha, hb⟩ := hab
        have h3' := (hkey2 v u).mp h3
        rw [inv.key v u] at h3'
        subst ha; subst hb
        tauto
      · tauto
    · intro a
      rw [houter2 a, inv.outer a]
      constructor
      · rintro (h | h | h)
        · subst h; exact Or.inr ⟨u, c, by simp⟩
        · exact Or.inl h
        · obtain ⟨x, cc, hx⟩ := h; exact Or.inr ⟨x, cc, by simp [hx]⟩
      · rintro (h | h)
        · exact Or.inr (Or.inl h)
        · obtain ⟨x, cc, hx⟩ := h
          simp only [List.mem_append, List.mem_singleton] at hx
          rcases hx with hx | hx
          · exact Or.inr (Or.inr ⟨x, cc, hx⟩)
          · injection hx with h1 h2
            injection h2 with h2a h2b
            exact Or.inl h2a
  · -- reverse key absent: `res[v][u] = 0`
    have hne : ¬ (v = u ∧ u = v) := fun hh => h3 ((hkey2 v u).mpr (Or.inl hh))
    have hkr : ¬ (rowGet (resAdj res v) u).isSome :=
      fun hh => h3 ((hkey2 v u).mpr (Or.inr hh))
    have hvune : ¬ (v = u) := fun hh => hne ⟨hh, hh.symm⟩
    rw [hdef, if_neg h3]
    have hcap3 : ∀ a b, resCap (resUpdate (gSetdefault (resUpdate res u v c) v) v u 0) a b =
        if a = v ∧ b = u then 0 else resCap (gSetdefault (resUpdate res u v c) v) a b :=
      resCap_resUpdate _ v u 0
    have hkey3 : ∀ a b,
        (rowGet (resAdj (resUpdate (gSetdefault (resUpdate res u v c) v) v u 0) a) b).isSome ↔
        (a = v ∧ b = u) ∨
          (rowGet (resAdj (gSetdefault (resUpdate res u v c) v) a) b).isSome := by
      intro a b
      by_cases ha : a = v
      · subst ha
        rw [resAdj_resUpdate_self, rowGet_isSome_rowSet]
        constructor
        · rintro (h | h)
          · exact Or.inl ⟨rfl, h⟩
          · exact Or.inr h
        · rintro (⟨_, h⟩ | h)
          · exact Or.inl h
          · exact Or.inr h
      · rw [resAdj_resUpdate_ne _ _ _ _ _ ha]
        simp [ha]
    refine ⟨?_, ?_, ?_, ?_, ?_⟩
    · intro a b
      rw [hcap3 a b, elookup_snoc_getD D u v c hfresh a b]
      by_cases hab : a = v ∧ b = u
      · have hz : resCap res v u = 0 := resCap_eq_zero_of_no_key res v u hkr
        have hz2 : (elookup D v u).getD 0 = 0 := by rw [← inv.val v u]; exact hz
        have hcond : ¬ (a = u ∧ b = v) :=
          fun hh => hvune (hab.1.symm.trans hh.1)
        rw [if_pos hab, if_neg hcond, hab.1, hab.2]
        exact hz2.symm
      · rw [if_neg hab, hcap2 a b, inv.val a b]
    · intro a b
      rw [hkey3 a b, hkey2 a b, elookup_snoc_isSome, elookup_snoc_isSome, inv.key a b]
      constructor
      · rintro (⟨h1, h2⟩ | h | hQ | hR)
        · exact Or.inr (Or.inl ⟨h2, h1⟩)
        · exact Or.inl (Or.inl h)
        · exact Or.inl (Or.inr hQ)
        · exact Or.inr (Or.inr hR)
      · rintro ((h | hQ) | ⟨h1, h2⟩ | hR)
        · exact Or.inr (Or.inl h)
        · exact Or.inr (Or.inr (Or.inl hQ))
        · exact Or.inl ⟨h2, h1⟩
        · exact Or.inr (Or.inr (Or.inr hR))
    · intro a
      have houter3 : (gGet (resUpdate (gSetdefault (resUpdate res u v c) v) v u 0) a).isSome ↔
          (gGet (gSetdefault (resUpdate res u v c) v) a).isSome := by
        rw [show resUpdate (gSetdefault (resUpdate res u v c) v) v u 0 =
            gSet (gSetdefault (resUpdate res u v c) v) v
              (rowSet (resAdj (gSetdefault (resUpdate res u v c) v) v) u 0) from rfl]
        rw [gGet_isSome_gSet]
        constructor
        · rintro (h | h)
          · subst h; exact hvpres
          · exact h
        · exact Or.inr
      rw [houter3, houter2 a, inv.outer a]
      constructor
      · rintro (h | h | h)
        · subst h; exact Or.inr ⟨u, c, by simp⟩
        · exact Or.inl h
        · obtain ⟨x, cc, hx⟩ := h; exact Or.inr ⟨x, cc, by simp [hx]⟩
      · rintro (h | h)
        · exact Or.inr (Or.inl h)
        · obtain ⟨x, cc, hx⟩ := h
          simp only [List.mem_append, List.mem_singleton] at hx
          rcases hx with hx | hx
          · exact Or.inr (Or.inr ⟨x, cc, hx⟩)
          · injection hx with h1 h2
            injection h2 with h2a h2b
            exact Or.inl h2a
    · rw [show resUpdate (gSetdefault (resUpdate res u v c) v) v u 0 =
          gSet (gSetdefault (resUpdate res u v c) v) v
            (rowSet (resAdj (gSetdefault (resUpdate res u v c) v) v) u 0) from rfl]
      rw [gSet_keys_of_mem _ _ _ hvpres]
      exact hnodupK2
    · intro p hp
      rcases mem_gSet _ _ _ _ hp with h | h
      · exact hnodupR2 p h
      · subst h
        refine rowSet_nodup _ _ _ ?_
        obtain ⟨row, hrow⟩ := Option.isSome_iff_exists.mp hvpres
        have := hnodupR2 (v, row) (gGet_mem _ _ _ hrow)
        simpa [resAdj, hrow] using this

theorem fresh_of_pairwise (D E : List (Node × Node × Int)) (u v : Node) (c : Int)
    (h : List.Pairwise EdgeNe (D ++ (u, v, c) :: E)) : elookup D u v = none := by
  rw [List.pairwise_append] at h
  refine elookup_none D u v ?_
  intro e he
  exact h.2.2 e he (u, v, c) (by simp)

theorem flatEdges_cons (u : Node) (row : Row) (rest : Graph) :
    flatEdges ((u, row) :: rest) = edgesOfRow u row ++ flatEdges rest := rfl

theorem innerFold_inv (u : Node) :
    ∀ (row : Row) (res : Graph) (outs : List Node) (D : List (Node × Node × Int)),
    BuildInv res outs D → (gGet res u).isSome →
    List.Pairwise EdgeNe (D ++ edgesOfRow u row) →
    BuildInv (row.foldl (fun res q => buildResidualStep res u q.1 q.2) res) outs
      (D ++ edgesOfRow u row)
  | [], res, outs, D, inv, _, _ => by simpa [edgesOfRow] using inv
  | (v, c) :: rest, res, outs, D, inv, hu, hp => by
    have hcons : edgesOfRow u ((v, c) :: rest) = (u, v, c) :: edgesOfRow u rest := rfl
    have hfresh : elookup D u v = none := by
      rw [hcons] at hp
      exact fresh_of_pairwise D (edgesOfRow u rest) u v c hp
    have inv1 := buildInv_step res outs D u v c inv hu hfresh
    have hu1 : (gGet (buildResidualStep res u v c) u).isSome := by
      rcases (inv.outer u).mp hu with h | ⟨x, cc, hx⟩
      · exact (inv1.outer u).mpr (Or.inl h)
      · exact (inv1.outer u).mpr (Or.inr ⟨x, cc, by simp [hx]⟩)
    have hp1 : List.Pairwise EdgeNe ((D ++ [(u, v, c)]) ++ edgesOfRow u rest) := by
      rw [hcons] at hp
      simpa [List.append_assoc] using hp
    have hrec := innerFold_inv u rest (buildResidualStep res u v c) outs
      (D ++ [(u, v, c)]) inv1 hu1 hp1
    rw [hcons]
    simpa [List.append_assoc] using hrec

theorem outerFold_inv :
    ∀ (g : Graph) (res : Graph) (outs : List Node) (D : List (Node × Node × Int)),
    BuildInv res outs D →
    List.Pairwise EdgeNe (D ++ flatEdges g) →
    BuildInv
      (g.foldl
        (fun res p =>
          p.2.foldl (fun res q => buildResidualStep res p.1 q.1 q.2) (gSetdefault res p.1))
        res)
      (outs ++ g.map Prod.fst) (D ++ flatEdges g)
  | [], res, outs, D, inv, _ => by simpa [flatEdges] using inv
  | (u, row) :: rest, res, outs, D, inv, hp => by
    have inv0 := buildInv_setdefault res outs D u
    have hu : (gGet (gSetdefault res u) u).isSome :=
      (gGet_isSome_gSetdefault _ _ _).mpr (Or.inl rfl)
    have hpInner : List.Pairwise EdgeNe (D ++ edgesOfRow u row) := by
      rw [flatEdges_cons] at hp
      refine List.Pairwise.sublist ?_ hp
      rw [← List.append_assoc]
      exact (D ++ edgesOfRow u row).sublist_append_left _
    have inv1 := innerFold_inv u row (gSetdefault res u) (outs ++ [u]) D
      (inv0 inv) hu hpInner
    have hp1 : List.Pairwise EdgeNe ((D ++ edgesOfRow u row) ++ flatEdges rest) := by
      rw [flatEdges_cons] at hp
      simpa [List.append_assoc] using hp
    have hrec := outerFold_inv rest
      (row.foldl (fun res q => buildResidualStep res u q.1 q.2) (gSetdefault res u))
      (outs ++ [u]) (D ++ edgesOfRow u row) inv1 hp1
    rw [flatEdges_cons]
    simpa [List.append_assoc] using hrec

theorem buildInv_full (g : Graph) (hp : List.Pairwise EdgeNe (flatEdges g)) :
    BuildInv (build_residual g) (g.map Prod.fst) (flatEdges g) := by
  have h := outerFold_inv g [] [] [] buildInv_nil (by simpa using hp)
  simpa [build_residual] using h

theorem wf_pairwise (g : Graph) (wf : GraphWF g) :
    List.Pairwise EdgeNe (flatEdges g) := by
  unfold flatEdges
  rw [List.pairwise_flatten]
  constructor
  · intro l' hl'
    rw [List.mem_map] at hl'
    obtain ⟨p, hp, rfl⟩ := hl'
    rw [List.pairwise_map]
    have hnd := wf.2 p hp
    have : (p.2.map Prod.fst).Pairwise (· ≠ ·) := hnd
    rw [List.pairwise_map] at this
    refine this.imp ?_
    intro a b hab
    exact fun hc => hab hc.2
  · rw [List.pairwise_map]
    have hnd : (g.map Prod.fst).Pairwise (· ≠ ·) := wf.1
    rw [List.pairwise_map] at hnd
    refine hnd.imp ?_
    intro p1 p2 hne x hx y hy
    rw [List.mem_map] at hx hy
    obtain ⟨q1, _, rfl⟩ := hx
    obtain ⟨q2, _, rfl⟩ := hy
    exact fun hc => hne hc.1

theorem elookup_edgesOfRow_self (u : Node) (row : Row) (b : Node) :
    elookup (edgesOfRow u row) u b = rowGet row b := by
  induction row with
  | nil => rfl
  | cons q rest ih =>
    obtain ⟨y, c⟩ := q
    by_cases hy : y = b
    · subst hy; simp [edgesOfRow, elookup, rowGet]
    · simpa [edgesOfRow, elookup, rowGet, hy] using ih

theorem elookup_edgesOfRow_ne (u : Node) (row : Row) (a b : Node) (h : a ≠ u) :
    elookup (edgesOfRow u row) a b = none := by
  induction row with
  | nil => rfl
  | cons q rest ih =>
    obtain ⟨y, c⟩ := q
    have h2 : ¬ (u = a ∧ y = b) := fun hh => h hh.1.symm
    simpa [edgesOfRow, elookup, h2] using ih

theorem elookup_flatEdges_notmem (g : Graph) (a b : Node)
    (h : a ∉ g.map Prod.fst) : elookup (flatEdges g) a b = none := by
  induction g with
  | nil => rfl
  | cons p rest ih =>
    obtain ⟨u, row⟩ := p
    simp only [List.map_cons, List.mem_cons, not_or] at h
    rw [flatEdges_cons, elookup_append,
      elookup_edgesOfRow_ne u row a b (fun hh => h.1 hh), ih h.2]

theorem elookup_flatEdges (g : Graph) (wf : GraphWF g) (a b : Node) :
    elookup (flatEdges g) a b = rowGet (resAdj g a) b := by
  induction g with
  | nil => simp [flatEdges, elookup, resAdj, gGet, rowGet]
  | cons p rest ih =>
    obtain ⟨u, row⟩ := p
    have wfrest : GraphWF rest :=
      ⟨(List.nodup_cons.mp wf.1).2, fun q hq => wf.2 q (by simp [hq])⟩
    rw [flatEdges_cons, elookup_append]
    by_cases ha : u = a
    · subst ha
      have hnm : u ∉ rest.map Prod.fst := (List.nodup_cons.mp wf.1).1
      rw [elookup_edgesOfRow_self, elookup_flatEdges_notmem rest u b hnm]
      have : resAdj ((u, row) :: rest) u = row := by simp [resAdj, gGet]
      rw [this]
      cases hr : rowGet row b <;> simp
    · rw [elookup_edgesOfRow_ne u row a b (fun hh => ha hh.symm), ih wfrest]
      have : resAdj ((u, row) :: rest) a = resAdj rest a := by
        simp [resAdj, gGet, ha]
      rw [this]

theorem rowGet_isSome_of_mem (r : Row) (k : Node) (c : Int) (h : (k, c) ∈ r) :
    (rowGet r k).isSome := by
  induction r with
  | nil => simp at h
  | cons p rest ih =>
    obtain ⟨ka, va⟩ := p
    rcases List.mem_cons.mp h with h | h
    · injection h with h1 h2
      subst h1
      simp [rowGet]
    · by_cases hk : ka = k <;> simp [rowGet, hk, ih h]

theorem rowGet_mem (r : Row) (k : Node) (c : Int) (h : rowGet r k = some c) :
    (k, c) ∈ r := by
  induction r with
  | nil => simp [rowGet] at h
  | cons p rest ih =>
    obtain ⟨ka, va⟩ := p
    by_cases hk : ka = k
    · subst hk
      simp [rowGet] at h
      simp [h]
    · simp only [rowGet, if_neg hk] at h
      simp [ih h]

theorem mem_gGet_nodup (g : Graph) (x : Node) (row : Row)
    (hnd : (g.map Prod.fst).Nodup) (h : (x, row) ∈ g) : gGet g x = some row := by
  induction g with
  | nil => simp at h
  | cons p rest ih =>
    obtain ⟨ka, ra⟩ := p
    simp only [List.map_cons, List.nodup_cons] at hnd
    rcases List.mem_cons.mp h with h | h
    · injection h with h1 h2
      subst h1; subst h2
      simp [gGet]
    · have hne : ka ≠ x := by
        intro hh
        subst hh
        exact hnd.1 (List.mem_map.mpr ⟨(ka, row), h, rfl⟩)
      simp [gGet, hne, ih hnd.2 h]

theorem mem_flatEdges (g : Graph) (x a : Node) (c : Int) :
    (x, a, c) ∈ flatEdges g ↔ ∃ row, (x, row) ∈ g ∧ (a, c) ∈ row := by
  unfold flatEdges
  rw [List.mem_flatten]
  constructor
  · rintro ⟨l', hl', he⟩
    rw [List.mem_map] at hl'
    obtain ⟨p, hp, rfl⟩ := hl'
    rw [List.mem_map] at he
    obtain ⟨q, hq, hqe⟩ := he
    injection hqe with h1 h2
    injection h2 with h2a h2b
    subst h1
    refine ⟨p.2, hp, ?_⟩
    have : q = (a, c) := by
      obtain ⟨qa, qc⟩ := q
      simp only at h2a h2b
      subst h2a; subst h2b; rfl
    rw [← this]; exact hq
  · rintro ⟨row, hrow, hac⟩
    exact ⟨(row.map (fun q => (x, q.1, q.2))),
      List.mem_map.mpr ⟨(x, row), hrow, rfl⟩,
      List.mem_map.mpr ⟨(a, c), hac, rfl⟩⟩

theorem resCap_build (g : Graph) (wf : GraphWF g) (a b : Node) :
    resCap (build_residual g) a b = resCap g a b := by
  rw [(buildInv_full g (wf_pairwise g wf)).val a b, elookup_flatEdges g wf a b]
  rfl

theorem key_build (g : Graph) (wf : GraphWF g) (a b : Node) :
    (rowGet (resAdj (build_residual g) a) b).isSome ↔
      (rowGet (resAdj g a) b).isSome ∨ (rowGet (resAdj g b) a).isSome := by
  rw [(buildInv_full g (wf_pairwise g wf)).key a b,
    elookup_flatEdges g wf a b, elookup_flatEdges g wf b a]

theorem symKeys_build (g : Graph) (wf : GraphWF g) (u v : Node) :
    (rowGet (resAdj (build_residual g) u) v).isSome ↔
      (rowGet (resAdj (build_residual g) v) u).isSome := by
  rw [key_build g wf u v, key_build g wf v u]
  tauto

theorem build_graphWF (g : Graph) (wf : GraphWF g) : GraphWF (build_residual g) :=
  ⟨(buildInv_full g (wf_pairwise g wf)).nodupKeys,
   (buildInv_full g (wf_pairwise g wf)).nodupRows⟩

theorem outer_build (g : Graph) (wf : GraphWF g) (a : Node) :
    (gGet (build_residual g) a).isSome ↔
      a ∈ g.map Prod.fst ∨ ∃ x, (rowGet (resAdj g x) a).isSome := by
  rw [(buildInv_full g (wf_pairwise g wf)).outer a]
  constructor
  · rintro (h | ⟨x, c, hx⟩)
    · exact Or.inl h
    · obtain ⟨row, hrow, hac⟩ := (mem_flatEdges g x a c).mp hx
      refine Or.inr ⟨x, ?_⟩
      rw [show resAdj g x = row by simp [resAdj, mem_gGet_nodup g x row wf.1 hrow]]
      exact rowGet_isSome_of_mem row a c hac
  · rintro (h | ⟨x, hx⟩)
    · exact Or.inl h
    · obtain ⟨c, hc⟩ := Option.isSome_iff_exists.mp hx
      have hmem : (a, c) ∈ resAdj g x := rowGet_mem _ a c hc
      cases hg : gGet g x with
      | none => rw [resAdj, hg] at hmem; simp at hmem
      | some row =>
        rw [resAdj, hg] at hmem
        simp only [Option.getD_some] at hmem
        exact Or.inr ⟨x, c, (mem_flatEdges g x a c).mpr ⟨row, gGet_mem g x row hg, hmem⟩⟩

/-- Non-negative capacities make the initial residual non-negative. -/
theorem resCap_nonneg_of_caps (g : Graph)
    (hcap : ∀ p ∈ g, ∀ q ∈ p.2, 0 ≤ q.2) (a b : Node) : 0 ≤ resCap g a b := by
  unfold resCap
  cases hr : rowGet (resAdj g a) b with
  | none => simp
  | some c =>
    have hmem : (b, c) ∈ resAdj g a := rowGet_mem _ b c hr
    cases hg : gGet g a with
    | none => rw [resAdj, hg] at hmem; simp at hmem
    | some row =>
      rw [resAdj, hg] at hmem
      simp only [Option.getD_some] at hmem
      simpa using hcap (a, row) (gGet_mem g a row hg) (b, c) hmem


/-! ## Frame property: the input graph component is never written -/

theorem ekStep_graph (st : St) (s t : Node) (st' : St) (b : Option Int)
    (h : ekStep st s t = some (some (st', b))) : st'.graph = st.graph := by
  unfold ekStep at h
  split at h
  · simp at h
  · split at h
    · split at h
      · simp at h
      · simp only [Option.some.injEq, Prod.mk.injEq] at h
        rw [← h.1]
    · simp at h

theorem ekLoop_graph (s t : Node) :
    ∀ (fuel : Nat) (st : St) (flow : Option Int) (r : Option Int × St),
    ekLoop s t fuel st flow = some r → r.2.graph = st.graph
  | 0, st, flow, r, h => by simp [ekLoop] at h
  | fuel + 1, st, flow, r, h => by
    simp only [ekLoop] at h
    cases hstep : ekStep st s t with
    | none => rw [hstep] at h; simp at h
    | some o =>
      rw [hstep] at h
      cases o with
      | none =>
        simp only [Option.some.injEq] at h
        rw [← h]
      | some pr =>
        obtain ⟨st', b⟩ := pr
        have h1 := ekLoop_graph s t fuel st' (oadd flow b) r h
        rw [h1, ekStep_graph st s t st' b hstep]

theorem dinicLoop_graph (s t : Node) :
    ∀ (fuel : Nat) (st : St) (flow : Int) (r : Int × St),
    dinicLoop s t fuel st flow = some r → r.2.graph = st.graph
  | 0, st, flow, r, h => by simp [dinicLoop] at h
  | fuel + 1, st, flow, r, h => by
    simp only [dinicLoop] at h
    split at h
    · simp at h
    · simp only [Option.some.injEq] at h
      rw [← h]
    · split at h
      · simp at h
      · split at h
        · simp only [Option.some.injEq] at h
          rw [← h]
        · have hg := dinicLoop_graph s t fuel _ _ r h
          exact hg

/-- C9: every solver leaves the capacity graph component of its state exactly
as it was: the Python code only ever assigns into the residual structure. -/
theorem C9_no_mutation (g : Graph) (s t : Node) :
    (edmonds_karpS g s t).map (fun r => r.2.graph) =
      (edmonds_karpS g s t).map (fun _ => g) ∧
    (edmonds_karp_with_flowsS g s t).map (fun r => r.2.graph) =
      (edmonds_karp_with_flowsS g s t).map (fun _ => g) ∧
    (dinicS g s t).map (fun r => r.2.graph) =
      (dinicS g s t).map (fun _ => g) := by
  have hek : ∀ r, edmonds_karpS g s t = some r → r.2.graph = g := by
    intro r h
    simp only [edmonds_karpS] at h
    split at h
    · simp at h
    · exact ekLoop_graph s t _ _ _ r h
  refine ⟨?_, ?_, ?_⟩
  · cases hr : edmonds_karpS g s t with
    | none => rfl
    | some r => simp [hek r hr]
  · cases hr : edmonds_karpS g s t with
    | none =>
      unfold edmonds_karp_with_flowsS
      rw [hr]
      rfl
    | some r =>
      obtain ⟨fl, st⟩ := r
      unfold edmonds_karp_with_flowsS
      rw [hr]
      cases fl with
      | none => rfl
      | some f =>
        have := hek (some f, st) hr
        simp at this
        simp [this]
  · cases hr : dinicS g s t with
    | none => rfl
    | some r =>
      have hrg : r.2.graph = g := by
        simp only [dinicS] at hr
        split at hr
        · simp at hr
        · exact dinicLoop_graph s t _ _ 0 r hr
      simp [hr, hrg]

/-! ## Claim C2: Scenario A -/

/-- C2 counterexample: on Scenario A's graph (`{A:{B:3,C:2}, B:{C:1,T:2},
C:{T:3}, T:{}}`, source A, sink T) neither solver returns 4: the value the
spec and the repository's own test expect is not what the code computes. -/
theorem C2_counterexample :
    edmonds_karp scenarioA "A" "T" ≠ some 4 ∧ dinic scenarioA "A" "T" ≠ some 4 := by
  constructor
  · intro h
    exact absurd ((rfl : edmonds_karp scenarioA "A" "T" = some 5) ▸ h) (by decide)
  · intro h
    exact absurd ((rfl : dinic scenarioA "A" "T" = some 5) ▸ h) (by decide)

/-- C2 (amended): on Scenario A's graph both edmonds_karp and dinic return
the max-flow value 5 (which is the true maximum flow of that graph: the cut
at the source has capacity 3 + 2 = 5 and the algorithms achieve it). -/
theorem C2_both_return_five :
    edmonds_karp scenarioA "A" "T" = some 5 ∧ dinic scenarioA "A" "T" = some 5 :=
  ⟨rfl, rfl⟩

/-! ## Claim C5: the cross-validator -/

/-- C5: `_compute_and_handle`'s reconciliation is a total function (it cannot
throw): when the two solvers' results differ, the authoritative value is the
maximum of the two and the disagreement flag is raised; when they are equal,
the shared value is authoritative and the flag is down. -/
theorem C5_reconcile (ek d : Int) :
    (d ≠ ek → reconcile ek d = (max ek d, true)) ∧
    (d = ek → reconcile ek d = (ek, false)) := by
  constructor
  · intro h; simp [reconcile, h]
  · intro h; simp [reconcile, h]

theorem C5_reconcile_witness :
    reconcile 4 7 = (max 4 7, true) ∧ reconcile 4 4 = (4, false) :=
  ⟨(C5_reconcile 4 7).1 (by decide), (C5_reconcile 4 4).2 rfl⟩

/-! ## Claim C6 (counterexample part) -/

/-- C6 counterexample: on a graph with a negative capacity the engine raises
nothing and completes normally with a result — there is no `InvalidGraphError`
anywhere in the code and `_build_residual` performs no validation. -/
theorem C6_counterexample :
    edmonds_karp negGraph "A" "T" = some 0 ∧
    dinic negGraph "A" "T" = some 0 ∧
    edmonds_karp_with_flows negGraph "A" "T" = some (0, [(("A", "B"), 0)]) :=
  ⟨rfl, rfl, rfl⟩


/-! ## Parent-map walk lemmas -/

theorem pSuffix_length_le (parent : ParentMap) (v : Node) :
    (pSuffix parent v).length ≤ parent.length := by
  induction parent with
  | nil => simp [pSuffix]
  | cons p rest ih =>
    obtain ⟨k, po⟩ := p
    by_cases hk : k = v
    · simp [pSuffix, hk]
    · simp only [pSuffix, if_neg hk, List.length_cons]
      exact le_trans ih (Nat.le_succ _)

theorem pSuffix_eq (parent : ParentMap) (v : Node) (po : Option Node)
    (h : pLookup parent v = some po) :
    ∃ rest', pSuffix parent v = (v, po) :: rest' := by
  induction parent with
  | nil => simp [pLookup] at h
  | cons p rest ih =>
    obtain ⟨k, po'⟩ := p
    by_cases hk : k = v
    · subst hk
      simp [pLookup] at h
      subst h
      exact ⟨rest, by simp [pSuffix]⟩
    · simp only [pLookup, if_neg hk] at h
      simpa [pSuffix, hk] using ih h

theorem parentOk_suffix (res : Graph) (s : Node) :
    ∀ (parent : ParentMap), ParentOk res s parent →
    ∀ v, ParentOk res s (pSuffix parent v)
  | [], _, v => by simp [pSuffix]; trivial
  | (k, po) :: rest, hok, v => by
    by_cases hk : k = v
    · simpa [pSuffix, hk] using hok
    · simp only [pSuffix, if_neg hk]
      exact parentOk_suffix res s rest hok.2.2 v

theorem pSuffix_lookup_isSome :
    ∀ (parent : ParentMap) (v x : Node),
    (pLookup (pSuffix parent v) x).isSome → (pLookup parent x).isSome
  | [], v, x, h => by simpa [pSuffix] using h
  | (k, po) :: rest, v, x, h => by
    by_cases hk : k = v
    · simpa [pSuffix, hk] using h
    · simp only [pSuffix, if_neg hk] at h
      have := pSuffix_lookup_isSome rest v x h
      by_cases hx : k = x <;> simp [pLookup, hx, this]

theorem parentOk_lookup_none (res : Graph) (s : Node) :
    ∀ (parent : ParentMap), ParentOk res s parent →
    ∀ v, pLookup parent v = some none → v = s
  | [], _, v, h => by simp [pLookup] at h
  | (k, po) :: rest, hok, v, h => by
    by_cases hk : k = v
    · subst hk
      simp [pLookup] at h
      subst h
      exact hok.1
    · simp only [pLookup, if_neg hk] at h
      exact parentOk_lookup_none res s rest hok.2.2 v h

theorem pSuffix_inner (res : Graph) (s : Node) :
    ∀ (parent : ParentMap), ParentOk res s parent →
    ∀ (v : Node) (po : Option Node) (rest' : ParentMap) (u : Node),
    pSuffix parent v = (v, po) :: rest' → (pLookup rest' u).isSome →
    pSuffix parent u = pSuffix rest' u
  | [], _, v, po, rest', u, heq, hu => by simp [pSuffix] at heq
  | (k, po0) :: rest, hok, v, po, rest', u, heq, hu => by
    by_cases hk : k = v
    · subst hk
      simp only [pSuffix, if_pos rfl] at heq
      injection heq with h1 h2
      injection h1 with h1a h1b
      subst h2
      have hku : ¬ (k = u) := by
        intro hh
        subst hh
        rw [Option.isSome_iff_exists] at hu
        obtain ⟨w, hw⟩ := hu
        rw [hok.2.1] at hw
        exact Option.noConfusion hw
      simp [pSuffix, hku]
    · simp only [pSuffix, if_neg hk] at heq
      have husuf : (pLookup (pSuffix rest v) u).isSome := by
        rw [heq]
        by_cases hvu : v = u <;> simp [pLookup, hvu, hu]
      have hurest : (pLookup rest u).isSome := pSuffix_lookup_isSome rest v u husuf
      have hku : ¬ (k = u) := by
        intro hh
        subst hh
        rw [Option.isSome_iff_exists] at hurest
        obtain ⟨w, hw⟩ := hurest
        rw [hok.2.1] at hw
        exact Option.noConfusion hw
      simp only [pSuffix, if_neg hku]
      exact pSuffix_inner res s rest hok.2.2 v po rest' u heq hu

theorem head?_append_left (l l' : List Node) (h : l ≠ []) :
    (l ++ l').head? = l.head? := by
  cases l with
  | nil => exact absurd rfl h
  | cons a rest => simp

theorem getLast?_cons_cons (x y : Node) (rest : List Node) :
    (x :: y :: rest).getLast? = (y :: rest).getLast? := by
  simp [List.getLast?_cons_cons]

theorem pathEdges_concat :
    ∀ (p : List Node) (u v : Node), p.getLast? = some u →
    pathEdges (p ++ [v]) = pathEdges p ++ [(u, v)]
  | [], u, v, h => by simp at h
  | [x], u, v, h => by
    simp only [List.getLast?_singleton, Option.some.injEq] at h
    subst h
    simp [pathEdges]
  | x :: y :: rest, u, v, h => by
    rw [getLast?_cons_cons] at h
    have ih := pathEdges_concat (y :: rest) u v h
    have e1 : pathEdges ((x :: y :: rest) ++ [v]) = (x, y) :: pathEdges ((y :: rest) ++ [v]) := rfl
    rw [e1, ih]
    rfl

theorem pathEdges_mem_endpoints :
    ∀ (p : List Node) (e : Node × Node), e ∈ pathEdges p → e.1 ∈ p ∧ e.2 ∈ p
  | [], e, h => by simp [pathEdges] at h
  | [x], e, h => by simp [pathEdges] at h
  | x :: y :: rest, e, h => by
    simp only [pathEdges, List.mem_cons] at h
    rcases h with h | h
    · subst h
      simp
    · have := pathEdges_mem_endpoints (y :: rest) e h
      exact ⟨List.mem_cons_of_mem x this.1, List.mem_cons_of_mem x this.2⟩

theorem walk_ok (res : Graph) (s : Node) :
    ∀ (fuel : Nat) (parent : ParentMap) (v : Node),
    ParentOk res s parent → pLookup parent s = some none →
    (pLookup parent v).isSome →
    (pSuffix parent v).length < fuel →
    ∃ p, walkPath parent s fuel v = some p ∧ PathOk res s v p ∧
      ∀ x ∈ p, (pLookup (pSuffix parent v) x).isSome
  | 0, parent, v, hok, hs, hv, hlen => by
    exact absurd hlen (by simp)
  | fuel + 1, parent, v, hok, hs, hv, hlen => by
    by_cases hvs : v = s
    · subst hvs
      refine ⟨[v], by simp [walkPath], ?_, ?_⟩
      · exact ⟨by simp, by simp, by simp, by simp, by simp [pathEdges]⟩
      · intro x hx
        simp only [List.mem_singleton] at hx
        subst hx
        obtain ⟨rest', hre⟩ := pSuffix_eq parent x _ (Option.isSome_iff_exists.mp hv).choose_spec
        rw [hre]
        simp [pLookup]
    · obtain ⟨po, hpo⟩ := Option.isSome_iff_exists.mp hv
      cases po with
      | none => exact absurd (parentOk_lookup_none res s parent hok v hpo) hvs
      | some u =>
        obtain ⟨rest', hre⟩ := pSuffix_eq parent v _ hpo
        have hoksuf : ParentOk res s (pSuffix parent v) := parentOk_suffix res s parent hok v
        rw [hre] at hoksuf
        have hpos : 0 < resCap res u v := hoksuf.1.1
        have hurest : (pLookup rest' u).isSome := hoksuf.1.2.1
        have hvnone : pLookup rest' v = none := hoksuf.2.1
        have hsufu : pSuffix parent u = pSuffix rest' u :=
          pSuffix_inner res s parent hok v (some u) rest' u hre hurest
        have hu_glob : (pLookup parent u).isSome := by
          refine pSuffix_lookup_isSome parent v u ?_
          rw [hre]
          by_cases hvu : v = u <;> simp [pLookup, hvu, hurest]
        have hlen' : (pSuffix parent u).length < fuel := by
          rw [hsufu]
          have h1 := pSuffix_length_le rest' u
          have h2 : rest'.length + 1 ≤ (pSuffix parent v).length := by rw [hre]; simp
          omega
        obtain ⟨p', hwalk, hpok, hcont⟩ :=
          walk_ok res s fuel parent u hok hs hu_glob hlen'
        refine ⟨p' ++ [v], ?_, ?_, ?_⟩
        · simp only [walkPath, if_neg hvs, hpo, hwalk]
          rfl
        · have hvnotp : v ∉ p' := by
            intro hmem
            have h1 := hcont v hmem
            rw [hsufu] at h1
            have h2 := pSuffix_lookup_isSome rest' u v h1
            rw [hvnone] at h2
            exact Option.noConfusion (Option.isSome_iff_exists.mp h2).choose_spec
          refine ⟨by simp, ?_, ?_, ?_, ?_⟩
          · rw [head?_append_left p' [v] hpok.ne]
            exact hpok.head
          · simp
          · rw [List.nodup_append]
            exact ⟨hpok.nodup, by simp, by
              intro x hx hx'
              simp only [List.mem_singleton] at hx'
              subst hx'
              exact hvnotp hx⟩
          · intro e he
            rw [pathEdges_concat p' u v hpok.last] at he
            rw [List.mem_append] at he
            rcases he with he | he
            · exact hpok.pos e he
            · simp only [List.mem_singleton] at he
              subst he
              exact hpos
        · intro x hx
          rw [List.mem_append] at hx
          rw [hre]
          rcases hx with hx | hx
          · have h1 := hcont x hx
            rw [hsufu] at h1
            have h2 := pSuffix_lookup_isSome rest' u x h1
            by_cases hvx : v = x <;> simp [pLookup, hvx, h2]
          · simp only [List.mem_singleton] at hx
            subst hx
            simp [pLookup]


/-! ## BFS invariants -/

theorem mem_rowGet_nodup (r : Row) (k : Node) (c : Int)
    (hnd : (r.map Prod.fst).Nodup) (h : (k, c) ∈ r) : rowGet r k = some c := by
  induction r with
  | nil => simp at h
  | cons p rest ih =>
    obtain ⟨ka, va⟩ := p
    simp only [List.map_cons, List.nodup_cons] at hnd
    rcases List.mem_cons.mp h with h | h
    · injection h with h1 h2
      subst h1; subst h2
      simp [rowGet]
    · have hne : ka ≠ k := by
        intro hh
        subst hh
        exact hnd.1 (List.mem_map.mpr ⟨(ka, c), h, rfl⟩)
      simp [rowGet, hne, ih hnd.2 h]

theorem graphWF_resAdj_nodup (res : Graph) (wf : GraphWF res) (w : Node) :
    ((resAdj res w).map Prod.fst).Nodup := by
  unfold resAdj
  cases hg : gGet res w with
  | none => simp
  | some row => simpa using wf.2 (w, row) (gGet_mem res w row hg)

theorem bfsScan_inv (res : Graph) (s t u : Node) :
    ∀ (row : Row) (parent : ParentMap) (q : List Node),
    (∀ e ∈ row, rowGet (resAdj res u) e.1 = some e.2) →
    ParentOk res s parent → pLookup parent s = some none →
    (pLookup parent u).isSome →
    (∀ x ∈ q, (pLookup parent x).isSome) →
    ParentOk res s (bfsScan t u row parent q).1 ∧
    pLookup (bfsScan t u row parent q).1 s = some none ∧
    (∀ x ∈ (bfsScan t u row parent q).2, (pLookup (bfsScan t u row parent q).1 x).isSome)
  | [], parent, q, _, hok, hs, _, hq => ⟨hok, hs, hq⟩
  | (v, cap) :: rest, parent, q, hrow, hok, hs, hu, hq => by
    have hrest : ∀ e ∈ rest, rowGet (resAdj res u) e.1 = some e.2 :=
      fun e he => hrow e (List.mem_cons_of_mem _ he)
    by_cases hg : 0 < cap ∧ pLookup parent v = none
    · have hvs : v ≠ s := by
        intro hh
        subst hh
        rw [hg.2] at hs
        exact Option.noConfusion hs
    -- the fresh node is added with parent u across a positive edge
      have hcap : resCap res u v = cap := by
        unfold resCap
        rw [hrow (v, cap) (List.mem_cons_self _ _)]
        rfl
      have hok' : ParentOk res s ((v, some u) :: parent) :=
        ⟨⟨by rw [hcap]; exact hg.1, hu, hvs⟩, hg.2, hok⟩
      have hs' : pLookup ((v, some u) :: parent) s = some none := by
        have : ¬ (v = s) := hvs
        simp [pLookup, this, hs]
      simp only [bfsScan, if_pos hg]
      by_cases hvt : v = t
      · rw [if_pos hvt]
        exact ⟨hok', hs', fun x hx => by
          by_cases hvx : v = x <;> simp [pLookup, hvx, hq x hx]⟩
      · rw [if_neg hvt]
        refine bfsScan_inv res s t u rest ((v, some u) :: parent) (q ++ [v])
          hrest hok' hs' ?_ ?_
        · by_cases hvu : v = u <;> simp [pLookup, hvu, hu]
        · intro x hx
          rcases List.mem_append.mp hx with hx | hx
          · by_cases hvx : v = x <;> simp [pLookup, hvx, hq x hx]
          · simp only [List.mem_singleton] at hx
            subst hx
            simp [pLookup]
    · simp only [bfsScan, if_neg hg]
      exact bfsScan_inv res s t u rest parent q hrest hok hs hu hq

theorem bfsLoop_inv (res : Graph) (s t : Node)
    (hnd : ∀ w, ((resAdj res w).map Prod.fst).Nodup) :
    ∀ (fuel : Nat) (parent : ParentMap) (q : List Node) (r : ParentMap),
    ParentOk res s parent → pLookup parent s = some none →
    (∀ x ∈ q, (pLookup parent x).isSome) →
    bfsLoop res t fuel parent q = some r →
    ParentOk res s r ∧ pLookup r s = some none
  | 0, parent, q, r, _, _, _, h => by simp [bfsLoop] at h
  | fuel + 1, parent, q, r, hok, hs, hq, h => by
    cases q with
    | nil =>
      simp only [bfsLoop, Option.some.injEq] at h
      rw [← h]
      exact ⟨hok, hs⟩
    | cons u q' =>
      simp only [bfsLoop] at h
      have hu : (pLookup parent u).isSome := hq u (List.mem_cons_self _ _)
      have hq' : ∀ x ∈ q', (pLookup parent x).isSome :=
        fun x hx => hq x (List.mem_cons_of_mem _ hx)
      have hrow : ∀ e ∈ resAdj res u, rowGet (resAdj res u) e.1 = some e.2 := by
        intro e he
        obtain ⟨a, c⟩ := e
        exact mem_rowGet_nodup _ a c (hnd u) he
      have hscan := bfsScan_inv res s t u (resAdj res u) parent q' hrow hok hs hu hq'
      by_cases hm : pMem (bfsScan t u (resAdj res u) parent q').1 t
      · rw [if_pos hm] at h
        simp only [Option.some.injEq] at h
        rw [← h]
        exact ⟨hscan.1, hscan.2.1⟩
      · rw [if_neg hm] at h
        exact bfsLoop_inv res s t hnd fuel _ _ r hscan.1 hscan.2.1 hscan.2.2 h

/-! ## Bottleneck lemmas -/

theorem foldl_omin_some (res : Graph) :
    ∀ (L : List (Node × Node)) (a b : Int),
    L.foldl (fun acc e => omin acc (resCap res e.1 e.2)) (some a) = some b →
    b ≤ a ∧ (∀ e ∈ L, b ≤ resCap res e.1 e.2) ∧
      (b = a ∨ ∃ e ∈ L, b = resCap res e.1 e.2)
  | [], a, b, h => by
    simp only [List.foldl_nil, Option.some.injEq] at h
    subst h
    exact ⟨le_refl _, by simp, Or.inl rfl⟩
  | e :: L', a, b, h => by
    simp only [List.foldl_cons, omin] at h
    obtain ⟨h1, h2, h3⟩ := foldl_omin_some res L' (min a (resCap res e.1 e.2)) b h
    refine ⟨le_trans h1 (min_le_left _ _), ?_, ?_⟩
    · intro e' he'
      rcases List.mem_cons.mp he' with he' | he'
      · subst he'
        exact le_trans h1 (min_le_right _ _)
      · exact h2 e' he'
    · rcases h3 with h3 | ⟨e', he', hval⟩
      · rcases min_choice a (resCap res e.1 e.2) with hm | hm
        · exact Or.inl (by rw [h3, hm])
        · exact Or.inr ⟨e, List.mem_cons_self _ _, by rw [h3, hm]⟩
      · exact Or.inr ⟨e', List.mem_cons_of_mem _ he', hval⟩

theorem pathMin_spec (res : Graph) (p : List Node) (b : Int)
    (h : pathMin res p = some b) :
    (∀ e ∈ pathEdges p, b ≤ resCap res e.1 e.2) ∧
      ∃ e ∈ pathEdges p, b = resCap res e.1 e.2 := by
  unfold pathMin at h
  cases hE : pathEdges p with
  | nil => rw [hE] at h; simp [omin] at h
  | cons e L' =>
    rw [hE] at h
    simp only [List.foldl_cons, omin] at h
    obtain ⟨h1, h2, h3⟩ := foldl_omin_some res L' (resCap res e.1 e.2) b h
    constructor
    · intro e' he'
      rcases List.mem_cons.mp he' with he' | he'
      · subst he'; exact h1
      · exact h2 e' he'
    · rcases h3 with h3 | ⟨e', he', hval⟩
      · exact ⟨e, List.mem_cons_self _ _, h3⟩
      · exact ⟨e', List.mem_cons_of_mem _ he', hval⟩

theorem pathMin_isSome (res : Graph) (p : List Node) (hne : pathEdges p ≠ []) :
    (pathMin res p).isSome := by
  unfold pathMin
  cases hE : pathEdges p with
  | nil => exact absurd hE hne
  | cons e L' =>
    simp only [List.foldl_cons, omin]
    have haux : ∀ (L : List (Node × Node)) (a : Int),
        (L.foldl (fun acc e => omin acc (resCap res e.1 e.2)) (some a)).isSome := by
      intro L
      induction L with
      | nil => intro a; simp
      | cons e' L'' ih => intro a; simpa [omin] using ih _
    exact haux L' _

theorem pathOk_edges_ne (res : Graph) (s t : Node) (p : List Node)
    (hp : PathOk res s t p) (hst : s ≠ t) : pathEdges p ≠ [] := by
  cases p with
  | nil => exact absurd rfl hp.ne
  | cons x rest =>
    cases rest with
    | nil =>
      have h1 : x = s := by simpa using hp.head
      have h2 : x = t := by simpa using hp.last
      exact absurd (h1 ▸ h2) hst
    | cons y rest' => simp [pathEdges]

theorem pathOk_bottleneck (res : Graph) (s t : Node) (p : List Node)
    (hp : PathOk res s t p) (hst : s ≠ t) :
    ∃ b : Int, pathMin res p = some b ∧ 1 ≤ b ∧
      ∀ e ∈ pathEdges p, b ≤ resCap res e.1 e.2 := by
  have hne := pathOk_edges_ne res s t p hp hst
  obtain ⟨b, hb⟩ := Option.isSome_iff_exists.mp (pathMin_isSome res p hne)
  obtain ⟨hle, e, he, hval⟩ := pathMin_spec res p b hb
  refine ⟨b, hb, ?_, hle⟩
  have := hp.pos e he
  omega

/-! ## The augmentation step of edmonds_karp -/

theorem ekStep_aug (st : St) (s t : Node) (st' : St) (b : Option Int)
    (hnd : ∀ w, ((resAdj st.res w).map Prod.fst).Nodup)
    (h : ekStep st s t = some (some (st', b))) :
    ∃ p, PathOk st.res s t p ∧ b = pathMin st.res p ∧
      st'.graph = st.graph ∧
      st'.res = applyAug st.res p ((pathMin st.res p).getD 0) := by
  unfold ekStep at h
  split at h
  · simp at h
  case _ parent heq =>
    split at h
    case isTrue hm =>
      split at h
      · simp at h
      case _ p hw =>
        have hinv := bfsLoop_inv st.res s t hnd (bfsFuel st.res)
          [(s, none)] [s] parent
          ⟨rfl, rfl, trivial⟩ (by simp [pLookup])
          (by intro x hx; simp only [List.mem_singleton] at hx; subst hx; simp [pLookup])
          heq
        have hfuel : (pSuffix parent t).length < parent.length + 1 :=
          lt_of_le_of_lt (pSuffix_length_le parent t) (Nat.lt_succ_self _)
        obtain ⟨p0, hw0, hpok, _⟩ :=
          walk_ok st.res s (parent.length + 1) parent t hinv.1 hinv.2 hm hfuel
        rw [hw0] at hw
        injection hw with hw
        subst hw
        simp only [Option.some.injEq, Prod.mk.injEq] at h
        refine ⟨p0, hpok, h.2.symm, ?_, ?_⟩
        · rw [← h.1]
        · rw [← h.1]
    · simp at h


/-! ## Pointwise description of an augmentation -/

theorem rowGet_isSome_iff_mem_keys (r : Row) (k : Node) :
    (rowGet r k).isSome ↔ k ∈ r.map Prod.fst := by
  induction r with
  | nil => simp [rowGet]
  | cons p rest ih =>
    obtain ⟨ka, va⟩ := p
    by_cases hk : ka = k
    · subst hk; simp [rowGet]
    · have h2 : ¬ k = ka := fun hh => hk hh.symm
      simp [rowGet, hk, h2, ih]

theorem rowGet_isSome_gGet (res : Graph) (u v : Node)
    (h : (rowGet (resAdj res u) v).isSome) : (gGet res u).isSome := by
  cases hg : gGet res u with
  | none => rw [resAdj, hg] at h; simp [rowGet] at h
  | some row => simp

theorem resUpdate_outer_keys (res : Graph) (u v : Node) (x : Int)
    (hu : (gGet res u).isSome) :
    (resUpdate res u v x).map Prod.fst = res.map Prod.fst :=
  gSet_keys_of_mem res u _ hu

theorem resAdj_keys_resUpdate (res : Graph) (u v : Node) (x : Int)
    (hv : (rowGet (resAdj res u) v).isSome) (w : Node) :
    (resAdj (resUpdate res u v x) w).map Prod.fst = (resAdj res w).map Prod.fst := by
  by_cases hw : w = u
  · subst hw
    rw [resAdj_resUpdate_self]
    exact rowSet_keys_of_mem _ v x hv
  · rw [resAdj_resUpdate_ne _ _ _ _ _ hw]

theorem applyAug_cons (res : Graph) (u v : Node) (rest : List Node) (b : Int) :
    applyAug res (u :: v :: rest) b =
      applyAug
        (resUpdate (resUpdate res u v (resCap res u v - b)) v u
          (resCap (resUpdate res u v (resCap res u v - b)) v u + b))
        (v :: rest) b := rfl

theorem applyAug_delta (res : Graph) :
    ∀ (p : List Node), p.Nodup → ∀ (b : Int) (a c : Node),
    resCap (applyAug res p b) a c =
      resCap res a c - (if (a, c) ∈ pathEdges p then b else 0)
        + (if (c, a) ∈ pathEdges p then b else 0)
  | [], _, b, a, c => by simp [applyAug, pathEdges]
  | [x], _, b, a, c => by simp [applyAug, pathEdges]
  | u :: v :: rest, hnd, b, a, c => by
    have huv : u ≠ v := by
      simp only [List.nodup_cons, List.mem_cons] at hnd
      exact fun hh => hnd.1 (Or.inl hh)
    have hunotin : u ∉ v :: rest := (List.nodup_cons.mp hnd).1
    have hnd' : (v :: rest).Nodup := (List.nodup_cons.mp hnd).2
    have hEuv : (u, v) ∉ pathEdges (v :: rest) := by
      intro hmem
      exact hunotin (pathEdges_mem_endpoints _ _ hmem).1
    have hEvu : (v, u) ∉ pathEdges (v :: rest) := by
      intro hmem
      exact hunotin (pathEdges_mem_endpoints _ _ hmem).2
    rw [applyAug_cons]
    have h1 : resCap (resUpdate res u v (resCap res u v - b)) v u = resCap res v u := by
      rw [resCap_resUpdate]
      have : ¬ (v = u ∧ u = v) := fun hh => huv hh.2
      rw [if_neg this]
    set res1 := resUpdate res u v (resCap res u v - b) with hres1
    set res2 := resUpdate res1 v u (resCap res1 v u + b) with hres2
    have hcap2 : ∀ x y, resCap res2 x y =
        if x = v ∧ y = u then resCap res v u + b
        else if x = u ∧ y = v then resCap res u v - b
        else resCap res x y := by
      intro x y
      rw [hres2, resCap_resUpdate]
      by_cases hxy : x = v ∧ y = u
      · rw [if_pos hxy, if_pos hxy, h1]
      · rw [if_neg hxy, if_neg hxy, hres1, resCap_resUpdate]
    have ih := applyAug_delta res2 (v :: rest) hnd' b a c
    rw [ih]
    have hedges : pathEdges (u :: v :: rest) = (u, v) :: pathEdges (v :: rest) := rfl
    rw [hedges]
    by_cases hac_uv : (a, c) = (u, v)
    · have ha : a = u := congrArg Prod.fst hac_uv
      have hc : c = v := congrArg Prod.snd hac_uv
      have hcond2 : a = u ∧ c = v := ⟨ha, hc⟩
      have hcond1 : ¬ (a = v ∧ c = u) := by
        intro hh
        exact huv (ha.symm.trans hh.1)
      rw [hcap2 a c, if_neg hcond1, if_pos hcond2]
      have hmem : (a, c) ∈ (u, v) :: pathEdges (v :: rest) := by
        rw [hac_uv]
        exact List.mem_cons_self _ _
      have hnotE : (a, c) ∉ pathEdges (v :: rest) := by
        rw [hac_uv]
        exact hEuv
      have hcanot : (c, a) ∉ pathEdges (v :: rest) := by
        intro hm
        rw [hc, ha] at hm
        exact hEvu hm
      have hcahead : ¬ ((c, a) = (u, v)) := by
        intro hm
        have h1' : c = u := congrArg Prod.fst hm
        exact huv (hc.symm.trans h1').symm
      have hcacons : (c, a) ∉ (u, v) :: pathEdges (v :: rest) := by
        intro hm
        rcases List.mem_cons.mp hm with hm | hm
        · exact hcahead hm
        · exact hcanot hm
      rw [if_neg hnotE, if_pos hmem, if_neg hcanot, if_neg hcacons, ha, hc]
      ring
    · by_cases hac_vu : (a, c) = (v, u)
      · have ha : a = v := congrArg Prod.fst hac_vu
        have hc : c = u := congrArg Prod.snd hac_vu
        have hcond1 : a = v ∧ c = u := ⟨ha, hc⟩
        rw [hcap2 a c, if_pos hcond1]
        have hacnot : (a, c) ∉ pathEdges (v :: rest) := by
          intro hm
          rw [ha, hc] at hm
          exact hEvu hm
        have haccons : (a, c) ∉ (u, v) :: pathEdges (v :: rest) := by
          intro hm
          rcases List.mem_cons.mp hm with hm | hm
          · have h1' : a = u := congrArg Prod.fst hm
            exact huv (h1'.symm.trans ha)
          · exact hacnot hm
        have hcamem : (c, a) ∈ (u, v) :: pathEdges (v :: rest) := by
          have : (c, a) = (u, v) := by rw [hc, ha]
          rw [this]
          exact List.mem_cons_self _ _
        have hcanotE : (c, a) ∉ pathEdges (v :: rest) := by
          intro hm
          rw [hc, ha] at hm
          exact hEuv hm
        rw [if_neg hacnot, if_neg haccons, if_neg hcanotE, if_pos hcamem, ha, hc]
        ring
      · have h2 : ¬ (a = v ∧ c = u) := by
          intro hh
          exact hac_vu (by rw [hh.1, hh.2])
        have h3 : ¬ (a = u ∧ c = v) := by
          intro hh
          exact hac_uv (by rw [hh.1, hh.2])
        rw [hcap2 a c, if_neg h2, if_neg h3]
        have hm1 : ((a, c) ∈ (u, v) :: pathEdges (v :: rest)) ↔
            ((a, c) ∈ pathEdges (v :: rest)) := by
          constructor
          · intro hm
            rcases List.mem_cons.mp hm with hm | hm
            · exact absurd hm hac_uv
            · exact hm
          · exact List.mem_cons_of_mem _
        have hm2 : ((c, a) ∈ (u, v) :: pathEdges (v :: rest)) ↔
            ((c, a) ∈ pathEdges (v :: rest)) := by
          constructor
          · intro hm
            rcases List.mem_cons.mp hm with hm | hm
            · exact absurd (by
                have h1' := congrArg Prod.fst hm
                have h2' := congrArg Prod.snd hm
                simp only at h1' h2'
                subst h1'; subst h2'
                rfl) hac_vu
            · exact hm
          · exact List.mem_cons_of_mem _
        rw [if_congr hm1 rfl rfl, if_congr hm2 rfl rfl]

theorem applyAug_keys (res : Graph) :
    ∀ (p : List Node) (b : Int),
    (∀ e ∈ pathEdges p, (rowGet (resAdj res e.1) e.2).isSome) →
    (∀ e ∈ pathEdges p, (rowGet (resAdj res e.2) e.1).isSome) →
    (applyAug res p b).map Prod.fst = res.map Prod.fst ∧
      ∀ w, (resAdj (applyAug res p b) w).map Prod.fst = (resAdj res w).map Prod.fst
  | [], b, _, _ => ⟨rfl, fun _ => rfl⟩
  | [x], b, _, _ => ⟨rfl, fun _ => rfl⟩
  | u :: v :: rest, b, hfwd, hbwd => by
    have hf0 : (rowGet (resAdj res u) v).isSome :=
      hfwd (u, v) (List.mem_cons_self _ _)
    have hb0 : (rowGet (resAdj res v) u).isSome :=
      hbwd (u, v) (List.mem_cons_self _ _)
    set res1 := resUpdate res u v (resCap res u v - b) with hres1
    have hkeys1 : ∀ w, (resAdj res1 w).map Prod.fst = (resAdj res w).map Prod.fst :=
      resAdj_keys_resUpdate res u v _ hf0
    have houter1 : res1.map Prod.fst = res.map Prod.fst :=
      resUpdate_outer_keys res u v _ (rowGet_isSome_gGet res u v hf0)
    have hb1 : (rowGet (resAdj res1 v) u).isSome := by
      rw [rowGet_isSome_iff_mem_keys, hkeys1 v, ← rowGet_isSome_iff_mem_keys]
      exact hb0
    set res2 := resUpdate res1 v u (resCap res1 v u + b) with hres2
    have hkeys2 : ∀ w, (resAdj res2 w).map Prod.fst = (resAdj res1 w).map Prod.fst :=
      resAdj_keys_resUpdate res1 v u _ hb1
    have houter2 : res2.map Prod.fst = res1.map Prod.fst :=
      resUpdate_outer_keys res1 v u _ (rowGet_isSome_gGet res1 v u hb1)
    have hkeys12 : ∀ w, (resAdj res2 w).map Prod.fst = (resAdj res w).map Prod.fst :=
      fun w => (hkeys2 w).trans (hkeys1 w)
    have hfwd' : ∀ e ∈ pathEdges (v :: rest), (rowGet (resAdj res2 e.1) e.2).isSome := by
      intro e he
      rw [rowGet_isSome_iff_mem_keys, hkeys12 e.1, ← rowGet_isSome_iff_mem_keys]
      exact hfwd e (List.mem_cons_of_mem _ he)
    have hbwd' : ∀ e ∈ pathEdges (v :: rest), (rowGet (resAdj res2 e.2) e.1).isSome := by
      intro e he
      rw [rowGet_isSome_iff_mem_keys, hkeys12 e.2, ← rowGet_isSome_iff_mem_keys]
      exact hbwd e (List.mem_cons_of_mem _ he)
    obtain ⟨ho, hr⟩ := applyAug_keys res2 (v :: rest) b hfwd' hbwd'
    rw [applyAug_cons]
    exact ⟨ho.trans (houter2.trans houter1), fun w => (hr w).trans (hkeys12 w)⟩


/-! ## Invariant preservation under one augmentation -/

theorem applyAug_augDelta (res : Graph) (p : List Node) (hnd : p.Nodup) (b : Int) :
    AugDelta res (applyAug res p b) p b :=
  fun a c => applyAug_delta res p hnd b a c

theorem pathEdges_target_mem_tail :
    ∀ (x : Node) (l : List Node) (a c : Node),
    (a, c) ∈ pathEdges (x :: l) → c ∈ l
  | x, [], a, c, h => by simp [pathEdges] at h
  | x, y :: rest, a, c, h => by
    simp only [pathEdges, List.mem_cons] at h
    rcases h with h | h
    · injection h with h1 h2
      subst h2
      simp
    · exact List.mem_cons_of_mem _ (pathEdges_target_mem_tail y rest a c h)

theorem pathEdges_src_mem_front :
    ∀ (x : Node) (l : List Node) (a c : Node),
    (a, c) ∈ pathEdges (x :: l) → a = x ∨ a ∈ l
  | x, [], a, c, h => by simp [pathEdges] at h
  | x, y :: rest, a, c, h => by
    simp only [pathEdges, List.mem_cons] at h
    rcases h with h | h
    · injection h with h1 h2
      exact Or.inl h1
    · rcases pathEdges_src_mem_front y rest a c h with h | h
      · exact Or.inr (h ▸ List.mem_cons_self _ _)
      · exact Or.inr (List.mem_cons_of_mem _ h)

theorem pathEdges_not_both :
    ∀ (p : List Node), p.Nodup → ∀ (a c : Node),
    (a, c) ∈ pathEdges p → (c, a) ∉ pathEdges p
  | [], _, a, c, h => by simp [pathEdges] at h
  | [x], _, a, c, h => by simp [pathEdges] at h
  | x :: y :: rest, hnd, a, c, h => by
    have hxnot : x ∉ y :: rest := (List.nodup_cons.mp hnd).1
    have hnd' : (y :: rest).Nodup := (List.nodup_cons.mp hnd).2
    intro hrev
    simp only [pathEdges, List.mem_cons] at h hrev
    rcases h with h | h
    · injection h with h1 h2
      rcases hrev with hrev | hrev
      · injection hrev with hr1 hr2
        refine hxnot ?_
        rw [h1.symm.trans hr2]
        exact List.mem_cons_self y rest
      · have hmem := pathEdges_target_mem_tail y rest c a hrev
        rw [h1] at hmem
        exact hxnot (List.mem_cons_of_mem _ hmem)
    · rcases hrev with hrev | hrev
      · injection hrev with hr1 hr2
        have hmem := pathEdges_target_mem_tail y rest a c h
        rw [hr1] at hmem
        exact hxnot (List.mem_cons_of_mem _ hmem)
      · exact pathEdges_not_both (y :: rest) hnd' a c h hrev

theorem augDelta_pairSum (res0 res res' : Graph) (p : List Node) (b : Int)
    (hd : AugDelta res res' p b) (hps : PairSum res0 res) : PairSum res0 res' := by
  intro u v
  rw [hd u v, hd v u]
  have := hps u v
  ring_nf
  ring_nf at this
  omega

theorem augDelta_nonneg (res res' : Graph) (p : List Node) (b : Int)
    (hd : AugDelta res res' p b) (hnn : Nonneg res) (hnd : p.Nodup)
    (hble : ∀ e ∈ pathEdges p, b ≤ resCap res e.1 e.2) (hb : 0 ≤ b) :
    Nonneg res' := by
  intro u v
  rw [hd u v]
  by_cases h1 : (u, v) ∈ pathEdges p
  · have h2 : (v, u) ∉ pathEdges p := pathEdges_not_both p hnd u v h1
    rw [if_pos h1, if_neg h2]
    have := hble (u, v) h1
    simp only at this
    omega
  · rw [if_neg h1]
    have := hnn u v
    by_cases h2 : (v, u) ∈ pathEdges p <;> [rw [if_pos h2]; rw [if_neg h2]] <;> omega

theorem sum_indicator_target (U : Finset Node) (b : Int) :
    ∀ (p : List Node), p.Nodup → (∀ x ∈ p, x ∈ U) →
    ∀ w, (∑ v ∈ U, if (v, w) ∈ pathEdges p then b else 0) =
      if w ∈ p ∧ p.head? ≠ some w then b else 0
  | [], _, _, w => by simp [pathEdges]
  | [x], _, _, w => by
    have h0 : pathEdges [x] = [] := rfl
    rw [h0]
    have h1 : ¬ (w ∈ [x] ∧ ([x] : List Node).head? ≠ some w) := by
      rintro ⟨h2, h3⟩
      simp only [List.mem_singleton] at h2
      refine h3 ?_
      rw [h2]
      rfl
    rw [if_neg h1]
    simp
  | x :: y :: rest, hnd, hsub, w => by
    have hxnot : x ∉ y :: rest := (List.nodup_cons.mp hnd).1
    have hnd' : (y :: rest).Nodup := (List.nodup_cons.mp hnd).2
    have hsub' : ∀ z ∈ y :: rest, z ∈ U := fun z hz => hsub z (List.mem_cons_of_mem _ hz)
    have hsplit : ∀ v, ((v, w) ∈ pathEdges (x :: y :: rest)) ↔
        ((v = x ∧ w = y) ∨ (v, w) ∈ pathEdges (y :: rest)) := by
      intro v
      simp only [pathEdges, List.mem_cons]
      constructor
      · rintro (h | h)
        · injection h with h1 h2
          exact Or.inl ⟨h1, h2⟩
        · exact Or.inr h
      · rintro (⟨h1, h2⟩ | h)
        · exact Or.inl (by rw [h1, h2])
        · exact Or.inr h
    have hnotboth : ∀ v, (v = x ∧ w = y) → (v, w) ∉ pathEdges (y :: rest) := by
      rintro v ⟨h1, h2⟩ hmem
      rcases pathEdges_src_mem_front y rest v w hmem with h | h
      · refine hxnot ?_
        rw [h1.symm.trans h]
        exact List.mem_cons_self y rest
      · rw [h1] at h
        exact hxnot (List.mem_cons_of_mem _ h)
    have hsum : ∀ v ∈ U, (if (v, w) ∈ pathEdges (x :: y :: rest) then b else 0) =
        (if v = x ∧ w = y then b else 0) +
        (if (v, w) ∈ pathEdges (y :: rest) then b else 0) := by
      intro v _
      by_cases h1 : v = x ∧ w = y
      · rw [if_pos h1, if_neg (hnotboth v h1), if_pos ((hsplit v).mpr (Or.inl h1))]
        ring
      · by_cases h2 : (v, w) ∈ pathEdges (y :: rest)
        · rw [if_neg h1, if_pos h2, if_pos ((hsplit v).mpr (Or.inr h2))]
          ring
        · rw [if_neg h1, if_neg h2, if_neg (by
            intro hm
            rcases (hsplit v).mp hm with hm | hm
            · exact h1 hm
            · exact h2 hm)]
          ring
    rw [Finset.sum_congr rfl hsum, Finset.sum_add_distrib]
    have ih := sum_indicator_target U b (y :: rest) hnd' hsub' w
    rw [ih]
    have hx_in : x ∈ U := hsub x (List.mem_cons_self _ _)
    by_cases hw : w = y
    · have hxy : x ≠ y := fun hh => hxnot (hh ▸ List.mem_cons_self _ _)
      have h1 : (∑ v ∈ U, if v = x ∧ w = y then b else 0) = b := by
        have hc : ∀ v ∈ U, (if v = x ∧ w = y then b else 0) = if v = x then b else 0 :=
          fun v _ => by simp [hw]
        rw [Finset.sum_congr rfl hc, Finset.sum_ite_eq' U x (fun _ => b), if_pos hx_in]
      rw [h1]
      have h2 : ¬ (w ∈ (y :: rest) ∧ (y :: rest).head? ≠ some w) := by
        simp [hw]
      have h3 : w ∈ (x :: y :: rest) ∧ (x :: y :: rest).head? ≠ some w := by
        refine ⟨by simp [hw], ?_⟩
        simp only [List.head?_cons, ne_eq, Option.some.injEq]
        rw [hw]
        exact hxy
      rw [if_neg h2, if_pos h3]
      ring
    · have h1 : (∑ v ∈ U, if v = x ∧ w = y then b else 0) = 0 := by
        refine Finset.sum_eq_zero ?_
        intro v _
        rw [if_neg (fun hh => hw hh.2)]
      rw [h1]
      by_cases hwx : w = x
      · have hnr : w ∉ (y :: rest) := by
          rw [hwx]
          exact hxnot
        have h2 : ¬ (w ∈ (y :: rest) ∧ (y :: rest).head? ≠ some w) := fun hh => hnr hh.1
        have h3 : ¬ (w ∈ (x :: y :: rest) ∧ (x :: y :: rest).head? ≠ some w) := by
          rintro ⟨_, h4⟩
          refine h4 ?_
          simp only [List.head?_cons, Option.some.injEq]
          exact hwx.symm
        rw [if_neg h2, if_neg h3]
        ring
      · have hiff : (w ∈ (y :: rest) ∧ (y :: rest).head? ≠ some w) ↔
            (w ∈ (x :: y :: rest) ∧ (x :: y :: rest).head? ≠ some w) := by
          simp only [List.head?_cons, List.mem_cons, ne_eq, Option.some.injEq]
          constructor
          · rintro ⟨h5, _⟩
            exact ⟨Or.inr h5, fun hh => hwx hh.symm⟩
          · rintro ⟨h5, _⟩
            rcases h5 with h5 | h5
            · exact absurd h5 hwx
            · exact ⟨h5, fun hh => hw hh.symm⟩
        rw [if_congr hiff rfl rfl]
        ring


theorem getLast?_mem : ∀ (l : List Node) (a : Node), l.getLast? = some a → a ∈ l
  | [], a, h => by simp at h
  | [x], a, h => by
    simp only [List.getLast?_singleton, Option.some.injEq] at h
    simp [h]
  | x :: y :: rest, a, h => by
    rw [getLast?_cons_cons] at h
    exact List.mem_cons_of_mem _ (getLast?_mem (y :: rest) a h)

theorem sum_indicator_source (U : Finset Node) (b : Int) :
    ∀ (p : List Node), p.Nodup → (∀ x ∈ p, x ∈ U) →
    ∀ w, (∑ v ∈ U, if (w, v) ∈ pathEdges p then b else 0) =
      if w ∈ p ∧ p.getLast? ≠ some w then b else 0
  | [], _, _, w => by simp [pathEdges]
  | [x], _, _, w => by
    have h0 : pathEdges [x] = [] := rfl
    rw [h0]
    have h1 : ¬ (w ∈ [x] ∧ ([x] : List Node).getLast? = some w → False) ∨ True := Or.inr trivial
    have h2 : ¬ (w ∈ [x] ∧ ([x] : List Node).getLast? ≠ some w) := by
      rintro ⟨h3, h4⟩
      simp only [List.mem_singleton] at h3
      refine h4 ?_
      rw [h3]
      rfl
    rw [if_neg h2]
    simp
  | x :: y :: rest, hnd, hsub, w => by
    have hxnot : x ∉ y :: rest := (List.nodup_cons.mp hnd).1
    have hnd' : (y :: rest).Nodup := (List.nodup_cons.mp hnd).2
    have hsub' : ∀ z ∈ y :: rest, z ∈ U := fun z hz => hsub z (List.mem_cons_of_mem _ hz)
    have hy_in : y ∈ U := hsub' y (List.mem_cons_self _ _)
    have hsplit : ∀ v, ((w, v) ∈ pathEdges (x :: y :: rest)) ↔
        ((w = x ∧ v = y) ∨ (w, v) ∈ pathEdges (y :: rest)) := by
      intro v
      simp only [pathEdges, List.mem_cons]
      constructor
      · rintro (h | h)
        · injection h with h1 h2
          exact Or.inl ⟨h1, h2⟩
        · exact Or.inr h
      · rintro (⟨h1, h2⟩ | h)
        · exact Or.inl (by rw [h1, h2])
        · exact Or.inr h
    have hnotboth : ∀ v, (w = x ∧ v = y) → (w, v) ∉ pathEdges (y :: rest) := by
      rintro v ⟨h1, _⟩ hmem
      rcases pathEdges_src_mem_front y rest w v hmem with h | h
      · refine hxnot ?_
        rw [h1.symm.trans h]
        exact List.mem_cons_self y rest
      · rw [h1] at h
        exact hxnot (List.mem_cons_of_mem _ h)
    have hsum : ∀ v ∈ U, (if (w, v) ∈ pathEdges (x :: y :: rest) then b else 0) =
        (if w = x ∧ v = y then b else 0) +
        (if (w, v) ∈ pathEdges (y :: rest) then b else 0) := by
      intro v _
      by_cases h1 : w = x ∧ v = y
      · rw [if_pos h1, if_neg (hnotboth v h1), if_pos ((hsplit v).mpr (Or.inl h1))]
        ring
      · by_cases h2 : (w, v) ∈ pathEdges (y :: rest)
        · rw [if_neg h1, if_pos h2, if_pos ((hsplit v).mpr (Or.inr h2))]
          ring
        · rw [if_neg h1, if_neg h2, if_neg (by
            intro hm
            rcases (hsplit v).mp hm with hm | hm
            · exact h1 hm
            · exact h2 hm)]
          ring
    rw [Finset.sum_congr rfl hsum, Finset.sum_add_distrib]
    have ih := sum_indicator_source U b (y :: rest) hnd' hsub' w
    rw [ih]
    rw [show (x :: y :: rest).getLast? = (y :: rest).getLast? from getLast?_cons_cons x y rest]
    by_cases hwx : w = x
    · have h1 : (∑ v ∈ U, if w = x ∧ v = y then b else 0) = b := by
        have hc : ∀ v ∈ U, (if w = x ∧ v = y then b else 0) = if v = y then b else 0 :=
          fun v _ => by simp [hwx]
        rw [Finset.sum_congr rfl hc, Finset.sum_ite_eq' U y (fun _ => b), if_pos hy_in]
      rw [h1]
      have hwnot : w ∉ (y :: rest) := by
        rw [hwx]
        exact hxnot
      have h2 : ¬ (w ∈ (y :: rest) ∧ (y :: rest).getLast? ≠ some w) := fun hh => hwnot hh.1
      have h3 : w ∈ (x :: y :: rest) ∧ (y :: rest).getLast? ≠ some w := by
        refine ⟨by simp [hwx], ?_⟩
        intro hh
        exact hwnot (getLast?_mem _ w hh)
      rw [if_neg h2, if_pos h3]
      ring
    · have h1 : (∑ v ∈ U, if w = x ∧ v = y then b else 0) = 0 := by
        refine Finset.sum_eq_zero ?_
        intro v _
        rw [if_neg (fun hh => hwx hh.1)]
      rw [h1]
      have hiff : (w ∈ (y :: rest) ∧ (y :: rest).getLast? ≠ some w) ↔
          (w ∈ (x :: y :: rest) ∧ (y :: rest).getLast? ≠ some w) := by
        constructor
        · rintro ⟨h5, h6⟩
          exact ⟨List.mem_cons_of_mem _ h5, h6⟩
        · rintro ⟨h5, h6⟩
          rcases List.mem_cons.mp h5 with h5 | h5
          · exact absurd h5 hwx
          · exact ⟨h5, h6⟩
      rw [if_congr hiff rfl rfl]
      ring

theorem augDelta_excess (res0 res res' : Graph) (p : List Node) (b : Int)
    (hd : AugDelta res res' p b) (hnd : p.Nodup) (U : Finset Node)
    (hsub : ∀ x ∈ p, x ∈ U) (w : Node) :
    excess res0 res' U w = excess res0 res U w
      + (if w ∈ p ∧ p.head? ≠ some w then b else 0)
      - (if w ∈ p ∧ p.getLast? ≠ some w then b else 0) := by
  unfold excess flowVal
  have hc : ∀ v ∈ U, resCap res0 v w - resCap res' v w =
      (resCap res0 v w - resCap res v w)
        + (if (v, w) ∈ pathEdges p then b else 0)
        - (if (w, v) ∈ pathEdges p then b else 0) := by
    intro v _
    rw [hd v w]
    ring
  rw [Finset.sum_congr rfl hc]
  rw [Finset.sum_sub_distrib, Finset.sum_add_distrib,
    sum_indicator_target U b p hnd hsub w, sum_indicator_source U b p hnd hsub w]

/-! ## The termination potential: residual capacity out of the source -/

theorem rowPot_eq (row : Row) (hnd : (row.map Prod.fst).Nodup) :
    rowPot row = ((row.map Prod.fst).map (fun v => ((rowGet row v).getD 0).toNat)).sum := by
  induction row with
  | nil => simp [rowPot]
  | cons q rest ih =>
    obtain ⟨k, c⟩ := q
    simp only [List.map_cons, List.nodup_cons] at hnd
    have hself : rowGet ((k, c) :: rest) k = some c := by simp [rowGet]
    have hcong : ∀ v ∈ rest.map Prod.fst,
        ((rowGet ((k, c) :: rest) v).getD 0).toNat = ((rowGet rest v).getD 0).toNat := by
      intro v hv
      have hne : k ≠ v := fun hh => hnd.1 (hh ▸ hv)
      simp [rowGet, hne]
    simp only [rowPot, List.map_cons, List.sum_cons] at *
    rw [hself]
    simp only [Option.getD_some]
    rw [List.map_congr_left hcong]
    rw [← ih hnd.2]

theorem sum_keys_single :
    ∀ (K : List Node), K.Nodup → ∀ (f f' : Node → Int) (v1 : Node), v1 ∈ K →
    ∀ (b : Int), 0 ≤ b → b ≤ f v1 → f' v1 = f v1 - b →
    (∀ x ∈ K, x ≠ v1 → f' x = f x) →
    (K.map (fun v => (f' v).toNat)).sum + b.toNat = (K.map (fun v => (f v).toNat)).sum
  | [], _, f, f', v1, hv, b, _, _, _, _ => by simp at hv
  | k :: K', hnd, f, f', v1, hv, b, hb0, hble, hch, hoth => by
    have hknotin : k ∉ K' := (List.nodup_cons.mp hnd).1
    have hnd' : K'.Nodup := (List.nodup_cons.mp hnd).2
    by_cases hk : k = v1
    · have hcong : ∀ x ∈ K', (f' x).toNat = (f x).toNat := by
        intro x hx
        have hne : x ≠ v1 := fun hh => hknotin (by rw [hk, ← hh]; exact hx)
        rw [hoth x (List.mem_cons_of_mem _ hx) hne]
      simp only [List.map_cons, List.sum_cons]
      rw [List.map_congr_left hcong, hk, hch]
      have : (f v1 - b).toNat + b.toNat = (f v1).toNat := by omega
      omega
    · have hv' : v1 ∈ K' := by
        rcases List.mem_cons.mp hv with hh | hh
        · exact absurd hh.symm hk
        · exact hh
      have hoth' : ∀ x ∈ K', x ≠ v1 → f' x = f x :=
        fun x hx => hoth x (List.mem_cons_of_mem _ hx)
      have ih := sum_keys_single K' hnd' f f' v1 hv' b hb0 hble hch hoth'
      simp only [List.map_cons, List.sum_cons]
      rw [hoth k (List.mem_cons_self _ _) hk]
      omega


/-! ## BFS fuel sufficiency -/

theorem filter_length_drop :
    ∀ (L : List Node), L.Nodup → ∀ (pold pnew : Node → Bool) (v : Node),
    v ∈ L → pold v = true → pnew v = false →
    (∀ x ∈ L, x ≠ v → pnew x = pold x) →
    (L.filter pnew).length + 1 = (L.filter pold).length
  | [], _, pold, pnew, v, hv, _, _, _ => by simp at hv
  | k :: L', hnd, pold, pnew, v, hv, hpo, hpn, hoth => by
    have hknotin : k ∉ L' := (List.nodup_cons.mp hnd).1
    have hnd' : L'.Nodup := (List.nodup_cons.mp hnd).2
    by_cases hk : k = v
    · have hcong : ∀ x ∈ L', pnew x = pold x := by
        intro x hx
        refine hoth x (List.mem_cons_of_mem _ hx) ?_
        intro hh
        exact hknotin (by rw [hk, ← hh]; exact hx)
      have hpnk : ¬ pnew k = true := by rw [hk, hpn]; simp
      have hpok : pold k = true := by rw [hk]; exact hpo
      rw [List.filter_cons_of_neg hpnk, List.filter_cons_of_pos hpok,
        List.filter_congr hcong]
      simp
    · have hothk : pnew k = pold k :=
        hoth k (List.mem_cons_self _ _) (fun hh => hk hh)
      have hv' : v ∈ L' := by
        rcases List.mem_cons.mp hv with hh | hh
        · exact absurd hh.symm hk
        · exact hh
      have ih := filter_length_drop L' hnd' pold pnew v hv' hpo hpn
        (fun x hx => hoth x (List.mem_cons_of_mem _ hx))
      cases hpk : pold k with
      | true =>
        have hpnk : pnew k = true := by rw [hothk]; exact hpk
        rw [List.filter_cons_of_pos hpk, List.filter_cons_of_pos hpnk]
        simp only [List.length_cons]
        omega
      | false =>
        have hpnk : ¬ pnew k = true := by rw [hothk, hpk]; simp
        have hpok : ¬ pold k = true := by rw [hpk]; simp
        rw [List.filter_cons_of_neg hpnk, List.filter_cons_of_neg hpok]
        exact ih

theorem targets_of_adj (res : Graph) (u v : Node)
    (h : v ∈ (resAdj res u).map Prod.fst) : v ∈ targets res := by
  unfold targets
  rw [List.mem_dedup, List.mem_flatten]
  cases hg : gGet res u with
  | none => rw [resAdj, hg] at h; simp at h
  | some row =>
    rw [resAdj, hg] at h
    simp only [Option.getD_some] at h
    exact ⟨row.map Prod.fst, List.mem_map.mpr ⟨(u, row), gGet_mem res u row hg, rfl⟩, h⟩

theorem freshCount_insert (res : Graph) (parent : ParentMap) (v : Node)
    (u : Option Node) (hv : v ∈ targets res) (hfresh : pLookup parent v = none) :
    freshCount res ((v, u) :: parent) + 1 = freshCount res parent := by
  unfold freshCount
  refine filter_length_drop (targets res) (List.nodup_dedup _) _ _ v hv ?_ ?_ ?_
  · simp [hfresh]
  · simp [pLookup]
  · intro x _ hx
    have : ¬ (v = x) := fun hh => hx hh.symm
    simp [pLookup, this]

theorem freshCount_le (res : Graph) (parent : ParentMap) :
    freshCount res parent ≤ (targets res).length :=
  le_trans (List.length_filter_le _ _) (le_refl _)

theorem bfsScan_measure (res : Graph) (t u : Node) :
    ∀ (row : Row) (parent : ParentMap) (q : List Node),
    (∀ e ∈ row, e.1 ∈ targets res) →
    (bfsScan t u row parent q).2.length + freshCount res (bfsScan t u row parent q).1 ≤
      q.length + freshCount res parent
  | [], parent, q, _ => le_refl _
  | (v, cap) :: rest, parent, q, hrow => by
    have hrest : ∀ e ∈ rest, e.1 ∈ targets res :=
      fun e he => hrow e (List.mem_cons_of_mem _ he)
    have hvt : v ∈ targets res := hrow (v, cap) (List.mem_cons_self _ _)
    by_cases hg : 0 < cap ∧ pLookup parent v = none
    · have hdrop := freshCount_insert res parent v (some u) hvt hg.2
      simp only [bfsScan, if_pos hg]
      by_cases hvtt : v = t
      · rw [if_pos hvtt]
        simp only
        omega
      · rw [if_neg hvtt]
        have ih := bfsScan_measure res t u rest ((v, some u) :: parent) (q ++ [v]) hrest
        have hlen : (q ++ [v]).length = q.length + 1 := by simp
        omega
    · simp only [bfsScan, if_neg hg]
      exact bfsScan_measure res t u rest parent q hrest

theorem bfsLoop_fuel (res : Graph) (t : Node) :
    ∀ (fuel : Nat) (parent : ParentMap) (q : List Node),
    q.length + freshCount res parent < fuel →
    (bfsLoop res t fuel parent q).isSome
  | 0, parent, q, h => by omega
  | fuel + 1, parent, q, h => by
    cases q with
    | nil => simp [bfsLoop]
    | cons u q' =>
      simp only [bfsLoop]
      by_cases hm : pMem (bfsScan t u (resAdj res u) parent q').1 t
      · rw [if_pos hm]
        simp
      · rw [if_neg hm]
        have hrow : ∀ e ∈ resAdj res u, e.1 ∈ targets res := by
          intro e he
          exact targets_of_adj res u e.1 (List.mem_map.mpr ⟨e, he, rfl⟩)
        have hms := bfsScan_measure res t u (resAdj res u) parent q' hrow
        refine bfsLoop_fuel res t fuel _ _ ?_
        simp only [List.length_cons] at h
        omega

theorem bfsLoop_bfsFuel (res : Graph) (s t : Node) :
    (bfsLoop res t (bfsFuel res) [(s, none)] [s]).isSome := by
  refine bfsLoop_fuel res t (bfsFuel res) [(s, none)] [s] ?_
  have h1 := freshCount_le res [(s, none)]
  unfold bfsFuel
  simp only [List.length_singleton]
  omega


/-! ## One edmonds_karp iteration preserves the run invariant -/

theorem runInv_init (res0 : Graph) (s t : Node) (U : Finset Node) :
    RunInv res0 s t U res0 :=
  ⟨fun _ _ => rfl, fun _ => rfl,
   fun w _ _ => by unfold excess flowVal; simp,
   fun h => h⟩

theorem resCap_pos_isSome (res : Graph) (u v : Node) (h : 0 < resCap res u v) :
    (rowGet (resAdj res u) v).isSome := by
  cases hr : rowGet (resAdj res u) v with
  | none => rw [resCap, hr] at h; simp at h
  | some c => simp

theorem mem_tail_is_target :
    ∀ (a : Node) (l : List Node) (x : Node), x ∈ l →
    ∃ y, (y, x) ∈ pathEdges (a :: l)
  | a, [], x, h => by simp at h
  | a, c :: l', x, h => by
    rcases List.mem_cons.mp h with h | h
    · exact ⟨a, by rw [h]; exact List.mem_cons_self _ _⟩
    · obtain ⟨y, hy⟩ := mem_tail_is_target c l' x h
      exact ⟨y, List.mem_cons_of_mem _ hy⟩

theorem pathOk_nodes_in_U (res0 res : Graph) (s t : Node) (U : Finset Node)
    (p : List Node) (hpok : PathOk res s t p)
    (hr : ∀ w, (resAdj res w).map Prod.fst = (resAdj res0 w).map Prod.fst)
    (hUs : s ∈ U) (hUt : ∀ x ∈ targets res0, x ∈ U) :
    ∀ x ∈ p, x ∈ U := by
  intro x hx
  cases p with
  | nil => simp at hx
  | cons a l =>
    have ha : a = s := by simpa using hpok.head
    rcases List.mem_cons.mp hx with hx | hx
    · rw [hx, ha]; exact hUs
    · obtain ⟨y, hy⟩ := mem_tail_is_target a l x hx
      have hpos := hpok.pos (y, x) hy
      have hsome := resCap_pos_isSome res y x hpos
      rw [rowGet_isSome_iff_mem_keys, hr y] at hsome
      exact hUt x (targets_of_adj res0 y x hsome)

theorem aug_rowPot (res res' : Graph) (s t : Node) (p : List Node) (bi : Int)
    (hd : AugDelta res res' p bi)
    (hkeys : (resAdj res' s).map Prod.fst = (resAdj res s).map Prod.fst)
    (hndrow : ((resAdj res s).map Prod.fst).Nodup)
    (hpok : PathOk res s t p) (hst : s ≠ t)
    (hble : ∀ e ∈ pathEdges p, bi ≤ resCap res e.1 e.2) (hb1 : 1 ≤ bi) :
    rowPot (resAdj res' s) + bi.toNat = rowPot (resAdj res s) := by
  have hedges : pathEdges p ≠ [] := pathOk_edges_ne res s t p hpok hst
  obtain ⟨v1, rest, hp⟩ : ∃ v1 rest, p = s :: v1 :: rest := by
    cases p with
    | nil => exact absurd rfl hpok.ne
    | cons a l =>
      have ha : a = s := by simpa using hpok.head
      cases l with
      | nil => exact ((hedges (rfl : pathEdges [a] = [])).elim)
      | cons v1 rest => exact ⟨v1, rest, by rw [ha]⟩
  have hheadedge : (s, v1) ∈ pathEdges p := by
    rw [hp]
    exact List.mem_cons_self _ _
  have hnd : p.Nodup := hpok.nodup
  have hsnotin : s ∉ v1 :: rest := by
    rw [hp] at hnd
    exact (List.nodup_cons.mp hnd).1
  have hble1 : bi ≤ resCap res s v1 := by
    have := hble (s, v1) hheadedge
    simpa using this
  have hv1K : v1 ∈ (resAdj res s).map Prod.fst := by
    rw [← rowGet_isSome_iff_mem_keys]
    exact resCap_pos_isSome res s v1 (by omega)
  have hch : resCap res' s v1 = resCap res s v1 - bi := by
    rw [hd s v1, if_pos hheadedge,
      if_neg (pathEdges_not_both p hnd s v1 hheadedge)]
    ring
  have hoth : ∀ x ∈ (resAdj res s).map Prod.fst, x ≠ v1 →
      resCap res' s x = resCap res s x := by
    intro x _ hx
    have h1 : (s, x) ∉ pathEdges p := by
      intro hm
      rw [hp] at hm
      simp only [pathEdges, List.mem_cons] at hm
      rcases hm with hm | hm
      · injection hm with hm1 hm2
        exact hx hm2
      · rcases pathEdges_src_mem_front v1 rest s x hm with hm | hm
        · exact hsnotin (hm ▸ List.mem_cons_self _ _)
        · exact hsnotin (List.mem_cons_of_mem _ hm)
    have h2 : (x, s) ∉ pathEdges p := by
      intro hm
      rw [hp] at hm
      exact hsnotin (pathEdges_target_mem_tail s (v1 :: rest) x s hm)
    rw [hd s x, if_neg h1, if_neg h2]
    ring
  have hnd' : ((resAdj res' s).map Prod.fst).Nodup := by
    rw [hkeys]
    exact hndrow
  rw [rowPot_eq (resAdj res' s) hnd', rowPot_eq (resAdj res s) hndrow, hkeys]
  have h1 : ((resAdj res s).map Prod.fst).map
      (fun v => ((rowGet (resAdj res' s) v).getD 0).toNat) =
      ((resAdj res s).map Prod.fst).map (fun v => (resCap res' s v).toNat) := rfl
  have h2 : ((resAdj res s).map Prod.fst).map
      (fun v => ((rowGet (resAdj res s) v).getD 0).toNat) =
      ((resAdj res s).map Prod.fst).map (fun v => (resCap res s v).toNat) := rfl
  rw [h1, h2]
  exact sum_keys_single ((resAdj res s).map Prod.fst) hndrow
    (fun v => resCap res s v) (fun v => resCap res' s v) v1 hv1K bi
    (by omega) hble1 hch hoth

theorem ekStep_runInv (res0 : Graph) (U : Finset Node) (st st' : St) (s t : Node)
    (b : Option Int)
    (hnd0 : ∀ w, ((resAdj res0 w).map Prod.fst).Nodup)
    (hsym : ∀ u v, (rowGet (resAdj res0 u) v).isSome → (rowGet (resAdj res0 v) u).isSome)
    (hUs : s ∈ U) (hUt : ∀ x ∈ targets res0, x ∈ U)
    (inv : RunInv res0 s t U st.res) (hst : s ≠ t)
    (h : ekStep st s t = some (some (st', b))) :
    RunInv res0 s t U st'.res ∧ st'.graph = st.graph ∧ ∃ bi, b = some bi ∧ 1 ≤ bi ∧
      rowPot (resAdj st'.res s) + bi.toNat = rowPot (resAdj st.res s) ∧
      excess res0 st'.res U t = excess res0 st.res U t + bi := by
  have hnd : ∀ w, ((resAdj st.res w).map Prod.fst).Nodup := by
    intro w
    rw [inv.rkeys w]
    exact hnd0 w
  obtain ⟨p, hpok, hb, hgr, hres'⟩ := ekStep_aug st s t st' b hnd h
  obtain ⟨bi, hbi, hb1, hble⟩ := pathOk_bottleneck st.res s t p hpok hst
  rw [hbi] at hres'
  simp only [Option.getD_some] at hres'
  have hd : AugDelta st.res st'.res p bi := by
    rw [hres']
    exact applyAug_augDelta st.res p hpok.nodup bi
  have hfwd : ∀ e ∈ pathEdges p, (rowGet (resAdj st.res e.1) e.2).isSome :=
    fun e he => resCap_pos_isSome st.res e.1 e.2 (hpok.pos e he)
  have hbwd : ∀ e ∈ pathEdges p, (rowGet (resAdj st.res e.2) e.1).isSome := by
    intro e he
    have h1 := hfwd e he
    rw [rowGet_isSome_iff_mem_keys, inv.rkeys e.1, ← rowGet_isSome_iff_mem_keys] at h1
    have h2 := hsym e.1 e.2 h1
    rw [rowGet_isSome_iff_mem_keys, ← inv.rkeys e.2, ← rowGet_isSome_iff_mem_keys] at h2
    exact h2
  have hkeys : ∀ w, (resAdj st'.res w).map Prod.fst = (resAdj st.res w).map Prod.fst := by
    intro w
    rw [hres']
    exact (applyAug_keys st.res p bi hfwd hbwd).2 w
  have hsub : ∀ x ∈ p, x ∈ U :=
    pathOk_nodes_in_U res0 st.res s t U p hpok inv.rkeys hUs hUt
  have hexc : ∀ w, excess res0 st'.res U w = excess res0 st.res U w
      + (if w ∈ p ∧ p.head? ≠ some w then bi else 0)
      - (if w ∈ p ∧ p.getLast? ≠ some w then bi else 0) :=
    fun w => augDelta_excess res0 st.res st'.res p bi hd hpok.nodup U hsub w
  refine ⟨⟨?_, ?_, ?_, ?_⟩, hgr, bi, hb.trans hbi, hb1, ?_, ?_⟩
  · exact augDelta_pairSum res0 st.res st'.res p bi hd inv.pair
  · intro w
    rw [hkeys w, inv.rkeys w]
  · intro w hws hwt
    rw [hexc w, inv.exc w hws hwt]
    have h1 : ¬ (w ∈ p ∧ p.head? ≠ some w) ∨ (w ∈ p ∧ p.head? ≠ some w) := by tauto
    by_cases hwp : w ∈ p
    · have hh : p.head? ≠ some w := by
        rw [hpok.head]
        intro hc
        exact hws (Option.some.injEq _ _ ▸ hc).symm
      have hl : p.getLast? ≠ some w := by
        rw [hpok.last]
        intro hc
        exact hwt (Option.some.injEq _ _ ▸ hc).symm
      rw [if_pos ⟨hwp, hh⟩, if_pos ⟨hwp, hl⟩]
      ring
    · rw [if_neg (fun hh => hwp hh.1), if_neg (fun hh => hwp hh.1)]
      ring
  · intro hnn0
    exact augDelta_nonneg st.res st'.res p bi hd (inv.nnstep hnn0) hpok.nodup hble
      (by omega)
  · refine aug_rowPot st.res st'.res s t p bi hd (hkeys s) (hnd s) hpok hst hble hb1
  · rw [hexc t]
    have ht_in : t ∈ p := getLast?_mem p t hpok.last
    have hh : p.head? ≠ some t := by
      rw [hpok.head]
      intro hc
      exact hst (Option.some.injEq _ _ ▸ hc)
    have hl : ¬ (t ∈ p ∧ p.getLast? ≠ some t) := by
      rintro ⟨_, hc⟩
      exact hc hpok.last
    rw [if_pos ⟨ht_in, hh⟩, if_neg hl]
    ring


/-! ## The edmonds_karp loop: invariants, value accounting, termination -/

theorem ekLoop_runInv (res0 : Graph) (U : Finset Node) (s t : Node)
    (hnd0 : ∀ w, ((resAdj res0 w).map Prod.fst).Nodup)
    (hsym : ∀ u v, (rowGet (resAdj res0 u) v).isSome → (rowGet (resAdj res0 v) u).isSome)
    (hUs : s ∈ U) (hUt : ∀ x ∈ targets res0, x ∈ U) (hst : s ≠ t) :
    ∀ (fuel : Nat) (st : St) (flow F : Option Int) (stf : St),
    RunInv res0 s t U st.res →
    ekLoop s t fuel st flow = some (F, stf) →
    RunInv res0 s t U stf.res ∧
    (∀ f0, flow = some f0 →
      F = some (f0 + (excess res0 stf.res U t - excess res0 st.res U t)))
  | 0, st, flow, F, stf, _, h => by simp [ekLoop] at h
  | fuel + 1, st, flow, F, stf, inv, h => by
    simp only [ekLoop] at h
    cases hstep : ekStep st s t with
    | none => rw [hstep] at h; simp at h
    | some o =>
      rw [hstep] at h
      cases o with
      | none =>
        simp only [Option.some.injEq, Prod.mk.injEq] at h
        obtain ⟨h1, h2⟩ := h
        rw [← h1, ← h2]
        refine ⟨inv, ?_⟩
        intro f0 hf0
        rw [hf0]
        congr 1
        ring
      | some pr =>
        obtain ⟨st', b⟩ := pr
        obtain ⟨inv', _, bi, hbisome, hbi1, _, hexc⟩ :=
          ekStep_runInv res0 U st st' s t b hnd0 hsym hUs hUt inv hst hstep
        obtain ⟨invf, hval⟩ := ekLoop_runInv res0 U s t hnd0 hsym hUs hUt hst
          fuel st' (oadd flow b) F stf inv' h
        refine ⟨invf, ?_⟩
        intro f0 hf0
        have hoadd : oadd flow b = some (f0 + bi) := by
          rw [hf0, hbisome]
          rfl
        have := hval (f0 + bi) hoadd
        rw [this, hexc]
        congr 1
        ring

theorem ekStep_ne_none (st : St) (s t : Node)
    (hnd : ∀ w, ((resAdj st.res w).map Prod.fst).Nodup) :
    ekStep st s t ≠ none := by
  unfold ekStep
  split
  case _ heq =>
    have hbs := bfsLoop_bfsFuel st.res s t
    rw [heq] at hbs
    simp at hbs
  case _ parent hp =>
    by_cases hm : pMem parent t
    · rw [if_pos hm]
      have hinv := bfsLoop_inv st.res s t hnd (bfsFuel st.res) [(s, none)] [s] parent
        ⟨rfl, rfl, trivial⟩ (by simp [pLookup])
        (by intro x hx; simp only [List.mem_singleton] at hx; subst hx; simp [pLookup])
        hp
      have hfuel : (pSuffix parent t).length < parent.length + 1 :=
        lt_of_le_of_lt (pSuffix_length_le parent t) (Nat.lt_succ_self _)
      obtain ⟨p0, hw0, _, _⟩ :=
        walk_ok st.res s (parent.length + 1) parent t hinv.1 hinv.2 hm hfuel
      rw [hw0]
      simp
    · rw [if_neg hm]
      simp

theorem ekLoop_fuel_sufficient (res0 : Graph) (U : Finset Node) (s t : Node)
    (hnd0 : ∀ w, ((resAdj res0 w).map Prod.fst).Nodup)
    (hsym : ∀ u v, (rowGet (resAdj res0 u) v).isSome → (rowGet (resAdj res0 v) u).isSome)
    (hUs : s ∈ U) (hUt : ∀ x ∈ targets res0, x ∈ U) (hst : s ≠ t) :
    ∀ (fuel : Nat) (st : St) (flow : Option Int),
    RunInv res0 s t U st.res →
    rowPot (resAdj st.res s) < fuel →
    (ekLoop s t fuel st flow).isSome
  | 0, st, flow, _, hlt => by omega
  | fuel + 1, st, flow, inv, hlt => by
    have hnd : ∀ w, ((resAdj st.res w).map Prod.fst).Nodup := by
      intro w
      rw [inv.rkeys w]
      exact hnd0 w
    simp only [ekLoop]
    cases hstep : ekStep st s t with
    | none => exact absurd hstep (ekStep_ne_none st s t hnd)
    | some o =>
      cases o with
      | none => simp
      | some pr =>
        obtain ⟨st', b⟩ := pr
        obtain ⟨inv', _, bi, _, hbi1, hpot, _⟩ :=
          ekStep_runInv res0 U st st' s t b hnd0 hsym hUs hUt inv hst hstep
        refine ekLoop_fuel_sufficient res0 U s t hnd0 hsym hUs hUt hst fuel st'
          (oadd flow b) inv' ?_
        omega

theorem edmonds_karpS_final (g : Graph) (s t : Node) (wf : GraphWF g) (hst : s ≠ t)
    (hs : (gGet (build_residual g) s).isSome) :
    ∃ (F : Int) (stf : St), edmonds_karpS g s t = some (some F, stf) ∧
      RunInv (build_residual g) s t (universeU (build_residual g) s) stf.res ∧
      F = excess (build_residual g) stf.res (universeU (build_residual g) s) t := by
  have hwfr := build_graphWF g wf
  have hnd0 := graphWF_resAdj_nodup (build_residual g) hwfr
  have hsym : ∀ u v, (rowGet (resAdj (build_residual g) u) v).isSome →
      (rowGet (resAdj (build_residual g) v) u).isSome :=
    fun u v h => (symKeys_build g wf u v).mp h
  have hUs : s ∈ universeU (build_residual g) s := Finset.mem_insert_self _ _
  have hUt : ∀ x ∈ targets (build_residual g), x ∈ universeU (build_residual g) s :=
    fun x hx => Finset.mem_insert_of_mem (List.mem_toFinset.mpr hx)
  have hinit : RunInv (build_residual g) s t (universeU (build_residual g) s)
      (build_residual g) := runInv_init _ s t _
  have hfuel : rowPot (resAdj (build_residual g) s) <
      ekFuel (build_residual g) s := Nat.lt_succ_self _
  have hsome := ekLoop_fuel_sufficient (build_residual g)
    (universeU (build_residual g) s) s t hnd0 hsym hUs hUt hst
    (ekFuel (build_residual g) s) { graph := g, res := build_residual g } (some 0)
    hinit hfuel
  obtain ⟨⟨F0, stf⟩, hr⟩ := Option.isSome_iff_exists.mp hsome
  obtain ⟨invf, hval⟩ := ekLoop_runInv (build_residual g)
    (universeU (build_residual g) s) s t hnd0 hsym hUs hUt hst
    (ekFuel (build_residual g) s) { graph := g, res := build_residual g } (some 0)
    F0 stf hinit hr
  have hF := hval 0 rfl
  have hstart : excess (build_residual g) (build_residual g)
      (universeU (build_residual g) s) t = 0 := by
    unfold excess flowVal
    simp
  rw [hstart] at hF
  refine ⟨excess (build_residual g) stf.res (universeU (build_residual g) s) t,
    stf, ?_, invf, rfl⟩
  have hguard : ¬ ((gGet (build_residual g) s).isNone = true) := by
    rw [Option.isNone_iff_eq_none]
    intro hc
    rw [hc] at hs
    simp at hs
  simp only [edmonds_karpS]
  rw [if_neg hguard, hr, hF]
  congr 2
  ring


/-! ## More BFS facts and the source = sink divergence -/

theorem bfsScan_mono (t u : Node) :
    ∀ (row : Row) (parent : ParentMap) (q : List Node) (x : Node),
    (pLookup parent x).isSome → (pLookup (bfsScan t u row parent q).1 x).isSome
  | [], parent, q, x, h => h
  | (v, cap) :: rest, parent, q, x, h => by
    by_cases hg : 0 < cap ∧ pLookup parent v = none
    · simp only [bfsScan, if_pos hg]
      have hcons : (pLookup ((v, some u) :: parent) x).isSome := by
        by_cases hvx : v = x <;> simp [pLookup, hvx, h]
      by_cases hvt : v = t
      · rw [if_pos hvt]
        exact hcons
      · rw [if_neg hvt]
        exact bfsScan_mono t u rest ((v, some u) :: parent) (q ++ [v]) x hcons
    · simp only [bfsScan, if_neg hg]
      exact bfsScan_mono t u rest parent q x h

theorem bfsLoop_mono (res : Graph) (t : Node) :
    ∀ (fuel : Nat) (parent : ParentMap) (q : List Node) (r : ParentMap) (x : Node),
    (pLookup parent x).isSome → bfsLoop res t fuel parent q = some r →
    (pLookup r x).isSome
  | 0, parent, q, r, x, _, h => by simp [bfsLoop] at h
  | fuel + 1, parent, q, r, x, hx, h => by
    cases q with
    | nil =>
      simp only [bfsLoop, Option.some.injEq] at h
      rw [← h]
      exact hx
    | cons u q' =>
      simp only [bfsLoop] at h
      have hsc := bfsScan_mono t u (resAdj res u) parent q' x hx
      by_cases hm : pMem (bfsScan t u (resAdj res u) parent q').1 t
      · rw [if_pos hm] at h
        simp only [Option.some.injEq] at h
        rw [← h]
        exact hsc
      · rw [if_neg hm] at h
        exact bfsLoop_mono res t fuel _ _ r x hsc h

/-- With source = sink the BFS always "reaches" the sink immediately, so the
Python loop never exits: the embedded loop exhausts any fuel. -/
theorem ekLoop_self (s : Node) :
    ∀ (fuel : Nat) (st : St) (flow : Option Int),
    ekLoop s s fuel st flow = none
  | 0, st, flow => rfl
  | fuel + 1, st, flow => by
    simp only [ekLoop]
    cases hstep : ekStep st s s with
    | none => rfl
    | some o =>
      cases o with
      | none =>
        exfalso
        unfold ekStep at hstep
        split at hstep
        · simp at hstep
        case _ parent hp =>
          have hm : pMem parent s = true :=
            bfsLoop_mono st.res s (bfsFuel st.res) [(s, none)] [s] parent s
              (by simp [pLookup]) hp
          rw [if_pos hm] at hstep
          split at hstep
          · simp at hstep
          · simp at hstep
      | some pr =>
        obtain ⟨st', b⟩ := pr
        exact ekLoop_self s fuel st' (oadd flow b)

theorem edmonds_karpS_self (g : Graph) (s : Node) : edmonds_karpS g s s = none := by
  simp only [edmonds_karpS]
  split
  · rfl
  · exact ekLoop_self s _ _ _

theorem edmonds_karp_self (g : Graph) (s : Node) : edmonds_karp g s s = none := by
  unfold edmonds_karp
  rw [edmonds_karpS_self]

theorem parentOk_lookup_pos (res : Graph) (s : Node) :
    ∀ (parent : ParentMap), ParentOk res s parent →
    ∀ v u, pLookup parent v = some (some u) → 0 < resCap res u v
  | [], _, v, u, h => by simp [pLookup] at h
  | (k, po) :: rest, hok, v, u, h => by
    by_cases hk : k = v
    · subst hk
      simp [pLookup] at h
      rw [h] at hok
      exact hok.1.1
    · simp only [pLookup, if_neg hk] at h
      exact parentOk_lookup_pos res s rest hok.2.2 v u h

/-! ## Characterisation of the extracted flow dictionary -/

theorem foldl_append_map (f : Node × Int → (Node × Node) × Int) :
    ∀ (l : Row) (fd : FlowDict),
    l.foldl (fun acc x => acc ++ [f x]) fd = fd ++ l.map f
  | [], fd => by simp
  | x :: l', fd => by
    simp only [List.foldl_cons, List.map_cons]
    rw [foldl_append_map f l' (fd ++ [f x])]
    simp

theorem flowExtract_flatten (res : Graph) :
    ∀ (l : Graph) (fd : FlowDict),
    l.foldl
      (fun fd p =>
        p.2.foldl
          (fun fd q =>
            fd ++ [((p.1, q.1), if 0 ≤ q.2 - resCap res p.1 q.1
              then q.2 - resCap res p.1 q.1 else 0)])
          fd)
      fd = fd ++ (l.map (fun p => fdSeg res p.1 p.2)).flatten
  | [], fd => by simp
  | p :: l', fd => by
    simp only [List.foldl_cons, List.map_cons, List.flatten_cons]
    have hinner : p.2.foldl
        (fun fd q =>
          fd ++ [((p.1, q.1), if 0 ≤ q.2 - resCap res p.1 q.1
            then q.2 - resCap res p.1 q.1 else 0)])
        fd = fd ++ fdSeg res p.1 p.2 :=
      foldl_append_map _ p.2 fd
    rw [hinner, flowExtract_flatten res l' (fd ++ fdSeg res p.1 p.2)]
    simp

theorem flowExtract_eq (g res : Graph) :
    flowExtract g res = (g.map (fun p => fdSeg res p.1 p.2)).flatten := by
  unfold flowExtract
  rw [flowExtract_flatten res g []]
  simp

theorem fdGet_append (fd1 fd2 : FlowDict) (k : Node × Node) :
    fdGet (fd1 ++ fd2) k =
      match fdGet fd1 k with | some c => some c | none => fdGet fd2 k := by
  induction fd1 with
  | nil => simp [fdGet]
  | cons e rest ih =>
    obtain ⟨ka, va⟩ := e
    by_cases hk : ka = k <;> simp [fdGet, hk, ih]

theorem fdGet_fdSeg_self (res : Graph) (u : Node) (row : Row) (v : Node) :
    fdGet (fdSeg res u row) (u, v) =
      (rowGet row v).map (fun c =>
        if 0 ≤ c - resCap res u v then c - resCap res u v else 0) := by
  induction row with
  | nil => rfl
  | cons q rest ih =>
    obtain ⟨y, c⟩ := q
    by_cases hy : y = v
    · subst hy
      simp [fdSeg, fdGet, rowGet]
    · have h2 : ¬ ((u, y) = (u, v)) := by
        intro hh
        exact hy (congrArg Prod.snd hh)
      simp only [fdSeg, List.map_cons, fdGet, if_neg h2, rowGet, if_neg hy]
      simpa [fdSeg] using ih

theorem fdGet_fdSeg_ne (res : Graph) (u : Node) (row : Row) (a v : Node)
    (h : a ≠ u) : fdGet (fdSeg res u row) (a, v) = none := by
  induction row with
  | nil => rfl
  | cons q rest ih =>
    obtain ⟨y, c⟩ := q
    have h2 : ¬ ((u, y) = (a, v)) := by
      intro hh
      exact h (congrArg Prod.fst hh).symm
    simp only [fdSeg, List.map_cons, fdGet, if_neg h2]
    simpa [fdSeg] using ih

theorem fdGet_flowExtract_notmem (res : Graph) :
    ∀ (l : Graph) (a v : Node), a ∉ l.map Prod.fst →
    fdGet ((l.map (fun p => fdSeg res p.1 p.2)).flatten) (a, v) = none
  | [], a, v, _ => rfl
  | p :: l', a, v, h => by
    obtain ⟨u, row⟩ := p
    simp only [List.map_cons, List.mem_cons, not_or] at h
    rw [List.map_cons, List.flatten_cons, fdGet_append,
      fdGet_fdSeg_ne res u row a v (fun hh => h.1 hh),
      fdGet_flowExtract_notmem res l' a v h.2]

theorem fdGet_flowExtract (g res : Graph) (wf : GraphWF g) (u v : Node) :
    fdGet (flowExtract g res) (u, v) =
      (rowGet (resAdj g u) v).map (fun c =>
        if 0 ≤ c - resCap res u v then c - resCap res u v else 0) := by
  rw [flowExtract_eq]
  induction g with
  | nil => simp [fdGet, resAdj, gGet, rowGet]
  | cons p rest ih =>
    obtain ⟨k, row⟩ := p
    have wfrest : GraphWF rest :=
      ⟨(List.nodup_cons.mp wf.1).2, fun q hq => wf.2 q (by simp [hq])⟩
    rw [List.map_cons, List.flatten_cons, fdGet_append]
    by_cases hk : k = u
    · subst hk
      have hnm : k ∉ rest.map Prod.fst := (List.nodup_cons.mp wf.1).1
      rw [fdGet_fdSeg_self, fdGet_flowExtract_notmem res rest k v hnm]
      have hadj : resAdj ((k, row) :: rest) k = row := by simp [resAdj, gGet]
      rw [hadj]
      cases hr : rowGet row v <;> simp
    · rw [fdGet_fdSeg_ne res k row u v (fun hh => hk hh.symm), ih wfrest]
      have hadj : resAdj ((k, row) :: rest) u = resAdj rest u := by
        simp [resAdj, gGet, hk]
      rw [hadj]


/-! ## Claim C3: the returned flow assignment respects capacities -/

theorem withFlows_successS (g : Graph) (s t : Node) (F : Int) (fd : FlowDict)
    (h : edmonds_karp_with_flows g s t = some (F, fd)) :
    ∃ stf : St, edmonds_karpS g s t = some (some F, stf) ∧
      fd = flowExtract g stf.res := by
  unfold edmonds_karp_with_flows edmonds_karp_with_flowsS at h
  split at h
  case _ f stf heq =>
    simp only [Option.map_some', Option.some.injEq, Prod.mk.injEq] at h
    exact ⟨stf, by rw [heq, h.1], h.2.symm⟩
  case _ =>
    exact Option.noConfusion h

theorem run_final_inv (g : Graph) (s t : Node) (F : Int) (stf : St)
    (wf : GraphWF g) (h : edmonds_karpS g s t = some (some F, stf)) :
    RunInv (build_residual g) s t (universeU (build_residual g) s) stf.res := by
  have hst : s ≠ t := by
    intro hc
    rw [hc, edmonds_karpS_self] at h
    exact Option.noConfusion h
  have hs : (gGet (build_residual g) s).isSome := by
    simp only [edmonds_karpS] at h
    split at h
    · exact Option.noConfusion h
    case _ hguard =>
      rw [Option.isSome_iff_ne_none]
      intro hc
      rw [Bool.not_eq_true, Option.isNone_eq_false_iff, Option.isSome_iff_ne_none] at hguard
      exact hguard hc
  obtain ⟨F', stf', hS', inv, _⟩ := edmonds_karpS_final g s t wf hst hs
  rw [h] at hS'
  simp only [Option.some.injEq, Prod.mk.injEq] at hS'
  rw [← hS'.2] at inv
  exact inv

/-- C3 (amended): for `maxflow.py`'s `edmonds_karp_with_flows` — which derives
the assignment from the final residual as `orig_cap - residual_cap` — the claim
holds: on a well-formed capacity graph with non-negative capacities, whenever a
result is returned, the flow assignment gives every original edge `(u, v)` of
capacity `c` a value `x` with `0 ≤ x ≤ c`.  The Backend variant cited alongside
it violates the upper bound (see the counterexample): its gross flow dict never
deducts cancellations pushed along reverse residual edges. -/
theorem C3_capacity_bounds (g : Graph) (s t : Node) (F : Int) (fd : FlowDict)
    (wf : GraphWF g) (hcap : ∀ p ∈ g, ∀ q ∈ p.2, 0 ≤ q.2)
    (hrun : edmonds_karp_with_flows g s t = some (F, fd)) :
    ∀ u v c, rowGet (resAdj g u) v = some c →
      ∃ x, fdGet fd (u, v) = some x ∧ 0 ≤ x ∧ x ≤ c := by
  obtain ⟨stf, hS, hfd⟩ := withFlows_successS g s t F fd hrun
  have inv := run_final_inv g s t F stf wf hS
  have hnn0 : Nonneg (build_residual g) := fun a b => by
    rw [resCap_build g wf]
    exact resCap_nonneg_of_caps g hcap a b
  have hnn : Nonneg stf.res := inv.nnstep hnn0
  intro u v c hedge
  have hcv : resCap g u v = c := by
    unfold resCap
    rw [hedge]
    rfl
  have hc0 : 0 ≤ c := hcv ▸ resCap_nonneg_of_caps g hcap u v
  refine ⟨if 0 ≤ c - resCap stf.res u v then c - resCap stf.res u v else 0, ?_, ?_, ?_⟩
  · rw [hfd, fdGet_flowExtract g stf.res wf u v, hedge]
    rfl
  · split
    · assumption
    · exact le_refl 0
  · split
    · have := hnn u v
      omega
    · exact hc0


theorem C3_capacity_bounds_witness :
    ∃ x, fdGet [(("A", "B"), 3), (("A", "C"), 2), (("B", "C"), 1),
      (("B", "T"), 2), (("C", "T"), 3)] ("A", "B") = some x ∧ 0 ≤ x ∧ x ≤ 3 :=
  C3_capacity_bounds scenarioA "A" "T" 5
    [(("A", "B"), 3), (("A", "C"), 2), (("B", "C"), 1), (("B", "T"), 2), (("C", "T"), 3)]
    ⟨by decide, by decide⟩ (by decide) (by rfl) "A" "B" 3 (by rfl)


/-! ## Claim C8: augmentation size and termination -/

/-- C8 counterexample: when source = sink the Python loop never exits (the BFS
always reaches the sink and each round adds `float('inf')` to the flow), so the
embedded run exhausts any fuel bound and no value is returned. -/
theorem C8_counterexample : edmonds_karp scenarioA "A" "A" = none :=
  edmonds_karp_self scenarioA "A"

/-- C8 (amended): provided source ≠ sink (and the source key exists), every
successful augmentation step pushes an integer bottleneck `bi ≥ 1`, the
accumulated flow grows from `f0` to `f0 + bi`, and the whole run terminates
with a value: the embedded loop halts within `rowPot + 1` rounds, the sum of
the source-row residuals being an upper bound on the number of augmentations. -/
theorem C8_amended (g : Graph) (s t : Node) (wf : GraphWF g) (hst : s ≠ t)
    (hs : (gGet (build_residual g) s).isSome) :
    (edmonds_karp g s t).isSome ∧
    (∀ (st st' : St) (b : Option Int) (f0 : Int),
      (∀ w, ((resAdj st.res w).map Prod.fst).Nodup) →
      ekStep st s t = some (some (st', b)) →
      ∃ bi, b = some bi ∧ 1 ≤ bi ∧ oadd (some f0) b = some (f0 + bi)) := by
  constructor
  · obtain ⟨F, stf, hS, -, -⟩ := edmonds_karpS_final g s t wf hst hs
    unfold edmonds_karp
    rw [hS]
    rfl
  · intro st st' b f0 hnd h
    obtain ⟨p, hpok, hb, -, -⟩ := ekStep_aug st s t st' b hnd h
    obtain ⟨bi, hbi, h1, -⟩ := pathOk_bottleneck st.res s t p hpok hst
    refine ⟨bi, hb.trans hbi, h1, ?_⟩
    rw [hb.trans hbi]
    rfl

theorem C8_amended_witness : (edmonds_karp scenarioA "A" "T").isSome :=
  (C8_amended scenarioA "A" "T" ⟨by decide, by decide⟩ (by decide) (by rfl)).1


/-! ## Claim C6 (amended): no validation is performed -/

/-- C6 (amended): the code performs no input validation and raises no
`InvalidGraphError`: the residual builder copies every capacity unchanged,
negative ones included; whenever the source key is present (and source ≠ sink)
the solver completes normally with a flow value; only a missing source key
aborts the run (the Python `KeyError` at the first queue pop, embedded as
`none`). -/
theorem C6_amended (g : Graph) (s t : Node) (wf : GraphWF g) :
    (∀ a b, resCap (build_residual g) a b = resCap g a b) ∧
    (s ≠ t → (gGet (build_residual g) s).isSome → (edmonds_karp g s t).isSome) ∧
    ((gGet (build_residual g) s).isNone → edmonds_karp g s t = none) := by
  refine ⟨resCap_build g wf, ?_, ?_⟩
  · intro hst hs
    obtain ⟨F, stf, hS, -, -⟩ := edmonds_karpS_final g s t wf hst hs
    unfold edmonds_karp
    rw [hS]
    rfl
  · intro hnone
    have hS : edmonds_karpS g s t = none := by
      simp only [edmonds_karpS]
      rw [if_pos hnone]
    unfold edmonds_karp
    rw [hS]

theorem C6_amended_witness :
    resCap (build_residual negGraph) "A" "B" = resCap negGraph "A" "B" ∧
    (edmonds_karp negGraph "A" "T").isSome :=
  ⟨(C6_amended negGraph "A" "T" ⟨by decide, by decide⟩).1 "A" "B",
   (C6_amended negGraph "A" "T" ⟨by decide, by decide⟩).2.1 (by decide) (by rfl)⟩


/-! ## The level BFS of dinic: fuel and discovered-key invariant -/

theorem freshCountL_insert (res : Graph) (level : LevelMap) (v : Node) (d : Int)
    (hv : v ∈ targets res) (hfresh : lLookup level v = none) :
    freshCountL res ((v, d) :: level) + 1 = freshCountL res level := by
  unfold freshCountL
  refine filter_length_drop (targets res) (List.nodup_dedup _) _ _ v hv ?_ ?_ ?_
  · simp [hfresh]
  · simp [lLookup]
  · intro x _ hx
    have hne : ¬ (v = x) := fun hh => hx hh.symm
    simp [lLookup, hne]

theorem freshCountL_le (res : Graph) (level : LevelMap) :
    freshCountL res level ≤ (targets res).length :=
  le_trans (List.length_filter_le _ _) (le_refl _)

theorem levelScan_measure (res : Graph) (u : Node) :
    ∀ (row : Row) (level : LevelMap) (q : List Node),
    (∀ e ∈ row, e.1 ∈ targets res) →
    (levelScan u row level q).2.length + freshCountL res (levelScan u row level q).1 ≤
      q.length + freshCountL res level
  | [], level, q, _ => le_refl _
  | (v, cap) :: rest, level, q, hrow => by
    have hrest : ∀ e ∈ rest, e.1 ∈ targets res :=
      fun e he => hrow e (List.mem_cons_of_mem _ he)
    have hvt : v ∈ targets res := hrow (v, cap) (List.mem_cons_self _ _)
    by_cases hg : 0 < cap ∧ lLookup level v = none
    · have hdrop := freshCountL_insert res level v (levelD level u + 1) hvt hg.2
      simp only [levelScan, if_pos hg]
      have ih := levelScan_measure res u rest ((v, levelD level u + 1) :: level)
        (q ++ [v]) hrest
      have hlen : (q ++ [v]).length = q.length + 1 := by simp
      omega
    · simp only [levelScan, if_neg hg]
      exact levelScan_measure res u rest level q hrest

theorem levelLoop_fuel (res : Graph) :
    ∀ (fuel : Nat) (level : LevelMap) (q : List Node),
    q.length + freshCountL res level < fuel →
    (levelLoop res fuel level q).isSome
  | 0, level, q, h => by omega
  | fuel + 1, level, q, h => by
    cases q with
    | nil => simp [levelLoop]
    | cons u q' =>
      simp only [levelLoop]
      have hrow : ∀ e ∈ resAdj res u, e.1 ∈ targets res := by
        intro e he
        exact targets_of_adj res u e.1 (List.mem_map.mpr ⟨e, he, rfl⟩)
      have hm := levelScan_measure res u (resAdj res u) level q' hrow
      simp only [List.length_cons] at h
      exact levelLoop_fuel res fuel _ _ (by omega)

theorem levelScan_keys (res : Graph) (s u : Node)
    (hnd : ((resAdj res u).map Prod.fst).Nodup) :
    ∀ (row : Row) (level : LevelMap) (q : List Node),
    (∀ e ∈ row, e ∈ resAdj res u) →
    (∀ v, (lLookup level v).isSome → v = s ∨ ∃ x, 0 < resCap res x v) →
    ∀ v, (lLookup (levelScan u row level q).1 v).isSome →
      v = s ∨ ∃ x, 0 < resCap res x v
  | [], level, q, _, hl, v, h => hl v h
  | (w, cap) :: rest, level, q, hrow, hl, v, h => by
    have hrest : ∀ e ∈ rest, e ∈ resAdj res u :=
      fun e he => hrow e (List.mem_cons_of_mem _ he)
    by_cases hg : 0 < cap ∧ lLookup level w = none
    · rw [levelScan, if_pos hg] at h
      have hcapw : resCap res u w = cap := by
        unfold resCap
        rw [mem_rowGet_nodup (resAdj res u) w cap hnd
          (hrow (w, cap) (List.mem_cons_self _ _))]
        rfl
      have hl' : ∀ y, (lLookup ((w, levelD level u + 1) :: level) y).isSome →
          y = s ∨ ∃ x, 0 < resCap res x y := by
        intro y hy
        by_cases hwy : w = y
        · right
          exact ⟨u, by rw [← hwy, hcapw]; exact hg.1⟩
        · simp only [lLookup, if_neg hwy] at hy
          exact hl y hy
      exact levelScan_keys res s u hnd rest _ _ hrest hl' v h
    · rw [levelScan, if_neg hg] at h
      exact levelScan_keys res s u hnd rest level q hrest hl v h

theorem levelLoop_keys (res : Graph) (s : Node)
    (hnd : ∀ w, ((resAdj res w).map Prod.fst).Nodup) :
    ∀ (fuel : Nat) (level : LevelMap) (q : List Node) (r : LevelMap),
    (∀ v, (lLookup level v).isSome → v = s ∨ ∃ x, 0 < resCap res x v) →
    levelLoop res fuel level q = some r →
    ∀ v, (lLookup r v).isSome → v = s ∨ ∃ x, 0 < resCap res x v
  | 0, level, q, r, _, h => by simp [levelLoop] at h
  | fuel + 1, level, q, r, hl, h => by
    cases q with
    | nil =>
      simp only [levelLoop, Option.some.injEq] at h
      rw [← h]
      exact hl
    | cons u q' =>
      simp only [levelLoop] at h
      exact levelLoop_keys res s hnd fuel _ _ r
        (levelScan_keys res s u (hnd u) (resAdj res u) level q' (fun e he => he) hl) h

theorem bfs_level_noIncoming (res : Graph) (s t : Node)
    (hnd : ∀ w, ((resAdj res w).map Prod.fst).Nodup)
    (hst : s ≠ t) (hnoin : ∀ u, resCap res u t ≤ 0) :
    bfs_level res s t = some none := by
  have hfuel : 1 + freshCountL res [(s, 0)] < bfsFuel res := by
    have h1 := freshCountL_le res [(s, 0)]
    unfold bfsFuel
    omega
  have hsome := levelLoop_fuel res (bfsFuel res) [(s, 0)] [s]
    (by simpa using hfuel)
  obtain ⟨r, hr⟩ := Option.isSome_iff_exists.mp hsome
  have hinit : ∀ v, (lLookup [(s, 0)] v).isSome → v = s ∨ ∃ x, 0 < resCap res x v := by
    intro v hv
    by_cases hsv : s = v
    · exact Or.inl hsv.symm
    · simp [lLookup, hsv] at hv
  have hkeys := levelLoop_keys res s hnd (bfsFuel res) [(s, 0)] [s] r hinit hr
  have hmem : bfs_level.pMemL r t = false := by
    unfold bfs_level.pMemL
    rw [Bool.eq_false_iff]
    intro hc
    rcases hkeys t hc with hts | ⟨x, hx⟩
    · exact hst hts.symm
    · exact absurd hx (not_lt.mpr (hnoin x))
  unfold bfs_level
  rw [hr]
  simp [hmem]


/-! ## Claim C7: unreachable sink -/

theorem ekStep_noIncoming (st : St) (s t : Node)
    (hnd : ∀ w, ((resAdj st.res w).map Prod.fst).Nodup)
    (hst : s ≠ t) (hnoin : ∀ u, resCap st.res u t ≤ 0) :
    ekStep st s t = some none := by
  obtain ⟨parent, hp⟩ := Option.isSome_iff_exists.mp (bfsLoop_bfsFuel st.res s t)
  have hinv := bfsLoop_inv st.res s t hnd (bfsFuel st.res) [(s, none)] [s] parent
    (by simp [ParentOk, pLookup]) (by simp [pLookup])
    (by intro x hx; rw [List.mem_singleton] at hx; simp [pLookup, hx]) hp
  have hmem : pMem parent t = false := by
    unfold pMem
    rw [Bool.eq_false_iff]
    intro hc
    obtain ⟨po, hpo⟩ := Option.isSome_iff_exists.mp hc
    cases po with
    | none => exact hst (parentOk_lookup_none st.res s parent hinv.1 t hpo).symm
    | some u =>
      exact absurd (parentOk_lookup_pos st.res s parent hinv.1 t u hpo)
        (not_lt.mpr (hnoin u))
  unfold ekStep
  rw [hp]
  simp [hmem]

theorem ekLoop_noIncoming (s t : Node) (fuel : Nat) (st : St) (flow : Option Int)
    (hnd : ∀ w, ((resAdj st.res w).map Prod.fst).Nodup)
    (hst : s ≠ t) (hnoin : ∀ u, resCap st.res u t ≤ 0) :
    ekLoop s t (fuel + 1) st flow = some (flow, st) := by
  simp only [ekLoop]
  rw [ekStep_noIncoming st s t hnd hst hnoin]

/-- C7 (amended): when no row of the graph mentions the sink, both solvers
return flow 0 without error, and the flow-tracking variant returns the
all-zero assignment on the original edges — a dictionary with one (zero)
entry per original edge, not the empty dictionary. -/
theorem C7_amended (g : Graph) (s t : Node) (wf : GraphWF g) (hst : s ≠ t)
    (hs : (gGet (build_residual g) s).isSome)
    (hnoin : ∀ p ∈ g, rowGet p.2 t = none) :
    edmonds_karp g s t = some 0 ∧ dinic g s t = some 0 ∧
    ∃ fd, edmonds_karp_with_flows g s t = some (0, fd) ∧
      ∀ u v c, rowGet (resAdj g u) v = some c → fdGet fd (u, v) = some 0 := by
  have hnoin' : ∀ u, rowGet (resAdj g u) t = none := by
    intro u
    cases hg : gGet g u with
    | none =>
      have : resAdj g u = [] := by simp [resAdj, hg]
      rw [this]
      rfl
    | some row =>
      have : resAdj g u = row := by simp [resAdj, hg]
      rw [this]
      exact hnoin (u, row) (gGet_mem g u row hg)
  have hno0 : ∀ u, resCap (build_residual g) u t ≤ 0 := by
    intro u
    rw [resCap_build g wf]
    unfold resCap
    rw [hnoin' u]
    exact le_refl 0
  have hndr := graphWF_resAdj_nodup (build_residual g) (build_graphWF g wf)
  have hguard : ¬ ((gGet (build_residual g) s).isNone = true) := by
    rw [Option.isNone_iff_eq_none]
    intro hc
    rw [hc] at hs
    simp at hs
  have hS : edmonds_karpS g s t =
      some (some 0, { graph := g, res := build_residual g }) := by
    simp only [edmonds_karpS]
    rw [if_neg hguard]
    exact ekLoop_noIncoming s t (rowPot (resAdj (build_residual g) s))
      { graph := g, res := build_residual g } (some 0) hndr hst hno0
  have hD : dinicS g s t = some (0, { graph := g, res := build_residual g }) := by
    simp only [dinicS]
    rw [if_neg hguard]
    show dinicLoop s t (rowPot (resAdj (build_residual g) s) + 1) _ 0 = _
    simp only [dinicLoop]
    rw [bfs_level_noIncoming (build_residual g) s t hndr hst hno0]
  refine ⟨?_, ?_, flowExtract g (build_residual g), ?_, ?_⟩
  · unfold edmonds_karp
    rw [hS]
  · unfold dinic
    rw [hD]
    rfl
  · unfold edmonds_karp_with_flows edmonds_karp_with_flowsS
    rw [hS]
    rfl
  · intro u v c hedge
    rw [fdGet_flowExtract g (build_residual g) wf u v, hedge]
    have hcv : resCap g u v = c := by
      unfold resCap
      rw [hedge]
      rfl
    rw [Option.map_some']
    rw [resCap_build g wf, hcv]
    simp

/-- C7 counterexample: on the graph `{A:{B:5}, B:{}, T:{}}` (sink `T` has no
incoming edges) the flow-tracking variant returns flow 0 with the one-entry
all-zero dictionary `{(A,B): 0}`, not the empty flow assignment. -/
theorem C7_counterexample :
    edmonds_karp_with_flows noInGraph "A" "T" = some (0, [(("A", "B"), 0)]) ∧
    edmonds_karp_with_flows noInGraph "A" "T" ≠ some (0, []) :=
  ⟨by rfl, by decide⟩

theorem C7_amended_witness :
    edmonds_karp noInGraph "A" "T" = some 0 ∧ dinic noInGraph "A" "T" = some 0 ∧
    ∃ fd, edmonds_karp_with_flows noInGraph "A" "T" = some (0, fd) ∧
      ∀ u v c, rowGet (resAdj noInGraph u) v = some c → fdGet fd (u, v) = some 0 :=
  C7_amended noInGraph "A" "T" ⟨by decide, by decide⟩ (by decide) (by rfl) (by decide)


/-! ## Claim C4: flow conservation at intermediate nodes -/

theorem fd_pair_value (g resf : Graph) (wf : GraphWF g)
    (hpair : PairSum (build_residual g) resf) (hnn : Nonneg resf)
    (hkeys : ∀ w, (resAdj resf w).map Prod.fst =
      (resAdj (build_residual g) w).map Prod.fst)
    (v w : Node) :
    (if (rowGet (resAdj g v) w).isSome then fdVal (flowExtract g resf) v w else 0)
      - (if (rowGet (resAdj g w) v).isSome then fdVal (flowExtract g resf) w v else 0)
      = flowVal (build_residual g) resf v w := by
  have hfv : ∀ a b : Node, (rowGet (resAdj g a) b).isSome →
      fdVal (flowExtract g resf) a b =
        if 0 ≤ resCap g a b - resCap resf a b
        then resCap g a b - resCap resf a b else 0 := by
    intro a b hab
    obtain ⟨c, hc⟩ := Option.isSome_iff_exists.mp hab
    have hcv : resCap g a b = c := by
      unfold resCap
      rw [hc]
      rfl
    unfold fdVal
    rw [fdGet_flowExtract g resf wf a b, hc, Option.map_some', hcv]
    rfl
  have hzero : ∀ a b : Node, ¬ (rowGet (resAdj g a) b).isSome →
      ¬ (rowGet (resAdj g b) a).isSome → resCap resf a b = 0 := by
    intro a b ha hb
    have hk : ¬ (rowGet (resAdj resf a) b).isSome := by
      rw [rowGet_isSome_iff_mem_keys, hkeys a, ← rowGet_isSome_iff_mem_keys,
        key_build g wf a b]
      push_neg
      exact ⟨ha, hb⟩
    unfold resCap
    rw [Option.not_isSome_iff_eq_none.mp hk]
    rfl
  have hgz : ∀ a b : Node, ¬ (rowGet (resAdj g a) b).isSome → resCap g a b = 0 := by
    intro a b ha
    unfold resCap
    rw [Option.not_isSome_iff_eq_none.mp ha]
    rfl
  have hflow : flowVal (build_residual g) resf v w =
      resCap g v w - resCap resf v w := by
    unfold flowVal
    rw [resCap_build g wf]
  have hanti : resCap resf v w + resCap resf w v = resCap g v w + resCap g w v := by
    have h := hpair v w
    rw [resCap_build g wf v w, resCap_build g wf w v] at h
    exact h
  rw [hflow]
  by_cases h1 : (rowGet (resAdj g v) w).isSome
  · by_cases h2 : (rowGet (resAdj g w) v).isSome
    · rw [if_pos h1, if_pos h2, hfv v w h1, hfv w v h2]
      have n1 := hnn v w
      have n2 := hnn w v
      split <;> split <;> omega
    · rw [if_pos h1, if_neg h2, hfv v w h1]
      have n2 := hnn w v
      have c2 := hgz w v h2
      split <;> omega
  · by_cases h2 : (rowGet (resAdj g w) v).isSome
    · rw [if_neg h1, if_pos h2, hfv w v h2]
      have n1 := hnn v w
      have c1 := hgz v w h1
      split <;> omega
    · rw [if_neg h1, if_neg h2]
      have r1 := hzero v w h1 h2
      have c1 := hgz v w h1
      omega

theorem inFlowSum_finset (g : Graph) (wf : GraphWF g) (fd : FlowDict) (w : Node)
    (U : Finset Node)
    (hU : ∀ v, (rowGet (resAdj g v) w).isSome → v ∈ U) :
    inFlowSum fd g w =
      ∑ v ∈ U, (if (rowGet (resAdj g v) w).isSome then fdVal fd v w else 0) := by
  unfold inFlowSum
  have hmap : g.map (fun p => if (rowGet p.2 w).isSome then fdVal fd p.1 w else 0)
      = (g.map Prod.fst).map
          (fun v => if (rowGet (resAdj g v) w).isSome then fdVal fd v w else 0) := by
    rw [List.map_map]
    apply List.map_congr_left
    intro p hp
    have hadj : resAdj g p.1 = p.2 := by
      unfold resAdj
      rw [mem_gGet_nodup g p.1 p.2 wf.1 hp]
      rfl
    simp only [Function.comp]
    rw [hadj]
  rw [hmap, ← List.sum_toFinset _ wf.1]
  have hKW : (g.map Prod.fst).toFinset ⊆ (g.map Prod.fst).toFinset ∪ U :=
    Finset.subset_union_left
  have hUW : U ⊆ (g.map Prod.fst).toFinset ∪ U := Finset.subset_union_right
  rw [Finset.sum_subset hKW ?_, Finset.sum_subset hUW ?_]
  · intro x _ hx
    rw [if_neg (fun hs => hx (hU x hs))]
  · intro x _ hx
    have hnone : gGet g x = none := by
      cases hg : gGet g x with
      | none => rfl
      | some row =>
        exact absurd (List.mem_toFinset.mpr ((gGet_isSome_iff_mem g x).mp
          (by rw [hg]; rfl))) hx
    have hadj : resAdj g x = [] := by
      unfold resAdj
      rw [hnone]
      rfl
    rw [hadj]
    simp [rowGet]

theorem outFlowSum_finset (g : Graph) (wf : GraphWF g) (fd : FlowDict) (w : Node)
    (U : Finset Node)
    (hU : ∀ v, (rowGet (resAdj g w) v).isSome → v ∈ U) :
    outFlowSum fd g w =
      ∑ v ∈ U, (if (rowGet (resAdj g w) v).isSome then fdVal fd w v else 0) := by
  unfold outFlowSum
  have hnd := graphWF_resAdj_nodup g wf w
  have hmap : (resAdj g w).map (fun q => fdVal fd w q.1)
      = ((resAdj g w).map Prod.fst).map (fun v => fdVal fd w v) := by
    rw [List.map_map]
    rfl
  rw [hmap, ← List.sum_toFinset _ hnd]
  have hcong : ∑ v ∈ ((resAdj g w).map Prod.fst).toFinset, fdVal fd w v
      = ∑ v ∈ ((resAdj g w).map Prod.fst).toFinset,
          (if (rowGet (resAdj g w) v).isSome then fdVal fd w v else 0) := by
    refine Finset.sum_congr rfl ?_
    intro v hv
    rw [if_pos (by
      rw [rowGet_isSome_iff_mem_keys]
      exact List.mem_toFinset.mp hv)]
  rw [hcong]
  have hsub : ((resAdj g w).map Prod.fst).toFinset ⊆ U := by
    intro v hv
    refine hU v ?_
    rw [rowGet_isSome_iff_mem_keys]
    exact List.mem_toFinset.mp hv
  refine Finset.sum_subset hsub ?_
  intro x _ hx
  rw [if_neg (fun hs =>
    hx (List.mem_toFinset.mpr ((rowGet_isSome_iff_mem_keys _ _).mp hs)))]

/-- C4 (amended): for `maxflow.py`'s `edmonds_karp_with_flows` — which derives
the assignment from the final residual — the claim holds: on a well-formed
capacity graph with non-negative capacities, whenever a flow assignment is
returned, every node other than the source and the sink has its incoming
assignment sum equal to its outgoing assignment sum over the original edges.
The Backend variant cited alongside it violates conservation (see the
counterexample), since a reverse-edge traversal through a node is untracked. -/
theorem C4_conservation (g : Graph) (s t : Node) (F : Int) (fd : FlowDict)
    (wf : GraphWF g) (hcap : ∀ p ∈ g, ∀ q ∈ p.2, 0 ≤ q.2)
    (hrun : edmonds_karp_with_flows g s t = some (F, fd)) :
    ∀ w, w ≠ s → w ≠ t → inFlowSum fd g w = outFlowSum fd g w := by
  obtain ⟨stf, hS, hfd⟩ := withFlows_successS g s t F fd hrun
  have inv := run_final_inv g s t F stf wf hS
  have hnn0 : Nonneg (build_residual g) := fun a b => by
    rw [resCap_build g wf]
    exact resCap_nonneg_of_caps g hcap a b
  have hnn : Nonneg stf.res := inv.nnstep hnn0
  intro w hws hwt
  have hUin : ∀ v, (rowGet (resAdj g v) w).isSome →
      v ∈ universeU (build_residual g) s := by
    intro v hv
    have hk : (rowGet (resAdj (build_residual g) w) v).isSome :=
      (key_build g wf w v).mpr (Or.inr hv)
    exact Finset.mem_insert_of_mem (List.mem_toFinset.mpr
      (targets_of_adj (build_residual g) w v
        ((rowGet_isSome_iff_mem_keys _ _).mp hk)))
  have hUout : ∀ v, (rowGet (resAdj g w) v).isSome →
      v ∈ universeU (build_residual g) s := by
    intro v hv
    have hk : (rowGet (resAdj (build_residual g) w) v).isSome :=
      (key_build g wf w v).mpr (Or.inl hv)
    exact Finset.mem_insert_of_mem (List.mem_toFinset.mpr
      (targets_of_adj (build_residual g) w v
        ((rowGet_isSome_iff_mem_keys _ _).mp hk)))
  rw [hfd, inFlowSum_finset g wf (flowExtract g stf.res) w
    (universeU (build_residual g) s) hUin,
    outFlowSum_finset g wf (flowExtract g stf.res) w
    (universeU (build_residual g) s) hUout]
  have hsum : (∑ v ∈ universeU (build_residual g) s,
        (if (rowGet (resAdj g v) w).isSome then fdVal (flowExtract g stf.res) v w else 0))
      - (∑ v ∈ universeU (build_residual g) s,
        (if (rowGet (resAdj g w) v).isSome then fdVal (flowExtract g stf.res) w v else 0))
      = excess (build_residual g) stf.res (universeU (build_residual g) s) w := by
    rw [← Finset.sum_sub_distrib]
    exact Finset.sum_congr rfl
      (fun v _ => fd_pair_value g stf.res wf inv.pair hnn inv.rkeys v w)
  have hexc := inv.exc w hws hwt
  omega

theorem C4_conservation_witness :
    inFlowSum [(("A", "B"), 3), (("A", "C"), 2), (("B", "C"), 1),
        (("B", "T"), 2), (("C", "T"), 3)] scenarioA "B"
      = outFlowSum [(("A", "B"), 3), (("A", "C"), 2), (("B", "C"), 1),
        (("B", "T"), 2), (("C", "T"), 3)] scenarioA "B" :=
  C4_conservation scenarioA "A" "T" 5
    [(("A", "B"), 3), (("A", "C"), 2), (("B", "C"), 1), (("B", "T"), 2), (("C", "T"), 3)]
    ⟨by decide, by decide⟩ (by decide) (by rfl) "B" (by decide) (by decide)


/-! ## Claim C10: residual non-negativity through both solvers -/

theorem ekStep_nonneg (st : St) (s t : Node) (st' : St) (b : Option Int)
    (hnd : ∀ w, ((resAdj st.res w).map Prod.fst).Nodup) (hst : s ≠ t)
    (hnn : Nonneg st.res) (h : ekStep st s t = some (some (st', b))) :
    Nonneg st'.res ∧ ∃ p, PathOk st.res s t p ∧ b = pathMin st.res p := by
  obtain ⟨p, hpok, hb, hgr, hres'⟩ := ekStep_aug st s t st' b hnd h
  obtain ⟨bi, hbi, h1, hble⟩ := pathOk_bottleneck st.res s t p hpok hst
  refine ⟨?_, p, hpok, hb⟩
  rw [hres']
  have hgd : (pathMin st.res p).getD 0 = bi := by
    rw [hbi]
    rfl
  have hAug : AugDelta st.res (applyAug st.res p ((pathMin st.res p).getD 0)) p bi := by
    rw [hgd]
    exact applyAug_augDelta st.res p hpok.nodup bi
  exact augDelta_nonneg st.res _ p bi hAug hnn hpok.nodup hble (by omega)

theorem dinicScan_nonneg (level : LevelMap) (u : Node)
    (dfsF : Node → Int → Graph → ItMap → Int × Graph × ItMap)
    (hdfs : ∀ v f res it, 0 ≤ f → Nonneg res →
      0 ≤ (dfsF v f res it).1 ∧ (dfsF v f res it).1 ≤ f ∧
      Nonneg (dfsF v f res it).2.1 ∧
      (∀ a b, levelD level a < levelD level v →
        resCap (dfsF v f res it).2.1 a b = resCap res a b)) :
    ∀ (rows : List Node) (f : Int) (res : Graph) (it : ItMap),
    0 ≤ f → Nonneg res →
    0 ≤ (dinicScan dfsF level u rows f res it).1 ∧
    (dinicScan dfsF level u rows f res it).1 ≤ f ∧
    Nonneg (dinicScan dfsF level u rows f res it).2.1 ∧
    (∀ a b, levelD level a < levelD level u →
      resCap (dinicScan dfsF level u rows f res it).2.1 a b = resCap res a b)
  | [], f, res, it, hf, hnn => ⟨le_refl 0, hf, hnn, fun a b _ => rfl⟩
  | v :: rest, f, res, it, hf, hnn => by
    by_cases hg : 0 < resCap res u v ∧ levelD level v = levelD level u + 1
    · have huv : u ≠ v := by
        intro hc
        rw [hc] at hg
        omega
      simp only [dinicScan, if_pos hg]
      rcases hrec : dfsF v (min f (resCap res u v)) res it with ⟨pushed, res', it'⟩
      obtain ⟨hp0, hpf, hnn', hfr⟩ := hdfs v (min f (resCap res u v)) res it
        (le_min hf (le_of_lt hg.1)) hnn
      rw [hrec] at hp0 hpf hnn' hfr
      dsimp only at hp0 hpf hnn' hfr
      simp only [hrec]
      by_cases hpush : 0 < pushed
      · rw [if_pos hpush]
        have hfru : resCap res' u v = resCap res u v := by
          refine hfr u v ?_
          omega
        have hmin := min_le_right f (resCap res u v)
        refine ⟨le_of_lt hpush, le_trans hpf (min_le_left _ _), ?_, ?_⟩
        · intro a b
          simp only [resCap_resUpdate]
          by_cases hvu : a = v ∧ b = u
          · rw [if_pos hvu, if_neg (fun hc => huv hc.2)]
            have hx := hnn' v u
            omega
          · rw [if_neg hvu]
            by_cases huv2 : a = u ∧ b = v
            · rw [if_pos huv2]
              omega
            · rw [if_neg huv2]
              exact hnn' a b
        · intro a b hab
          have hav : ¬ (a = v ∧ b = u) := by
            intro hc
            rw [hc.1] at hab
            omega
          have hau : ¬ (a = u ∧ b = v) := by
            intro hc
            rw [hc.1] at hab
            omega
          simp only [resCap_resUpdate, if_neg hav, if_neg hau]
          refine hfr a b ?_
          omega
      · rw [if_neg hpush]
        obtain ⟨ih0, ihf, ihnn, ihfr⟩ := dinicScan_nonneg level u dfsF hdfs rest f res'
          (itSet it' u (itGet it' u + 1)) hf hnn'
        refine ⟨ih0, ihf, ihnn, ?_⟩
        intro a b hab
        rw [ihfr a b hab]
        refine hfr a b ?_
        omega
    · simp only [dinicScan, if_neg hg]
      exact dinicScan_nonneg level u dfsF hdfs rest f res
        (itSet it u (itGet it u + 1)) hf hnn

theorem dinicDfs_nonneg (t : Node) (level : LevelMap) (adj : List (Node × List Node)) :
    ∀ (fuel : Nat) (u : Node) (f : Int) (res : Graph) (it : ItMap),
    0 ≤ f → Nonneg res →
    0 ≤ (dinicDfs t level adj fuel u f res it).1 ∧
    (dinicDfs t level adj fuel u f res it).1 ≤ f ∧
    Nonneg (dinicDfs t level adj fuel u f res it).2.1 ∧
    (∀ a b, levelD level a < levelD level u →
      resCap (dinicDfs t level adj fuel u f res it).2.1 a b = resCap res a b)
  | 0, u, f, res, it, hf, hnn => ⟨le_refl 0, hf, hnn, fun a b _ => rfl⟩
  | fuel + 1, u, f, res, it, hf, hnn => by
    simp only [dinicDfs]
    by_cases ht : u = t
    · rw [if_pos ht]
      exact ⟨hf, le_refl f, hnn, fun a b _ => rfl⟩
    · rw [if_neg ht]
      exact dinicScan_nonneg level u (dinicDfs t level adj fuel)
        (fun v fv resv itv hfv hnnv => dinicDfs_nonneg t level adj fuel v fv resv itv hfv hnnv)
        _ f res it hf hnn


/-- C10 counterexample: dinic's `dfs` caps the pushed amount at `INF = 10 ** 9`,
which is a finite stand-in for infinity.  On the graph `{A:{T:2000000000}, T:{}}`
the first `dfs` call of the run (its level map, frozen adjacency and iterator
map are exactly the ones the first phase computes, as the first three conjuncts
record) pushes `10 ** 9` along the path `[A, T]`, while the minimum residual
capacity over that path's edges is `2000000000`: the amount pushed is *not* the
path's minimum residual capacity. -/
theorem C10_counterexample :
    bfs_level (build_residual [("A", [("T", 2000000000)]), ("T", [])]) "A" "T" =
      some (some [("T", 1), ("A", 0)]) ∧
    adjOf (build_residual [("A", [("T", 2000000000)]), ("T", [])]) =
      [("A", ["T"]), ("T", ["A"])] ∧
    (build_residual [("A", [("T", 2000000000)]), ("T", [])]).map
      (fun p => (p.1, (0 : Nat))) = [("A", 0), ("T", 0)] ∧
    (dinicDfs "T" [("T", 1), ("A", 0)] [("A", ["T"]), ("T", ["A"])] 4 "A" (10 ^ 9)
      (build_residual [("A", [("T", 2000000000)]), ("T", [])]) [("A", 0), ("T", 0)]).1
      = 10 ^ 9 ∧
    pathMin (build_residual [("A", [("T", 2000000000)]), ("T", [])]) ["A", "T"] =
      some 2000000000 ∧
    (10 ^ 9 : Int) ≠ 2000000000 :=
  ⟨by rfl, by rfl, by rfl, by rfl, by rfl, by decide⟩

/-- C10 (amended): the non-negativity invariant itself holds for both solvers.
Every successful edmonds_karp augmentation keeps the residual non-negative, and
the bottleneck it pushes is exactly the minimum residual capacity over the
augmenting path's edges (`pathMin`); every dinic `dfs` call keeps the residual
non-negative and pushes a non-negative amount bounded by its flow budget `f`
(the amount equals the minimum of `f` and the path residuals, so it can fall
short of the path minimum when the `10 ** 9` stand-in for infinity is smaller). -/
theorem C10_amended :
    (∀ (st : St) (s t : Node) (st' : St) (b : Option Int),
      (∀ w, ((resAdj st.res w).map Prod.fst).Nodup) → s ≠ t →
      Nonneg st.res → ekStep st s t = some (some (st', b)) →
      Nonneg st'.res ∧ ∃ p, PathOk st.res s t p ∧ b = pathMin st.res p) ∧
    (∀ (t : Node) (level : LevelMap) (adj : List (Node × List Node)) (fuel : Nat)
        (u : Node) (f : Int) (res : Graph) (it : ItMap),
      0 ≤ f → Nonneg res →
      0 ≤ (dinicDfs t level adj fuel u f res it).1 ∧
      (dinicDfs t level adj fuel u f res it).1 ≤ f ∧
      Nonneg (dinicDfs t level adj fuel u f res it).2.1) :=
  ⟨fun st s t st' b hnd hst hnn h => ekStep_nonneg st s t st' b hnd hst hnn h,
   fun t level adj fuel u f res it hf hnn =>
     ⟨(dinicDfs_nonneg t level adj fuel u f res it hf hnn).1,
      (dinicDfs_nonneg t level adj fuel u f res it hf hnn).2.1,
      (dinicDfs_nonneg t level adj fuel u f res it hf hnn).2.2.1⟩⟩

theorem C10_amended_witness :
    (Nonneg [("A", [("B", 1), ("C", 2)]), ("B", [("A", 2), ("C", 1), ("T", 0)]),
        ("C", [("A", 0), ("B", 0), ("T", 3)]), ("T", [("B", 2), ("C", 0)])] ∧
      ∃ p, PathOk (build_residual scenarioA) "A" "T" p ∧
        (some 2 : Option Int) = pathMin (build_residual scenarioA) p) ∧
    (0 ≤ (dinicDfs "T" [("T", 1), ("A", 0)] [("A", ["T"]), ("T", ["A"])] 4 "A" (10 ^ 9)
        [("A", [("T", 2000000000)]), ("T", [("A", 0)])] [("A", 0), ("T", 0)]).1 ∧
      (dinicDfs "T" [("T", 1), ("A", 0)] [("A", ["T"]), ("T", ["A"])] 4 "A" (10 ^ 9)
        [("A", [("T", 2000000000)]), ("T", [("A", 0)])] [("A", 0), ("T", 0)]).1 ≤ 10 ^ 9 ∧
      Nonneg (dinicDfs "T" [("T", 1), ("A", 0)] [("A", ["T"]), ("T", ["A"])] 4 "A" (10 ^ 9)
        [("A", [("T", 2000000000)]), ("T", [("A", 0)])] [("A", 0), ("T", 0)]).2.1) :=
  ⟨C10_amended.1 { graph := scenarioA, res := build_residual scenarioA } "A" "T"
      { graph := scenarioA,
        res := [("A", [("B", 1), ("C", 2)]), ("B", [("A", 2), ("C", 1), ("T", 0)]),
          ("C", [("A", 0), ("B", 0), ("T", 3)]), ("T", [("B", 2), ("C", 0)])] }
      (some 2)
      (graphWF_resAdj_nodup (build_residual scenarioA)
        (build_graphWF scenarioA ⟨by decide, by decide⟩))
      (by decide)
      (fun a b => by
        rw [resCap_build scenarioA ⟨by decide, by decide⟩]
        exact resCap_nonneg_of_caps scenarioA (by decide) a b)
      (by rfl),
   C10_amended.2 "T" [("T", 1), ("A", 0)] [("A", ["T"]), ("T", ["A"])] 4 "A"
      (10 ^ 9) [("A", [("T", 2000000000)]), ("T", [("A", 0)])] [("A", 0), ("T", 0)]
      (by decide) (resCap_nonneg_of_caps _ (by decide))⟩


/-! ## Claim C1: cut-based duality -/

theorem sum_pairs_antisym (S : Finset Node) (F : Node → Node → Int)
    (hF : ∀ u v, F u v + F v u = 0) :
    (∑ u ∈ S, ∑ v ∈ S, F u v) = 0 := by
  have hadd : (∑ u ∈ S, ∑ v ∈ S, F u v) + (∑ u ∈ S, ∑ v ∈ S, F v u)
      = ∑ u ∈ S, ∑ v ∈ S, (F u v + F v u) := by
    rw [← Finset.sum_add_distrib]
    refine Finset.sum_congr rfl fun u _ => ?_
    rw [← Finset.sum_add_distrib]
  have hz : (∑ u ∈ S, ∑ v ∈ S, (F u v + F v u)) = 0 :=
    Finset.sum_eq_zero fun u _ => Finset.sum_eq_zero fun v _ => hF u v
  have hswap : (∑ u ∈ S, ∑ v ∈ S, F v u) = ∑ u ∈ S, ∑ v ∈ S, F u v :=
    Finset.sum_comm
  omega

theorem flowVal_antisym (res0 res : Graph) (hpair : PairSum res0 res) (u v : Node) :
    flowVal res0 res u v + flowVal res0 res v u = 0 := by
  unfold flowVal
  have h := hpair u v
  omega

/-- Net-flow decomposition across a cut: the excess at the sink equals the sum
of pair flows from `S` to `U \x5c S`, for any `S` containing the source and
avoiding the sink. -/
theorem excess_eq_cut_flow (res0 res : Graph) (s t : Node) (U S : Finset Node)
    (inv : RunInv res0 s t U res) (hSU : S ⊆ U) (hsS : s ∈ S) (hsU : s ∈ U)
    (htU : t ∈ U) (htS : t ∉ S) (hst : s ≠ t) :
    excess res0 res U t = ∑ u ∈ S, ∑ v ∈ U \ S, flowVal res0 res u v := by
  have hanti := flowVal_antisym res0 res inv.pair
  have htotal : (∑ w ∈ U, excess res0 res U w) = 0 := by
    unfold excess
    have : (∑ w ∈ U, ∑ v ∈ U, flowVal res0 res v w) = 0 :=
      sum_pairs_antisym U (fun w v => flowVal res0 res v w)
        (fun u v => by rw [Int.add_comm]; exact hanti u v)
    exact this
  have hsplit : (∑ w ∈ U, excess res0 res U w)
      = excess res0 res U s + excess res0 res U t := by
    rw [← Finset.add_sum_erase U _ hsU,
      ← Finset.add_sum_erase (U.erase s) _ (Finset.mem_erase.mpr ⟨Ne.symm hst, htU⟩)]
    have hrest : (∑ w ∈ (U.erase s).erase t, excess res0 res U w) = 0 := by
      refine Finset.sum_eq_zero fun w hw => ?_
      have hw1 := Finset.mem_erase.mp hw
      have hw2 := Finset.mem_erase.mp hw1.2
      exact inv.exc w hw2.1 hw1.1
    rw [hrest]
    ring
  have hST : excess res0 res U s + excess res0 res U t = 0 := by
    rw [← hsplit]
    exact htotal
  have hSsum : (∑ w ∈ S, excess res0 res U w) = excess res0 res U s := by
    rw [← Finset.add_sum_erase S _ hsS]
    have hrest : (∑ w ∈ S.erase s, excess res0 res U w) = 0 := by
      refine Finset.sum_eq_zero fun w hw => ?_
      have hw1 := Finset.mem_erase.mp hw
      have hwt : w ≠ t := fun hc => htS (hc ▸ hw1.2)
      exact inv.exc w hw1.1 hwt
    rw [hrest]
    ring
  have hinner : ∀ w, excess res0 res U w
      = (∑ v ∈ U \ S, flowVal res0 res v w) + ∑ v ∈ S, flowVal res0 res v w := by
    intro w
    unfold excess
    rw [Finset.sum_sdiff hSU]
  have hSS : (∑ w ∈ S, ∑ v ∈ S, flowVal res0 res v w) = 0 :=
    sum_pairs_antisym S (fun w v => flowVal res0 res v w)
      (fun u v => by rw [Int.add_comm]; exact hanti u v)
  have hdecomp : (∑ w ∈ S, excess res0 res U w)
      = ∑ w ∈ S, ∑ v ∈ U \ S, flowVal res0 res v w := by
    calc (∑ w ∈ S, excess res0 res U w)
        = ∑ w ∈ S, ((∑ v ∈ U \ S, flowVal res0 res v w)
            + ∑ v ∈ S, flowVal res0 res v w) :=
          Finset.sum_congr rfl fun w _ => hinner w
      _ = (∑ w ∈ S, ∑ v ∈ U \ S, flowVal res0 res v w)
            + ∑ w ∈ S, ∑ v ∈ S, flowVal res0 res v w := Finset.sum_add_distrib
      _ = ∑ w ∈ S, ∑ v ∈ U \ S, flowVal res0 res v w := by rw [hSS]; ring
  have hneg : excess res0 res U t
      = ∑ w ∈ S, ∑ v ∈ U \ S, (- flowVal res0 res v w) := by
    have h1 : excess res0 res U t = - excess res0 res U s := by omega
    rw [h1, ← hSsum, hdecomp]
    rw [← Finset.sum_neg_distrib]
    refine Finset.sum_congr rfl fun w _ => ?_
    rw [← Finset.sum_neg_distrib]
  rw [hneg]
  refine Finset.sum_congr rfl fun u _ => Finset.sum_congr rfl fun v _ => ?_
  have h := hanti v u
  omega

/-- Weak duality: the excess at the sink is at most the capacity of any cut. -/
theorem excess_le_cutCap (res0 res : Graph) (s t : Node) (U S : Finset Node)
    (inv : RunInv res0 s t U res) (hnn : Nonneg res) (hSU : S ⊆ U) (hsS : s ∈ S)
    (hsU : s ∈ U) (htU : t ∈ U) (htS : t ∉ S) (hst : s ≠ t) :
    excess res0 res U t ≤ cutCap res0 U S := by
  rw [excess_eq_cut_flow res0 res s t U S inv hSU hsS hsU htU htS hst]
  unfold cutCap
  refine Finset.sum_le_sum fun u _ => Finset.sum_le_sum fun v _ => ?_
  unfold flowVal
  have := hnn u v
  omega

/-- Exactness: when every residual edge leaving `S` is exhausted, the excess at
the sink equals the cut capacity. -/
theorem excess_eq_cutCap (res0 res : Graph) (s t : Node) (U S : Finset Node)
    (inv : RunInv res0 s t U res) (hnn : Nonneg res) (hSU : S ⊆ U) (hsS : s ∈ S)
    (hsU : s ∈ U) (htU : t ∈ U) (htS : t ∉ S) (hst : s ≠ t)
    (hclosed : ∀ u ∈ S, ∀ v, 0 < resCap res u v → v ∈ S) :
    excess res0 res U t = cutCap res0 U S := by
  rw [excess_eq_cut_flow res0 res s t U S inv hSU hsS hsU htU htS hst]
  unfold cutCap
  refine Finset.sum_congr rfl fun u hu => Finset.sum_congr rfl fun v hv => ?_
  have hvS : v ∉ S := (Finset.mem_sdiff.mp hv).2
  have hz : resCap res u v = 0 := by
    have hle : ¬ 0 < resCap res u v := fun hpos => hvS (hclosed u hu v hpos)
    have := hnn u v
    omega
  unfold flowVal
  omega


/-! ## Claim C1: closedness of a failed BFS -/

theorem pLookup_isSome_iff_mem_keys (p : ParentMap) (k : Node) :
    (pLookup p k).isSome ↔ k ∈ p.map Prod.fst := by
  induction p with
  | nil => simp [pLookup]
  | cons e rest ih =>
    obtain ⟨ka, va⟩ := e
    by_cases hk : ka = k
    · subst hk
      simp [pLookup]
    · have h2 : ¬ k = ka := fun hh => hk hh.symm
      simp [pLookup, hk, h2, ih]

theorem bfsScan_closed (t u : Node) :
    ∀ (row : Row) (parent : ParentMap) (q : List Node),
    pMem (bfsScan t u row parent q).1 t = false →
    (∀ v c, (v, c) ∈ row → 0 < c → pMem (bfsScan t u row parent q).1 v = true) ∧
    (∀ x ∈ q, x ∈ (bfsScan t u row parent q).2) ∧
    (∀ x, pMem (bfsScan t u row parent q).1 x = true →
      pMem parent x = true ∨ x ∈ (bfsScan t u row parent q).2) ∧
    ((∀ x ∈ q, pMem parent x = true) →
      ∀ x ∈ (bfsScan t u row parent q).2, pMem (bfsScan t u row parent q).1 x = true)
  | [], parent, q, ht => by
    refine ⟨?_, ?_, ?_, ?_⟩
    · intro v c hvc
      simp at hvc
    · intro x hx
      exact hx
    · intro x hx
      exact Or.inl hx
    · intro hq x hx
      exact hq x hx
  | (v, cap) :: rest, parent, q, ht => by
    by_cases hg : 0 < cap ∧ pLookup parent v = none
    · by_cases hvt : v = t
      · exfalso
        simp only [bfsScan, if_pos hg] at ht
        rw [if_pos hvt] at ht
        subst hvt
        simp [pMem, pLookup] at ht
      · simp only [bfsScan, if_pos hg] at ht ⊢
        rw [if_neg hvt] at ht ⊢
        obtain ⟨ih1, ih2, ih3, ih4⟩ :=
          bfsScan_closed t u rest ((v, some u) :: parent) (q ++ [v]) ht
        have hmemv : pMem ((v, some u) :: parent) v = true := by
          simp [pMem, pLookup]
        have hmono : ∀ x, pMem ((v, some u) :: parent) x = true →
            pMem (bfsScan t u rest ((v, some u) :: parent) (q ++ [v])).1 x = true :=
          fun x hx => bfsScan_mono t u rest ((v, some u) :: parent) (q ++ [v]) x hx
        refine ⟨?_, ?_, ?_, ?_⟩
        · intro v' c' hvc hc
          rcases List.mem_cons.mp hvc with hhead | htail
          · injection hhead with h1 h2
            rw [h1]
            exact hmono v hmemv
          · exact ih1 v' c' htail hc
        · intro x hx
          exact ih2 x (List.mem_append_left _ hx)
        · intro x hx
          rcases ih3 x hx with hold | hq2
          · by_cases hvx : v = x
            · right
              exact ih2 x (by
                rw [← hvx]
                exact List.mem_append_right _ (List.mem_singleton.mpr rfl))
            · left
              simpa [pMem, pLookup, hvx] using hold
          · right
            exact hq2
        · intro hq x hx
          refine ih4 ?_ x hx
          intro y hy
          rcases List.mem_append.mp hy with hyq | hyv
          · have := hq y hyq
            by_cases hvy : v = y <;> simp [pMem, pLookup, hvy] at this ⊢
            exact this
          · rw [List.mem_singleton.mp hyv]
            exact hmemv
    · simp only [bfsScan, if_neg hg] at ht ⊢
      obtain ⟨ih1, ih2, ih3, ih4⟩ := bfsScan_closed t u rest parent q ht
      refine ⟨?_, ih2, ih3, ih4⟩
      intro v' c' hvc hc
      rcases List.mem_cons.mp hvc with hhead | htail
      · injection hhead with h1 h2
        have hsome : pMem parent v = true := by
          rw [← h2] at hg
          have hv : ¬ pLookup parent v = none := fun hn => hg ⟨hc, hn⟩
          unfold pMem
          rw [Option.isSome_iff_ne_none]
          simpa using hv
        rw [h1]
        exact bfsScan_mono t u rest parent q v hsome
      · exact ih1 v' c' htail hc

theorem bfsLoop_closed (res : Graph) (t : Node) :
    ∀ (fuel : Nat) (parent : ParentMap) (q : List Node) (r : ParentMap),
    (∀ x ∈ q, pMem parent x = true) →
    (∀ x, pMem parent x = true → x ∈ q ∨
      ∀ v c, (v, c) ∈ resAdj res x → 0 < c → pMem parent v = true) →
    bfsLoop res t fuel parent q = some r →
    pMem r t = false →
    ∀ x, pMem r x = true → ∀ v c, (v, c) ∈ resAdj res x → 0 < c → pMem r v = true
  | 0, parent, q, r, _, _, h, _ => by simp [bfsLoop] at h
  | fuel + 1, parent, q, r, hq, hcl, h, hrt => by
    cases q with
    | nil =>
      simp only [bfsLoop, Option.some.injEq] at h
      subst h
      intro x hx v c hvc hc
      rcases hcl x hx with hxq | hxcl
      · simp at hxq
      · exact hxcl v c hvc hc
    | cons u q' =>
      simp only [bfsLoop] at h
      by_cases hm : pMem (bfsScan t u (resAdj res u) parent q').1 t = true
      · rw [if_pos hm] at h
        simp only [Option.some.injEq] at h
        rw [h] at hm
        rw [hrt] at hm
        exact absurd hm (by simp)
      · rw [if_neg hm] at h
        have hmf : pMem (bfsScan t u (resAdj res u) parent q').1 t = false :=
          Bool.eq_false_iff.mpr hm
        obtain ⟨hcov, hqsub, hnew, hqmem⟩ := bfsScan_closed t u (resAdj res u) parent q' hmf
        have hqinit : ∀ x ∈ q', pMem parent x = true :=
          fun x hx => hq x (List.mem_cons_of_mem _ hx)
        refine bfsLoop_closed res t fuel _ _ r (hqmem hqinit) ?_ h hrt
        intro x hx
        rcases hnew x hx with hxold | hxq2
        · rcases hcl x hxold with hxq | hxcl
          · rcases List.mem_cons.mp hxq with hxu | hxq'
            · right
              rw [hxu]
              intro v c hvc hc
              exact hcov v c hvc hc
            · left
              exact hqsub x hxq'
          · right
            intro v c hvc hc
            exact bfsScan_mono t u (resAdj res u) parent q' v (hxcl v c hvc hc)
        · left
          exact hxq2

theorem ekLoop_exit (s t : Node) :
    ∀ (fuel : Nat) (st : St) (flow : Option Int) (F : Option Int) (stf : St),
    ekLoop s t fuel st flow = some (F, stf) → ekStep stf s t = some none
  | 0, st, flow, F, stf, h => by simp [ekLoop] at h
  | fuel + 1, st, flow, F, stf, h => by
    simp only [ekLoop] at h
    cases hstep : ekStep st s t with
    | none =>
      rw [hstep] at h
      simp at h
    | some o =>
      cases o with
      | none =>
        rw [hstep] at h
        simp only [Option.some.injEq, Prod.mk.injEq] at h
        rw [← h.2]
        exact hstep
      | some pr =>
        obtain ⟨st', b⟩ := pr
        rw [hstep] at h
        exact ekLoop_exit s t fuel st' (oadd flow b) F stf h

theorem ekStep_none_elim (st : St) (s t : Node) (h : ekStep st s t = some none) :
    ∃ parent, bfsLoop st.res t (bfsFuel st.res) [(s, none)] [s] = some parent ∧
      pMem parent t = false := by
  unfold ekStep at h
  split at h
  · exact absurd h (by simp)
  case _ parent heq =>
    refine ⟨parent, heq, ?_⟩
    by_cases hm : pMem parent t = true
    · rw [if_pos hm] at h
      split at h
      · simp at h
      · simp at h
    · exact Bool.eq_false_iff.mpr hm


/-- edmonds_karp's final state: the run returns the excess at the sink, and the
set discovered by the last (failed) BFS is a saturated cut whose capacity the
flow value attains. -/
theorem edmonds_karp_final_cut (g : Graph) (s t : Node) (wf : GraphWF g)
    (hst : s ≠ t) (hs : (gGet (build_residual g) s).isSome)
    (hcap : ∀ p ∈ g, ∀ q ∈ p.2, 0 ≤ q.2)
    (htT : t ∈ targets (build_residual g)) :
    ∃ (F : Int) (stf : St) (S : Finset Node),
      edmonds_karpS g s t = some (some F, stf) ∧
      RunInv (build_residual g) s t (universeU (build_residual g) s) stf.res ∧
      Nonneg stf.res ∧
      F = excess (build_residual g) stf.res (universeU (build_residual g) s) t ∧
      S ⊆ universeU (build_residual g) s ∧ s ∈ S ∧ t ∉ S ∧
      F = cutCap (build_residual g) (universeU (build_residual g) s) S := by
  obtain ⟨F, stf, hS, inv, hF⟩ := edmonds_karpS_final g s t wf hst hs
  have hnn0 : Nonneg (build_residual g) := fun a b => by
    rw [resCap_build g wf]
    exact resCap_nonneg_of_caps g hcap a b
  have hnn : Nonneg stf.res := inv.nnstep hnn0
  have hnd0 := graphWF_resAdj_nodup (build_residual g) (build_graphWF g wf)
  have hndf : ∀ w, ((resAdj stf.res w).map Prod.fst).Nodup := by
    intro w
    rw [inv.rkeys w]
    exact hnd0 w
  have hexit : ekStep stf s t = some none := by
    simp only [edmonds_karpS] at hS
    split at hS
    · exact absurd hS (by simp)
    · exact ekLoop_exit s t _ _ _ _ _ hS
  obtain ⟨parent, hbfs, hpt⟩ := ekStep_none_elim stf s t hexit
  have hps : pMem parent s = true :=
    bfsLoop_mono stf.res t (bfsFuel stf.res) [(s, none)] [s] parent s
      (by simp [pLookup]) hbfs
  have hpinv := bfsLoop_inv stf.res s t hndf (bfsFuel stf.res) [(s, none)] [s] parent
    (by simp [ParentOk, pLookup]) (by simp [pLookup])
    (by
      intro x hx
      rw [List.mem_singleton] at hx
      simp [pLookup, hx]) hbfs
  have hclosed := bfsLoop_closed stf.res t (bfsFuel stf.res) [(s, none)] [s] parent
    (by
      intro x hx
      rw [List.mem_singleton] at hx
      simp [pMem, pLookup, hx])
    (by
      intro x hx
      left
      have hsx : s = x := by
        by_contra hc
        simp [pMem, pLookup, hc] at hx
      rw [← hsx]
      exact List.mem_singleton.mpr rfl)
    hbfs hpt
  refine ⟨F, stf, (parent.map Prod.fst).toFinset, hS, inv, hnn, hF, ?_, ?_, ?_, ?_⟩
  · intro x hx
    have hpx : (pLookup parent x).isSome :=
      (pLookup_isSome_iff_mem_keys parent x).mpr (List.mem_toFinset.mp hx)
    obtain ⟨po, hpo⟩ := Option.isSome_iff_exists.mp hpx
    cases po with
    | none =>
      rw [parentOk_lookup_none stf.res s parent hpinv.1 x hpo]
      exact Finset.mem_insert_self _ _
    | some u =>
      have hpos := parentOk_lookup_pos stf.res s parent hpinv.1 x u hpo
      have hkey : (rowGet (resAdj stf.res u) x).isSome :=
        resCap_pos_isSome stf.res u x hpos
      have hmem : x ∈ (resAdj (build_residual g) u).map Prod.fst := by
        rw [← inv.rkeys u]
        exact (rowGet_isSome_iff_mem_keys _ _).mp hkey
      exact Finset.mem_insert_of_mem
        (List.mem_toFinset.mpr (targets_of_adj (build_residual g) u x hmem))
  · exact List.mem_toFinset.mpr ((pLookup_isSome_iff_mem_keys parent s).mp hps)
  · intro hc
    have : (pLookup parent t).isSome :=
      (pLookup_isSome_iff_mem_keys parent t).mpr (List.mem_toFinset.mp hc)
    rw [show ((pLookup parent t).isSome : Bool) = pMem parent t from rfl, hpt] at this
    exact Bool.noConfusion this
  · rw [hF]
    refine excess_eq_cutCap (build_residual g) stf.res s t
      (universeU (build_residual g) s) _ inv hnn ?_ ?_
      (Finset.mem_insert_self _ _)
      (Finset.mem_insert_of_mem (List.mem_toFinset.mpr htT)) ?_ hst ?_
    · intro x hx
      have hpx : (pLookup parent x).isSome :=
        (pLookup_isSome_iff_mem_keys parent x).mpr (List.mem_toFinset.mp hx)
      obtain ⟨po, hpo⟩ := Option.isSome_iff_exists.mp hpx
      cases po with
      | none =>
        rw [parentOk_lookup_none stf.res s parent hpinv.1 x hpo]
        exact Finset.mem_insert_self _ _
      | some u =>
        have hpos := parentOk_lookup_pos stf.res s parent hpinv.1 x u hpo
        have hkey : (rowGet (resAdj stf.res u) x).isSome :=
          resCap_pos_isSome stf.res u x hpos
        have hmem : x ∈ (resAdj (build_residual g) u).map Prod.fst := by
          rw [← inv.rkeys u]
          exact (rowGet_isSome_iff_mem_keys _ _).mp hkey
        exact Finset.mem_insert_of_mem
          (List.mem_toFinset.mpr (targets_of_adj (build_residual g) u x hmem))
    · exact List.mem_toFinset.mpr ((pLookup_isSome_iff_mem_keys parent s).mp hps)
    · intro hc
      have hT : (pLookup parent t).isSome :=
        (pLookup_isSome_iff_mem_keys parent t).mpr (List.mem_toFinset.mp hc)
      rw [show ((pLookup parent t).isSome : Bool) = pMem parent t from rfl, hpt] at hT
      exact Bool.noConfusion hT
    · intro u hu v hpos
      have hpu : pMem parent u = true :=
        (pLookup_isSome_iff_mem_keys parent u).mpr (List.mem_toFinset.mp hu)
      obtain ⟨c, hcv⟩ := Option.isSome_iff_exists.mp (resCap_pos_isSome stf.res u v hpos)
      have hcval : c = resCap stf.res u v := by
        unfold resCap
        rw [hcv]
        rfl
      have hvc : (v, c) ∈ resAdj stf.res u := rowGet_mem _ v c hcv
      have := hclosed u hpu v c hvc (by omega)
      exact List.mem_toFinset.mpr ((pLookup_isSome_iff_mem_keys parent v).mp this)


/-! ## Level-graph paths -/

theorem lpath_getLast (res : Graph) (level : LevelMap) (t : Node) :
    ∀ (u : Node) (p : List Node), LPath res level t u p →
    (u :: p).getLast? = some t
  | u, [], h => by
    rw [h]
    rfl
  | u, v :: rest, h => by
    have := lpath_getLast res level t v rest h.2.2
    rwa [List.getLast?_cons_cons]

theorem lpath_levels_lt (res : Graph) (level : LevelMap) (t : Node) :
    ∀ (u : Node) (p : List Node), LPath res level t u p →
    ∀ x ∈ p, levelD level u < levelD level x
  | u, [], _, x, hx => by simp at hx
  | u, v :: rest, h, x, hx => by
    rcases List.mem_cons.mp hx with hxv | hxr
    · rw [hxv]
      have h21 := h.2.1
      omega
    · have h21 := h.2.1
      have := lpath_levels_lt res level t v rest h.2.2 x hxr
      omega

theorem lpath_nodup (res : Graph) (level : LevelMap) (t : Node) :
    ∀ (u : Node) (p : List Node), LPath res level t u p → (u :: p).Nodup
  | u, [], _ => List.nodup_singleton u
  | u, v :: rest, h => by
    rw [List.nodup_cons]
    refine ⟨?_, lpath_nodup res level t v rest h.2.2⟩
    intro hu
    have := lpath_levels_lt res level t u (v :: rest) h u hu
    omega

theorem lpath_edges (res : Graph) (level : LevelMap) (t : Node) :
    ∀ (u : Node) (p : List Node), LPath res level t u p →
    ∀ e ∈ pathEdges (u :: p),
      0 < resCap res e.1 e.2 ∧ levelD level e.2 = levelD level e.1 + 1
  | u, [], _, e, he => by simp [pathEdges] at he
  | u, v :: rest, h, e, he => by
    rw [show pathEdges (u :: v :: rest) = (u, v) :: pathEdges (v :: rest) from rfl] at he
    rcases List.mem_cons.mp he with hh | ht
    · rw [hh]
      exact ⟨h.1, h.2.1⟩
    · exact lpath_edges res level t v rest h.2.2 e ht

/-- Level paths survive a residual change that never makes a level edge more
usable: if every edge live in `res2` was already live in `res`, paths carry
over. -/
theorem lpath_mono (res res2 : Graph) (level : LevelMap) (t : Node)
    (hmono : ∀ a b, 0 < resCap res2 a b → levelD level b = levelD level a + 1 →
      0 < resCap res a b) :
    ∀ (u : Node) (p : List Node), LPath res2 level t u p → LPath res level t u p
  | u, [], h => h
  | u, v :: rest, h =>
    ⟨hmono u v h.1 h.2.1, h.2.1, lpath_mono res res2 level t hmono v rest h.2.2⟩

/-! ## Invariants of the level BFS -/

theorem levelScan_lookup_mono (u : Node) :
    ∀ (row : Row) (level : LevelMap) (q : List Node) (x : Node) (d : Int),
    lLookup level x = some d → lLookup (levelScan u row level q).1 x = some d
  | [], _, _, _, _, h => h
  | (v, cap) :: rest, level, q, x, d, h => by
    by_cases hg : 0 < cap ∧ lLookup level v = none
    · simp only [levelScan, if_pos hg]
      refine levelScan_lookup_mono u rest _ _ x d ?_
      by_cases hvx : v = x
      · rw [hvx] at hg
        rw [hg.2] at h
        exact Option.noConfusion h
      · simp [lLookup, hvx, h]
    · simp only [levelScan, if_neg hg]
      exact levelScan_lookup_mono u rest level q x d h

theorem levelLoop_lookup_mono (res : Graph) :
    ∀ (fuel : Nat) (level : LevelMap) (q : List Node) (r : LevelMap)
      (x : Node) (d : Int),
    lLookup level x = some d → levelLoop res fuel level q = some r →
    lLookup r x = some d
  | 0, level, q, r, x, d, _, h => by simp [levelLoop] at h
  | fuel + 1, level, q, r, x, d, hx, h => by
    cases q with
    | nil =>
      simp only [levelLoop, Option.some.injEq] at h
      rw [← h]
      exact hx
    | cons u q' =>
      simp only [levelLoop] at h
      exact levelLoop_lookup_mono res fuel _ _ r x d
        (levelScan_lookup_mono u (resAdj res u) level q' x d hx) h


theorem levelScan_queue (u : Node) :
    ∀ (row : Row) (level : LevelMap) (q : List Node),
    (∀ x ∈ q, (lLookup level x).isSome) →
    ∀ x ∈ (levelScan u row level q).2, (lLookup (levelScan u row level q).1 x).isSome
  | [], _, q, hq, x, hx => hq x hx
  | (v, cap) :: rest, level, q, hq, x, hx => by
    by_cases hg : 0 < cap ∧ lLookup level v = none
    · simp only [levelScan, if_pos hg] at hx ⊢
      refine levelScan_queue u rest _ _ ?_ x hx
      intro y hy
      rcases List.mem_append.mp hy with hyq | hyv
      · have hys := hq y hyq
        by_cases hvy : v = y
        · simp [lLookup, hvy]
        · simpa [lLookup, hvy] using hys
      · rw [List.mem_singleton.mp hyv]
        simp [lLookup]
    · simp only [levelScan, if_neg hg] at hx ⊢
      exact levelScan_queue u rest level q hq x hx

theorem levelScan_chain (res : Graph) (s u : Node)
    (hnd : ((resAdj res u).map Prod.fst).Nodup) :
    ∀ (row : Row) (level : LevelMap) (q : List Node),
    (∀ e ∈ row, e ∈ resAdj res u) →
    (lLookup level u).isSome →
    (∀ v d, lLookup level v = some d → 0 ≤ d ∧ d < (level.length : Int)) →
    (∀ v d, lLookup level v = some d → (v = s ∧ d = 0) ∨
      (1 ≤ d ∧ ∃ x dx, lLookup level x = some dx ∧ d = dx + 1 ∧ 0 < resCap res x v)) →
    (∀ v d, lLookup (levelScan u row level q).1 v = some d →
      0 ≤ d ∧ d < ((levelScan u row level q).1.length : Int)) ∧
    (∀ v d, lLookup (levelScan u row level q).1 v = some d → (v = s ∧ d = 0) ∨
      (1 ≤ d ∧ ∃ x dx, lLookup (levelScan u row level q).1 x = some dx ∧
        d = dx + 1 ∧ 0 < resCap res x v))
  | [], level, q, _, _, hB, hC => ⟨hB, hC⟩
  | (v, cap) :: rest, level, q, hrow, hu, hB, hC => by
    have hrest : ∀ e ∈ rest, e ∈ resAdj res u :=
      fun e he => hrow e (List.mem_cons_of_mem _ he)
    by_cases hg : 0 < cap ∧ lLookup level v = none
    · simp only [levelScan, if_pos hg]
      obtain ⟨du, hdu⟩ := Option.isSome_iff_exists.mp hu
      have hdub := hB u du hdu
      have hvu : v ≠ u := by
        intro hc
        rw [hc, hdu] at hg
        exact Option.noConfusion hg.2
      have hcapv : resCap res u v = cap := by
        unfold resCap
        rw [mem_rowGet_nodup (resAdj res u) v cap hnd (hrow (v, cap) (List.mem_cons_self _ _))]
        rfl
      have hlev : levelD level u = du := by
        unfold levelD
        rw [hdu]
        rfl
      have hB' : ∀ y d, lLookup ((v, levelD level u + 1) :: level) y = some d →
          0 ≤ d ∧ d < (((v, levelD level u + 1) :: level).length : Int) := by
        intro y d hy
        by_cases hvy : v = y
        · simp only [lLookup, if_pos hvy, Option.some.injEq] at hy
          rw [← hy, hlev]
          simp only [List.length_cons]
          push_cast
          omega
        · simp only [lLookup, if_neg hvy] at hy
          have := hB y d hy
          simp only [List.length_cons]
          push_cast
          push_cast at this
          omega
      have hC' : ∀ y d, lLookup ((v, levelD level u + 1) :: level) y = some d →
          (y = s ∧ d = 0) ∨ (1 ≤ d ∧ ∃ x dx,
            lLookup ((v, levelD level u + 1) :: level) x = some dx ∧
            d = dx + 1 ∧ 0 < resCap res x y) := by
        intro y d hy
        by_cases hvy : v = y
        · simp only [lLookup, if_pos hvy, Option.some.injEq] at hy
          right
          refine ⟨by rw [← hy, hlev]; omega, u, du, ?_, by rw [← hy, hlev], ?_⟩
          · simp only [lLookup, if_neg (fun hc => hvu hc)]
            exact hdu
          · rw [← hvy, hcapv]
            exact hg.1
        · simp only [lLookup, if_neg hvy] at hy
          rcases hC y d hy with hl | ⟨hd1, x, dx, hx, hdx, hcx⟩
          · exact Or.inl hl
          · right
            refine ⟨hd1, x, dx, ?_, hdx, hcx⟩
            have hvx : v ≠ x := by
              intro hc
              rw [← hc] at hx
              rw [hg.2] at hx
              exact Option.noConfusion hx
            simp only [lLookup, if_neg hvx]
            exact hx
      exact levelScan_chain res s u hnd rest _ _ hrest
        (by
          have : lLookup ((v, levelD level u + 1) :: level) u = some du := by
            simp only [lLookup, if_neg (fun hc => hvu hc)]
            exact hdu
          rw [this]
          rfl) hB' hC'
    · simp only [levelScan, if_neg hg]
      exact levelScan_chain res s u hnd rest level q hrest hu hB hC

theorem levelLoop_chain (res : Graph) (s : Node)
    (hnd : ∀ w, ((resAdj res w).map Prod.fst).Nodup) :
    ∀ (fuel : Nat) (level : LevelMap) (q : List Node) (r : LevelMap),
    (∀ x ∈ q, (lLookup level x).isSome) →
    (∀ v d, lLookup level v = some d → 0 ≤ d ∧ d < (level.length : Int)) →
    (∀ v d, lLookup level v = some d → (v = s ∧ d = 0) ∨
      (1 ≤ d ∧ ∃ x dx, lLookup level x = some dx ∧ d = dx + 1 ∧ 0 < resCap res x v)) →
    levelLoop res fuel level q = some r →
    (∀ v d, lLookup r v = some d → 0 ≤ d ∧ d < (r.length : Int)) ∧
    (∀ v d, lLookup r v = some d → (v = s ∧ d = 0) ∨
      (1 ≤ d ∧ ∃ x dx, lLookup r x = some dx ∧ d = dx + 1 ∧ 0 < resCap res x v))
  | 0, level, q, r, _, _, _, h => by simp [levelLoop] at h
  | fuel + 1, level, q, r, hq, hB, hC, h => by
    cases q with
    | nil =>
      simp only [levelLoop, Option.some.injEq] at h
      rw [← h]
      exact ⟨hB, hC⟩
    | cons u q' =>
      simp only [levelLoop] at h
      obtain ⟨hB', hC'⟩ := levelScan_chain res s u (hnd u) (resAdj res u) level q'
        (fun e he => he) (hq u (List.mem_cons_self _ _)) hB hC
      refine levelLoop_chain res s hnd fuel _ _ r ?_ hB' hC' h
      intro x hx
      exact levelScan_queue u (resAdj res u) level q'
        (fun y hy => hq y (List.mem_cons_of_mem _ hy)) x hx


theorem levelScan_isSome_mono (u : Node) (row : Row) (level : LevelMap)
    (q : List Node) (x : Node) (hx : (lLookup level x).isSome) :
    (lLookup (levelScan u row level q).1 x).isSome := by
  obtain ⟨d, hd⟩ := Option.isSome_iff_exists.mp hx
  rw [levelScan_lookup_mono u row level q x d hd]
  rfl

theorem levelScan_closed (u : Node) :
    ∀ (row : Row) (level : LevelMap) (q : List Node),
    (∀ v c, (v, c) ∈ row → 0 < c → (lLookup (levelScan u row level q).1 v).isSome) ∧
    (∀ x ∈ q, x ∈ (levelScan u row level q).2) ∧
    (∀ x, (lLookup (levelScan u row level q).1 x).isSome →
      (lLookup level x).isSome ∨ x ∈ (levelScan u row level q).2)
  | [], level, q => by
    refine ⟨?_, fun x hx => hx, fun x hx => Or.inl hx⟩
    intro v c hvc
    simp at hvc
  | (v, cap) :: rest, level, q => by
    by_cases hg : 0 < cap ∧ lLookup level v = none
    · simp only [levelScan, if_pos hg]
      obtain ⟨ih1, ih2, ih3⟩ := levelScan_closed u rest ((v, levelD level u + 1) :: level) (q ++ [v])
      have hmemv : (lLookup ((v, levelD level u + 1) :: level) v).isSome := by
        simp [lLookup]
      refine ⟨?_, ?_, ?_⟩
      · intro v' c' hvc hc
        rcases List.mem_cons.mp hvc with hhead | htail
        · injection hhead with h1 h2
          rw [h1]
          exact levelScan_isSome_mono u rest _ _ v hmemv
        · exact ih1 v' c' htail hc
      · intro x hx
        exact ih2 x (List.mem_append_left _ hx)
      · intro x hx
        rcases ih3 x hx with hold | hq2
        · by_cases hvx : v = x
          · right
            exact ih2 x (by
              rw [← hvx]
              exact List.mem_append_right _ (List.mem_singleton.mpr rfl))
          · left
            simpa [lLookup, hvx] using hold
        · right
          exact hq2
    · simp only [levelScan, if_neg hg]
      obtain ⟨ih1, ih2, ih3⟩ := levelScan_closed u rest level q
      refine ⟨?_, ih2, ih3⟩
      intro v' c' hvc hc
      rcases List.mem_cons.mp hvc with hhead | htail
      · injection hhead with h1 h2
        have hsome : (lLookup level v).isSome := by
          rw [← h2] at hg
          have hv : ¬ lLookup level v = none := fun hn => hg ⟨hc, hn⟩
          rw [Option.isSome_iff_ne_none]
          simpa using hv
        rw [h1]
        exact levelScan_isSome_mono u rest level q v hsome
      · exact ih1 v' c' htail hc

theorem levelLoop_closed (res : Graph) :
    ∀ (fuel : Nat) (level : LevelMap) (q : List Node) (r : LevelMap),
    (∀ x ∈ q, (lLookup level x).isSome) →
    (∀ x, (lLookup level x).isSome → x ∈ q ∨
      ∀ v c, (v, c) ∈ resAdj res x → 0 < c → (lLookup level v).isSome) →
    levelLoop res fuel level q = some r →
    ∀ x, (lLookup r x).isSome → ∀ v c, (v, c) ∈ resAdj res x → 0 < c →
      (lLookup r v).isSome
  | 0, level, q, r, _, _, h => by simp [levelLoop] at h
  | fuel + 1, level, q, r, hq, hcl, h => by
    cases q with
    | nil =>
      simp only [levelLoop, Option.some.injEq] at h
      subst h
      intro x hx v c hvc hc
      rcases hcl x hx with hxq | hxcl
      · simp at hxq
      · exact hxcl v c hvc hc
    | cons u q' =>
      simp only [levelLoop] at h
      obtain ⟨hcov, hqsub, hnew⟩ := levelScan_closed u (resAdj res u) level q'
      have hqinit : ∀ x ∈ q', (lLookup level x).isSome :=
        fun x hx => hq x (List.mem_cons_of_mem _ hx)
      refine levelLoop_closed res fuel _ _ r (levelScan_queue u (resAdj res u) level q' hqinit) ?_ h
      intro x hx
      rcases hnew x hx with hxold | hxq2
      · rcases hcl x hxold with hxq | hxcl
        · rcases List.mem_cons.mp hxq with hxu | hxq'
          · right
            rw [hxu]
            intro v c hvc hc
            exact hcov v c hvc hc
          · left
            exact hqsub x hxq'
        · right
          intro v c hvc hc
          exact levelScan_isSome_mono u (resAdj res u) level q' v (hxcl v c hvc hc)
      · left
        exact hxq2

theorem lpath_snoc (res : Graph) (level : LevelMap) (x v : Node)
    (hc : 0 < resCap res x v) (hl : levelD level v = levelD level x + 1) :
    ∀ (u : Node) (p : List Node), LPath res level x u p →
    LPath res level v u (p ++ [v])
  | u, [], h => by
    rw [show LPath res level x u [] = (u = x) from rfl] at h
    rw [h]
    exact ⟨hc, hl, rfl⟩
  | u, w :: rest, h =>
    ⟨h.1, h.2.1, lpath_snoc res level x v hc hl w rest h.2.2⟩

theorem chain_to_path (res : Graph) (s : Node) (level : LevelMap)
    (hB0 : ∀ v d, lLookup level v = some d → 0 ≤ d)
    (hC : ∀ v d, lLookup level v = some d → (v = s ∧ d = 0) ∨
      (1 ≤ d ∧ ∃ x dx, lLookup level x = some dx ∧ d = dx + 1 ∧ 0 < resCap res x v)) :
    ∀ (n : Nat) (v : Node) (d : Int), lLookup level v = some d → d ≤ (n : Int) →
    ∃ p, LPath res level v s p
  | 0, v, d, hv, hdn => by
    have h0 := hB0 v d hv
    rcases hC v d hv with ⟨hvs, _⟩ | ⟨hd1, _⟩
    · exact ⟨[], hvs.symm⟩
    · omega
  | n + 1, v, d, hv, hdn => by
    rcases hC v d hv with ⟨hvs, _⟩ | ⟨hd1, x, dx, hx, hdx, hcx⟩
    · exact ⟨[], hvs.symm⟩
    · obtain ⟨p, hp⟩ := chain_to_path res s level hB0 hC n x dx hx (by push_cast; omega)
      refine ⟨p ++ [v], lpath_snoc res level x v hcx ?_ s p hp⟩
      unfold levelD
      rw [hv, hx]
      simpa using hdx


/-! ## The dinic dfs: full specification -/

theorem itGet_itSet (it : ItMap) (u : Node) (n : Nat) (x : Node) :
    itGet (itSet it u n) x = if u = x then n else itGet it x := by
  induction it with
  | nil =>
    by_cases hux : u = x <;> simp [itSet, itGet, hux]
  | cons e rest ih =>
    obtain ⟨k, m⟩ := e
    by_cases hku : k = u
    · subst hku
      by_cases hkx : k = x
      · subst hkx
        simp [itSet, itGet]
      · simp [itSet, itGet, hkx]
    · by_cases hkx : k = x
      · subst hkx
        have hux : ¬ u = k := fun hc => hku hc.symm
        simp [itSet, itGet, hku, hux]
      · simp [itSet, itGet, hku, hkx, ih]

theorem deadSkip_bump (res : Graph) (level : LevelMap)
    (adj : List (Node × List Node)) (t : Node) (it : ItMap) (u v : Node)
    (hds : DeadSkip res level adj t it)
    (hv : (adjGet adj u)[itGet it u]? = some v)
    (hdead : ¬ (0 < resCap res u v ∧ levelD level v = levelD level u + 1 ∧
      LReach res level t v)) :
    DeadSkip res level adj t (itSet it u (itGet it u + 1)) := by
  intro x w hw
  rw [itGet_itSet] at hw
  by_cases hux : u = x
  · subst hux
    rw [if_pos rfl, List.take_succ, hv] at hw
    rcases List.mem_append.mp hw with h1 | h2
    · exact hds u w h1
    · simp only [Option.toList, List.mem_singleton] at h2
      rw [h2]
      exact hdead
  · rw [if_neg hux] at hw
    exact hds x w hw

theorem dinicScan_spec (t : Node) (level : LevelMap) (adj : List (Node × List Node))
    (u : Node)
    (dfsF : Node → Int → Graph → ItMap → Int × Graph × ItMap)
    (hdfs : ∀ v f res it, 1 ≤ f →
      (∀ x, adjGet adj x = (resAdj res x).map Prod.fst) →
      (∀ a b, (rowGet (resAdj res a) b).isSome → (rowGet (resAdj res b) a).isSome) →
      DeadSkip res level adj t it →
      levelD level v = levelD level u + 1 →
      0 ≤ (dfsF v f res it).1 ∧
      ((dfsF v f res it).2.1.map Prod.fst = res.map Prod.fst) ∧
      (∀ x, (resAdj (dfsF v f res it).2.1 x).map Prod.fst = (resAdj res x).map Prod.fst) ∧
      (∀ x, levelD level x < levelD level v → itGet (dfsF v f res it).2.2 x = itGet it x) ∧
      ((dfsF v f res it).1 = 0 → (dfsF v f res it).2.1 = res ∧
        DeadSkip res level adj t (dfsF v f res it).2.2 ∧ ¬ LReach res level t v) ∧
      (0 < (dfsF v f res it).1 → ∃ tail, LPath res level t v tail ∧
        AugDelta res (dfsF v f res it).2.1 (v :: tail) (dfsF v f res it).1 ∧
        (dfsF v f res it).1 ≤ f ∧
        (∀ e ∈ pathEdges (v :: tail), (dfsF v f res it).1 ≤ resCap res e.1 e.2) ∧
        DeadSkip res level adj t (dfsF v f res it).2.2)) :
    ∀ (rows : List Node) (f : Int) (res : Graph) (it : ItMap),
    1 ≤ f →
    (∀ x, adjGet adj x = (resAdj res x).map Prod.fst) →
    (∀ a b, (rowGet (resAdj res a) b).isSome → (rowGet (resAdj res b) a).isSome) →
    DeadSkip res level adj t it →
    rows = (adjGet adj u).drop (itGet it u) →
    0 ≤ (dinicScan dfsF level u rows f res it).1 ∧
    ((dinicScan dfsF level u rows f res it).2.1.map Prod.fst = res.map Prod.fst) ∧
    (∀ x, (resAdj (dinicScan dfsF level u rows f res it).2.1 x).map Prod.fst =
      (resAdj res x).map Prod.fst) ∧
    (∀ x, levelD level x < levelD level u →
      itGet (dinicScan dfsF level u rows f res it).2.2 x = itGet it x) ∧
    ((dinicScan dfsF level u rows f res it).1 = 0 →
      (dinicScan dfsF level u rows f res it).2.1 = res ∧
      DeadSkip res level adj t (dinicScan dfsF level u rows f res it).2.2 ∧
      itGet (dinicScan dfsF level u rows f res it).2.2 u = itGet it u + rows.length) ∧
    (0 < (dinicScan dfsF level u rows f res it).1 →
      ∃ tail, LPath res level t u tail ∧
        AugDelta res (dinicScan dfsF level u rows f res it).2.1 (u :: tail)
          (dinicScan dfsF level u rows f res it).1 ∧
        (dinicScan dfsF level u rows f res it).1 ≤ f ∧
        (∀ e ∈ pathEdges (u :: tail),
          (dinicScan dfsF level u rows f res it).1 ≤ resCap res e.1 e.2) ∧
        DeadSkip res level adj t (dinicScan dfsF level u rows f res it).2.2)
  | [], f, res, it, hf, hadj, hsym, hds, hrows => by
    refine ⟨le_refl 0, rfl, fun x => rfl, fun x _ => rfl, ?_, ?_⟩
    · intro h0
      exact ⟨rfl, hds, rfl⟩
    · intro hpos
      have hlt : (0 : Int) < 0 := hpos
      exact absurd hlt (lt_irrefl 0)
  | v :: rest, f, res, it, hf, hadj, hsym, hds, hrows => by
    have hvidx : (adjGet adj u)[itGet it u]? = some v := by
      rw [← List.head?_drop, ← hrows]
      rfl
    have hrest : rest = (adjGet adj u).drop (itGet it u + 1) := by
      rw [← List.tail_drop, ← hrows]
      rfl
    by_cases hg : 0 < resCap res u v ∧ levelD level v = levelD level u + 1
    · simp only [dinicScan, if_pos hg]
      rcases hrec : dfsF v (min f (resCap res u v)) res it with ⟨pushed, res1, it1⟩
      obtain ⟨hNN, hKo, hKr, hIT, hzero, hposc⟩ :=
        hdfs v (min f (resCap res u v)) res it (le_min hf hg.1) hadj hsym hds hg.2
      rw [hrec] at hNN hKo hKr hIT hzero hposc
      dsimp only at hNN hKo hKr hIT hzero hposc
      simp only [hrec]
      by_cases hpush : 0 < pushed
      · rw [if_pos hpush]
        obtain ⟨tail1, hp1, hAug1, hle1, hble1, hds1⟩ := hposc hpush
        have hunv : u ≠ v := by
          intro hc
          have := hg.2
          rw [hc] at this
          omega
        have hu1 : u ∉ tail1 := by
          intro hmem
          have h1 := lpath_levels_lt res level t v tail1 hp1 u hmem
          have h2 := hg.2
          omega
        have huvt : u ∉ v :: tail1 := by
          intro hmem
          rcases List.mem_cons.mp hmem with hc | hc
          · exact hunv hc
          · exact hu1 hc
        have hE1uv : (u, v) ∉ pathEdges (v :: tail1) := by
          intro hmem
          exact huvt (pathEdges_mem_endpoints _ _ hmem).1
        have hE1vu : (v, u) ∉ pathEdges (v :: tail1) := by
          intro hmem
          exact huvt (pathEdges_mem_endpoints _ _ hmem).2
        have hk1v : (rowGet (resAdj res1 u) v).isSome := by
          rw [rowGet_isSome_iff_mem_keys, hKr u, ← rowGet_isSome_iff_mem_keys]
          exact resCap_pos_isSome res u v hg.1
        have hk1u : (rowGet (resAdj res1 v) u).isSome := by
          rw [rowGet_isSome_iff_mem_keys, hKr v, ← rowGet_isSome_iff_mem_keys]
          exact hsym u v (resCap_pos_isSome res u v hg.1)
        have hout2 := resUpdate_outer_keys res1 u v (resCap res1 u v - pushed)
          (rowGet_isSome_gGet res1 u v hk1v)
        have hrow2 := resAdj_keys_resUpdate res1 u v (resCap res1 u v - pushed) hk1v
        have hk2u : (rowGet (resAdj (resUpdate res1 u v (resCap res1 u v - pushed)) v) u).isSome := by
          rw [rowGet_isSome_iff_mem_keys, hrow2 v, ← rowGet_isSome_iff_mem_keys]
          exact hk1u
        have hout3 := resUpdate_outer_keys (resUpdate res1 u v (resCap res1 u v - pushed)) v u
          (resCap (resUpdate res1 u v (resCap res1 u v - pushed)) v u + pushed)
          (rowGet_isSome_gGet _ v u hk2u)
        have hrow3 := resAdj_keys_resUpdate (resUpdate res1 u v (resCap res1 u v - pushed)) v u
          (resCap (resUpdate res1 u v (resCap res1 u v - pushed)) v u + pushed) hk2u
        have hdelta : ∀ a c, resCap res1 a c =
            resCap res a c - (if (a, c) ∈ pathEdges (v :: tail1) then pushed else 0)
              + (if (c, a) ∈ pathEdges (v :: tail1) then pushed else 0) := hAug1
        refine ⟨le_of_lt hpush, ?_, ?_, ?_, ?_, ?_⟩
        · rw [hout3, hout2, hKo]
        · intro x
          rw [hrow3 x, hrow2 x, hKr x]
        · intro x hx
          refine hIT x ?_
          have := hg.2
          omega
        · intro h0
          omega
        · intro _
          refine ⟨v :: tail1, ⟨hg.1, hg.2, hp1⟩, ?_, le_trans hle1 (min_le_left _ _), ?_, hds1⟩
          · intro a c
            rw [show pathEdges (u :: v :: tail1) = (u, v) :: pathEdges (v :: tail1) from rfl]
            have hres2vu : resCap (resUpdate res1 u v (resCap res1 u v - pushed)) v u
                = resCap res1 v u := by
              rw [resCap_resUpdate, if_neg (fun hcc : v = u ∧ u = v => hunv hcc.2)]
            by_cases hac1 : a = u ∧ c = v
            · rw [hac1.1, hac1.2]
              rw [resCap_resUpdate, if_neg (fun hcc : u = v ∧ v = u => hunv hcc.1),
                resCap_resUpdate, if_pos ⟨rfl, rfl⟩, hdelta u v,
                if_neg hE1uv, if_neg hE1vu,
                if_pos (List.mem_cons_self _ _), if_neg (by
                  intro hmem
                  rcases List.mem_cons.mp hmem with hcc | hcc
                  · exact hunv (congrArg Prod.fst hcc).symm
                  · exact hE1vu hcc)]
              ring
            · by_cases hac2 : a = v ∧ c = u
              · rw [hac2.1, hac2.2]
                rw [resCap_resUpdate, if_pos ⟨rfl, rfl⟩, hres2vu, hdelta v u,
                  if_neg hE1vu, if_neg hE1uv,
                  if_neg (by
                    intro hmem
                    rcases List.mem_cons.mp hmem with hcc | hcc
                    · exact hunv (congrArg Prod.snd hcc)
                    · exact hE1vu hcc),
                  if_pos (List.mem_cons_self _ _)]
                ring
              · rw [resCap_resUpdate, if_neg hac2, resCap_resUpdate, if_neg hac1,
                  hdelta a c]
                have hiff1 : (a, c) ∈ (u, v) :: pathEdges (v :: tail1) ↔
                    (a, c) ∈ pathEdges (v :: tail1) := by
                  constructor
                  · intro hmem
                    rcases List.mem_cons.mp hmem with hcc | hcc
                    · exact absurd ⟨(congrArg Prod.fst hcc), (congrArg Prod.snd hcc)⟩ hac1
                    · exact hcc
                  · exact List.mem_cons_of_mem _
                have hiff2 : (c, a) ∈ (u, v) :: pathEdges (v :: tail1) ↔
                    (c, a) ∈ pathEdges (v :: tail1) := by
                  constructor
                  · intro hmem
                    rcases List.mem_cons.mp hmem with hcc | hcc
                    · exact absurd ⟨(congrArg Prod.snd hcc), (congrArg Prod.fst hcc)⟩ hac2
                    · exact hcc
                  · exact List.mem_cons_of_mem _
                rw [if_congr hiff1 rfl rfl, if_congr hiff2 rfl rfl]
          · intro e he
            rw [show pathEdges (u :: v :: tail1) = (u, v) :: pathEdges (v :: tail1) from rfl]
              at he
            rcases List.mem_cons.mp he with hh | ht2
            · rw [hh]
              exact le_trans hle1 (min_le_right _ _)
            · exact hble1 e ht2
      · rw [if_neg hpush]
        have hp0 : pushed = 0 := by omega
        obtain ⟨hres1, hds1, hnr⟩ := hzero hp0
        rw [hres1]
        have hitu : itGet it1 u = itGet it u := by
          refine hIT u ?_
          have := hg.2
          omega
        have hdead : ¬ (0 < resCap res u v ∧ levelD level v = levelD level u + 1 ∧
            LReach res level t v) := fun hcc => hnr hcc.2.2
        have hds2 : DeadSkip res level adj t (itSet it1 u (itGet it1 u + 1)) := by
          refine deadSkip_bump res level adj t it1 u v hds1 ?_ hdead
          rw [hitu]
          exact hvidx
        have hrest2 : rest = (adjGet adj u).drop (itGet (itSet it1 u (itGet it1 u + 1)) u) := by
          rw [itGet_itSet, if_pos rfl, hitu]
          exact hrest
        obtain ⟨ihNN, ihKo, ihKr, ihIT, ihzero, ihpos⟩ :=
          dinicScan_spec t level adj u dfsF hdfs rest f res
            (itSet it1 u (itGet it1 u + 1)) hf hadj hsym hds2 hrest2
        refine ⟨ihNN, ihKo, ihKr, ?_, ?_, ihpos⟩
        · intro x hx
          rw [ihIT x hx, itGet_itSet]
          have hux : ¬ u = x := by
            intro hc
            rw [← hc] at hx
            omega
          rw [if_neg hux]
          exact hIT x (by
            have := hg.2
            omega)
        · intro h0
          obtain ⟨ihr, ihds, ihit⟩ := ihzero h0
          refine ⟨ihr, ihds, ?_⟩
          rw [ihit, itGet_itSet, if_pos rfl, hitu]
          simp only [List.length_cons]
          omega
    · simp only [dinicScan, if_neg hg]
      have hds2 : DeadSkip res level adj t (itSet it u (itGet it u + 1)) :=
        deadSkip_bump res level adj t it u v hds hvidx (fun hcc => hg ⟨hcc.1, hcc.2.1⟩)
      have hrest2 : rest = (adjGet adj u).drop (itGet (itSet it u (itGet it u + 1)) u) := by
        rw [itGet_itSet, if_pos rfl]
        exact hrest
      obtain ⟨ihNN, ihKo, ihKr, ihIT, ihzero, ihpos⟩ :=
        dinicScan_spec t level adj u dfsF hdfs rest f res
          (itSet it u (itGet it u + 1)) hf hadj hsym hds2 hrest2
      refine ⟨ihNN, ihKo, ihKr, ?_, ?_, ihpos⟩
      · intro x hx
        rw [ihIT x hx, itGet_itSet]
        have hux : ¬ u = x := by
          intro hc
          rw [← hc] at hx
          omega
        rw [if_neg hux]
      · intro h0
        obtain ⟨ihr, ihds, ihit⟩ := ihzero h0
        refine ⟨ihr, ihds, ?_⟩
        rw [ihit, itGet_itSet, if_pos rfl]
        simp only [List.length_cons]
        omega


theorem dinicDfs_spec (t : Node) (level : LevelMap) (adj : List (Node × List Node))
    (hlvlB : ∀ v d, lLookup level v = some d → 0 ≤ d ∧ d < (level.length : Int)) :
    ∀ (fuel : Nat) (u : Node) (f : Int) (res : Graph) (it : ItMap),
    1 ≤ f →
    0 ≤ levelD level u →
    (level.length : Int) + 2 ≤ (fuel : Int) + levelD level u →
    (∀ x, adjGet adj x = (resAdj res x).map Prod.fst) →
    (∀ a b, (rowGet (resAdj res a) b).isSome → (rowGet (resAdj res b) a).isSome) →
    DeadSkip res level adj t it →
    0 ≤ (dinicDfs t level adj fuel u f res it).1 ∧
    ((dinicDfs t level adj fuel u f res it).2.1.map Prod.fst = res.map Prod.fst) ∧
    (∀ x, (resAdj (dinicDfs t level adj fuel u f res it).2.1 x).map Prod.fst =
      (resAdj res x).map Prod.fst) ∧
    (∀ x, levelD level x < levelD level u →
      itGet (dinicDfs t level adj fuel u f res it).2.2 x = itGet it x) ∧
    ((dinicDfs t level adj fuel u f res it).1 = 0 →
      (dinicDfs t level adj fuel u f res it).2.1 = res ∧
      DeadSkip res level adj t (dinicDfs t level adj fuel u f res it).2.2 ∧
      ¬ LReach res level t u) ∧
    (0 < (dinicDfs t level adj fuel u f res it).1 →
      ∃ tail, LPath res level t u tail ∧
        AugDelta res (dinicDfs t level adj fuel u f res it).2.1 (u :: tail)
          (dinicDfs t level adj fuel u f res it).1 ∧
        (dinicDfs t level adj fuel u f res it).1 ≤ f ∧
        (∀ e ∈ pathEdges (u :: tail),
          (dinicDfs t level adj fuel u f res it).1 ≤ resCap res e.1 e.2) ∧
        DeadSkip res level adj t (dinicDfs t level adj fuel u f res it).2.2)
  | 0, u, f, res, it, hf, hl0, hfuel, hadj, hsym, hds => by
    exfalso
    cases hl : lLookup level u with
    | none =>
      have hneg : levelD level u = -1 := by
        unfold levelD
        rw [hl]
        rfl
      omega
    | some d =>
      have hld : levelD level u = d := by
        unfold levelD
        rw [hl]
        rfl
      have := hlvlB u d hl
      omega
  | fuel + 1, u, f, res, it, hf, hl0, hfuel, hadj, hsym, hds => by
    simp only [dinicDfs]
    by_cases ht : u = t
    · rw [if_pos ht]
      refine ⟨by omega, rfl, fun x => rfl, fun x _ => rfl, ?_, ?_⟩
      · intro h0
        have h0' : f = 0 := h0
        omega
      · intro _
        refine ⟨[], ht, ?_, le_refl f, ?_, hds⟩
        · intro a c
          simp [pathEdges]
        · intro e he
          simp [pathEdges] at he
    · rw [if_neg ht]
      have hdfs : ∀ v f' res' it', 1 ≤ f' →
          (∀ x, adjGet adj x = (resAdj res' x).map Prod.fst) →
          (∀ a b, (rowGet (resAdj res' a) b).isSome → (rowGet (resAdj res' b) a).isSome) →
          DeadSkip res' level adj t it' →
          levelD level v = levelD level u + 1 →
          0 ≤ (dinicDfs t level adj fuel v f' res' it').1 ∧
          ((dinicDfs t level adj fuel v f' res' it').2.1.map Prod.fst = res'.map Prod.fst) ∧
          (∀ x, (resAdj (dinicDfs t level adj fuel v f' res' it').2.1 x).map Prod.fst =
            (resAdj res' x).map Prod.fst) ∧
          (∀ x, levelD level x < levelD level v →
            itGet (dinicDfs t level adj fuel v f' res' it').2.2 x = itGet it' x) ∧
          ((dinicDfs t level adj fuel v f' res' it').1 = 0 →
            (dinicDfs t level adj fuel v f' res' it').2.1 = res' ∧
            DeadSkip res' level adj t (dinicDfs t level adj fuel v f' res' it').2.2 ∧
            ¬ LReach res' level t v) ∧
          (0 < (dinicDfs t level adj fuel v f' res' it').1 →
            ∃ tail, LPath res' level t v tail ∧
              AugDelta res' (dinicDfs t level adj fuel v f' res' it').2.1 (v :: tail)
                (dinicDfs t level adj fuel v f' res' it').1 ∧
              (dinicDfs t level adj fuel v f' res' it').1 ≤ f' ∧
              (∀ e ∈ pathEdges (v :: tail),
                (dinicDfs t level adj fuel v f' res' it').1 ≤ resCap res' e.1 e.2) ∧
              DeadSkip res' level adj t (dinicDfs t level adj fuel v f' res' it').2.2) := by
        intro v f' res' it' hf' hadj' hsym' hds' hlv
        refine dinicDfs_spec t level adj hlvlB fuel v f' res' it' hf' (by omega) ?_
          hadj' hsym' hds'
        push_cast
        push_cast at hfuel
        omega
      obtain ⟨sNN, sKo, sKr, sIT, szero, spos⟩ :=
        dinicScan_spec t level adj u (dinicDfs t level adj fuel) hdfs
          ((adjGet adj u).drop (itGet it u)) f res it hf hadj hsym hds rfl
      refine ⟨sNN, sKo, sKr, sIT, ?_, spos⟩
      intro h0
      obtain ⟨hres, hds', hit⟩ := szero h0
      refine ⟨hres, hds', ?_⟩
      rintro ⟨p, hp⟩
      cases p with
      | nil => exact ht hp
      | cons v rest =>
        have hvkeys : v ∈ adjGet adj u := by
          rw [hadj u]
          exact (rowGet_isSome_iff_mem_keys _ _).mp (resCap_pos_isSome res u v hp.1)
        have hlen : (adjGet adj u).length ≤
            itGet (dinicScan (dinicDfs t level adj fuel) level u
              ((adjGet adj u).drop (itGet it u)) f res it).2.2 u := by
          rw [hit, List.length_drop]
          omega
        have hvtake : v ∈ (adjGet adj u).take
            (itGet (dinicScan (dinicDfs t level adj fuel) level u
              ((adjGet adj u).drop (itGet it u)) f res it).2.2 u) := by
          rw [List.take_of_length_le hlen]
          exact hvkeys
        exact hds' u v hvtake ⟨hp.1, hp.2.1, rest, hp.2.2⟩


/-! ## A single augmenting push preserves the run invariant (dinic reuse) -/

theorem push_runInv (res0 : Graph) (U : Finset Node) (res res' : Graph)
    (s t : Node) (bi : Int)
    (hUs : s ∈ U) (hUt : ∀ x ∈ targets res0, x ∈ U)
    (inv : RunInv res0 s t U res) (hst : s ≠ t)
    (p : List Node) (hpok : PathOk res s t p) (hd : AugDelta res res' p bi)
    (hkeys : ∀ w, (resAdj res' w).map Prod.fst = (resAdj res w).map Prod.fst)
    (hnds : ((resAdj res s).map Prod.fst).Nodup)
    (hble : ∀ e ∈ pathEdges p, bi ≤ resCap res e.1 e.2) (hb1 : 1 ≤ bi) :
    RunInv res0 s t U res' ∧
    rowPot (resAdj res' s) + bi.toNat = rowPot (resAdj res s) ∧
    excess res0 res' U t = excess res0 res U t + bi := by
  have hsub : ∀ x ∈ p, x ∈ U :=
    pathOk_nodes_in_U res0 res s t U p hpok inv.rkeys hUs hUt
  have hexc : ∀ w, excess res0 res' U w = excess res0 res U w
      + (if w ∈ p ∧ p.head? ≠ some w then bi else 0)
      - (if w ∈ p ∧ p.getLast? ≠ some w then bi else 0) :=
    fun w => augDelta_excess res0 res res' p bi hd hpok.nodup U hsub w
  refine ⟨⟨?_, ?_, ?_, ?_⟩, ?_, ?_⟩
  · exact augDelta_pairSum res0 res res' p bi hd inv.pair
  · intro w
    rw [hkeys w, inv.rkeys w]
  · intro w hws hwt
    rw [hexc w, inv.exc w hws hwt]
    by_cases hwp : w ∈ p
    · have hh : p.head? ≠ some w := by
        rw [hpok.head]
        intro hc
        exact hws (Option.some.injEq _ _ ▸ hc).symm
      have hl : p.getLast? ≠ some w := by
        rw [hpok.last]
        intro hc
        exact hwt (Option.some.injEq _ _ ▸ hc).symm
      rw [if_pos ⟨hwp, hh⟩, if_pos ⟨hwp, hl⟩]
      ring
    · rw [if_neg (fun hh => hwp hh.1), if_neg (fun hh => hwp hh.1)]
      ring
  · intro hnn0
    exact augDelta_nonneg res res' p bi hd (inv.nnstep hnn0) hpok.nodup hble (by omega)
  · exact aug_rowPot res res' s t p bi hd (hkeys s) hnds hpok hst hble hb1
  · rw [hexc t]
    have ht_in : t ∈ p := getLast?_mem p t hpok.last
    have hh : p.head? ≠ some t := by
      rw [hpok.head]
      intro hc
      exact hst (Option.some.injEq _ _ ▸ hc)
    have hl : ¬ (t ∈ p ∧ p.getLast? ≠ some t) := by
      rintro ⟨_, hc⟩
      exact hc hpok.last
    rw [if_pos ⟨ht_in, hh⟩, if_neg hl]
    ring


theorem aug_live_mono (res res1 : Graph) (level : LevelMap) (p : List Node)
    (pushed : Int) (hd : AugDelta res res1 p pushed) (hbpos : 0 ≤ pushed)
    (hlv : ∀ e ∈ pathEdges p, levelD level e.2 = levelD level e.1 + 1) :
    ∀ a b, 0 < resCap res1 a b → levelD level b = levelD level a + 1 →
      0 < resCap res a b := by
  intro a b hpos hl
  rw [hd a b] at hpos
  by_cases hrev : (b, a) ∈ pathEdges p
  · have h1 := hlv (b, a) hrev
    simp only at h1
    omega
  · rw [if_neg hrev] at hpos
    by_cases hfwd : (a, b) ∈ pathEdges p
    · rw [if_pos hfwd] at hpos
      omega
    · rw [if_neg hfwd] at hpos
      omega

theorem deadSkip_push (res res1 : Graph) (level : LevelMap)
    (adj : List (Node × List Node)) (t : Node) (it : ItMap)
    (hmono : ∀ a b, 0 < resCap res1 a b → levelD level b = levelD level a + 1 →
      0 < resCap res a b)
    (hds : DeadSkip res level adj t it) : DeadSkip res1 level adj t it := by
  intro x v hv hcc
  refine hds x v hv ⟨hmono x v hcc.1 hcc.2.1, hcc.2.1, ?_⟩
  obtain ⟨pp, hpp⟩ := hcc.2.2
  exact ⟨pp, lpath_mono res res1 level t hmono v pp hpp⟩

theorem sym_of_rkeys (res0 res : Graph)
    (hsym0 : ∀ a b, (rowGet (resAdj res0 a) b).isSome → (rowGet (resAdj res0 b) a).isSome)
    (hk : ∀ w, (resAdj res w).map Prod.fst = (resAdj res0 w).map Prod.fst) :
    ∀ a b, (rowGet (resAdj res a) b).isSome → (rowGet (resAdj res b) a).isSome := by
  intro a b h
  rw [rowGet_isSome_iff_mem_keys, hk a, ← rowGet_isSome_iff_mem_keys] at h
  have h2 := hsym0 a b h
  rw [rowGet_isSome_iff_mem_keys, ← hk b, ← rowGet_isSome_iff_mem_keys] at h2
  exact h2

theorem dinicPhase_spec (res0 : Graph) (U : Finset Node) (s t : Node)
    (level : LevelMap) (adj : List (Node × List Node))
    (hnd0 : ∀ w, ((resAdj res0 w).map Prod.fst).Nodup)
    (hsym0 : ∀ a b, (rowGet (resAdj res0 a) b).isSome → (rowGet (resAdj res0 b) a).isSome)
    (hUs : s ∈ U) (hUt : ∀ x ∈ targets res0, x ∈ U) (hst : s ≠ t)
    (hlvlB : ∀ v d, lLookup level v = some d → 0 ≤ d ∧ d < (level.length : Int))
    (hls : levelD level s = 0) :
    ∀ (fuel : Nat) (res : Graph) (it : ItMap) (acc : Int),
    RunInv res0 s t U res →
    (∀ x, adjGet adj x = (resAdj res x).map Prod.fst) →
    DeadSkip res level adj t it →
    rowPot (resAdj res s) < fuel →
    ∃ P res', dinicPhase s t level adj fuel res it acc = some (P, res') ∧
      RunInv res0 s t U res' ∧ acc ≤ P ∧
      (LReach res level t s → acc + 1 ≤ P) ∧
      excess res0 res' U t = excess res0 res U t + (P - acc) ∧
      rowPot (resAdj res' s) + (P - acc).toNat = rowPot (resAdj res s)
  | 0, res, it, acc, inv, hadj, hds, hfuel => by omega
  | fuel + 1, res, it, acc, inv, hadj, hds, hfuel => by
    have hsym : ∀ a b, (rowGet (resAdj res a) b).isSome →
        (rowGet (resAdj res b) a).isSome := sym_of_rkeys res0 res hsym0 inv.rkeys
    rcases hrec : dinicDfs t level adj (level.length + 2) s (10 ^ 9) res it
      with ⟨fp, res1, it1⟩
    obtain ⟨hNN, hKo, hKr, hIT, hzero, hposc⟩ :=
      dinicDfs_spec t level adj hlvlB (level.length + 2) s (10 ^ 9) res it
        (by norm_num) (by rw [hls]) (by push_cast; omega) hadj hsym hds
    rw [hrec] at hNN hKo hKr hIT hzero hposc
    dsimp only at hNN hKo hKr hIT hzero hposc
    by_cases hf0 : fp = 0
    · obtain ⟨hres1, hds1, hnr⟩ := hzero hf0
      refine ⟨acc, res1, ?_, ?_, le_refl acc, ?_, ?_, ?_⟩
      · simp only [dinicPhase, hrec]
        rw [if_pos hf0]
      · rw [hres1]
        exact inv
      · intro hre
        exact absurd hre hnr
      · rw [hres1]
        simp
      · rw [hres1]
        simp
    · have hfp1 : 1 ≤ fp := by omega
      obtain ⟨tail, hp, hAug, hle, hble, hds1⟩ := hposc (by omega)
      have hpok : PathOk res s t (s :: tail) := by
        refine ⟨by simp, rfl, lpath_getLast res level t s tail hp,
          lpath_nodup res level t s tail hp, ?_⟩
        intro e he
        have := hble e he
        omega
      have hnds : ((resAdj res s).map Prod.fst).Nodup := by
        rw [inv.rkeys s]
        exact hnd0 s
      obtain ⟨inv1, hrp1, hexc1⟩ := push_runInv res0 U res res1 s t fp hUs hUt inv hst
        (s :: tail) hpok hAug hKr hnds hble hfp1
      have hlvedges := lpath_edges res level t s tail hp
      have hmono := aug_live_mono res res1 level (s :: tail) fp hAug (by omega)
        (fun e he => (hlvedges e he).2)
      have hadj1 : ∀ x, adjGet adj x = (resAdj res1 x).map Prod.fst := by
        intro x
        rw [hKr x]
        exact hadj x
      have hds2 : DeadSkip res1 level adj t it1 :=
        deadSkip_push res res1 level adj t it1 hmono hds1
      have hfuel1 : rowPot (resAdj res1 s) < fuel := by omega
      obtain ⟨P, res', hrun, inv', haccP, hreP, hexcP, hrpP⟩ :=
        dinicPhase_spec res0 U s t level adj hnd0 hsym0 hUs hUt hst hlvlB hls
          fuel res1 it1 (acc + fp) inv1 hadj1 hds2 hfuel1
      refine ⟨P, res', ?_, inv', by omega, fun _ => by omega, ?_, ?_⟩
      · simp only [dinicPhase, hrec]
        rw [if_neg hf0]
        exact hrun
      · rw [hexcP, hexc1]
        ring
      · omega


theorem adjGet_adjOf (res : Graph) (x : Node) :
    adjGet (adjOf res) x = (resAdj res x).map Prod.fst := by
  induction res with
  | nil => rfl
  | cons p rest ih =>
    obtain ⟨k, row⟩ := p
    by_cases hk : k = x
    · subst hk
      simp [adjOf, adjGet, resAdj, gGet]
    · simp only [adjOf, List.map_cons, adjGet, if_neg hk]
      rw [show resAdj ((k, row) :: rest) x = resAdj rest x by simp [resAdj, gGet, hk]]
      exact ih

theorem itGet_zeroMap (res : Graph) (x : Node) :
    itGet (res.map (fun p => (p.1, 0))) x = 0 := by
  induction res with
  | nil => rfl
  | cons p rest ih =>
    by_cases hk : p.1 = x
    · simp [itGet, hk]
    · simp [itGet, hk, ih]

theorem levelLoop_runs (res : Graph) (s : Node) :
    ∃ r, levelLoop res (bfsFuel res) [(s, 0)] [s] = some r := by
  have hfuel : 1 + freshCountL res [(s, 0)] < bfsFuel res := by
    have h1 := freshCountL_le res [(s, 0)]
    unfold bfsFuel
    omega
  exact Option.isSome_iff_exists.mp
    (levelLoop_fuel res (bfsFuel res) [(s, 0)] [s] (by simpa using hfuel))

theorem dinicLoop_spec (res0 : Graph) (U : Finset Node) (s t : Node)
    (hnd0 : ∀ w, ((resAdj res0 w).map Prod.fst).Nodup)
    (hsym0 : ∀ a b, (rowGet (resAdj res0 a) b).isSome → (rowGet (resAdj res0 b) a).isSome)
    (hUs : s ∈ U) (hUt : ∀ x ∈ targets res0, x ∈ U) (hst : s ≠ t) :
    ∀ (fuel : Nat) (st : St) (flow : Int),
    RunInv res0 s t U st.res →
    rowPot (resAdj st.res s) < fuel →
    ∃ F stf, dinicLoop s t fuel st flow = some (F, stf) ∧
      RunInv res0 s t U stf.res ∧
      F = flow + (excess res0 stf.res U t - excess res0 st.res U t) ∧
      ∃ r : LevelMap, levelLoop stf.res (bfsFuel stf.res) [(s, 0)] [s] = some r ∧
        bfs_level.pMemL r t = false
  | 0, st, flow, inv, hfuel => by omega
  | fuel + 1, st, flow, inv, hfuel => by
    have hnd : ∀ w, ((resAdj st.res w).map Prod.fst).Nodup := by
      intro w
      rw [inv.rkeys w]
      exact hnd0 w
    obtain ⟨r, hr⟩ := levelLoop_runs st.res s
    have hinitq : ∀ x ∈ [s], (lLookup [(s, (0 : Int))] x).isSome := by
      intro x hx
      rw [List.mem_singleton] at hx
      simp [lLookup, hx]
    have hinitB : ∀ v d, lLookup [(s, (0 : Int))] v = some d →
        0 ≤ d ∧ d < (([(s, (0 : Int))].length : Nat) : Int) := by
      intro v d hv
      by_cases hsv : s = v
      · simp only [lLookup, if_pos hsv, Option.some.injEq] at hv
        simp [← hv]
      · simp [lLookup, hsv] at hv
    have hinitC : ∀ v d, lLookup [(s, (0 : Int))] v = some d → (v = s ∧ d = 0) ∨
        (1 ≤ d ∧ ∃ x dx, lLookup [(s, (0 : Int))] x = some dx ∧ d = dx + 1 ∧
          0 < resCap st.res x v) := by
      intro v d hv
      by_cases hsv : s = v
      · simp only [lLookup, if_pos hsv, Option.some.injEq] at hv
        exact Or.inl ⟨hsv.symm, hv.symm⟩
      · simp [lLookup, hsv] at hv
    obtain ⟨hB, hC⟩ := levelLoop_chain st.res s hnd (bfsFuel st.res) [(s, 0)] [s] r
      hinitq hinitB hinitC hr
    have hrs : lLookup r s = some 0 :=
      levelLoop_lookup_mono st.res (bfsFuel st.res) [(s, 0)] [s] r s 0
        (by simp [lLookup]) hr
    have hls : levelD r s = 0 := by
      unfold levelD
      rw [hrs]
      rfl
    by_cases hmem : bfs_level.pMemL r t = true
    · have hbfs : bfs_level st.res s t = some (some r) := by
        unfold bfs_level
        rw [hr]
        simp [hmem]
      obtain ⟨dt, hdt⟩ := Option.isSome_iff_exists.mp hmem
      have hre : LReach st.res r t s := by
        obtain ⟨p, hp⟩ := chain_to_path st.res s r (fun v d hv => (hB v d hv).1) hC
          dt.toNat t dt hdt (by omega)
        exact ⟨p, hp⟩
      obtain ⟨P, res', hphase, inv', hP0, hP1, hexcP, hrpP⟩ :=
        dinicPhase_spec res0 U s t r (adjOf st.res) hnd0 hsym0 hUs hUt hst hB hls
          (ekFuel st.res s) st.res (st.res.map (fun p => (p.1, 0))) 0 inv
          (fun x => by rw [adjGet_adjOf])
          (by
            intro x v hv
            rw [itGet_zeroMap] at hv
            simp at hv)
          (Nat.lt_succ_self _)
      have hPpos := hP1 hre
      have hPne : ¬ (P = 0) := by omega
      have hfuel' : rowPot (resAdj res' s) < fuel := by omega
      obtain ⟨F, stf, hrun, invf, hFval, rfin, hrfin, hrmem⟩ :=
        dinicLoop_spec res0 U s t hnd0 hsym0 hUs hUt hst fuel
          { graph := st.graph, res := res' } (flow + P) inv' hfuel'
      refine ⟨F, stf, ?_, invf, ?_, rfin, hrfin, hrmem⟩
      · simp only [dinicLoop]
        rw [hbfs]
        simp only [hphase]
        rw [if_neg hPne]
        exact hrun
      · rw [hFval]
        simp only at hexcP ⊢
        rw [hexcP]
        ring
    · have hmemf : bfs_level.pMemL r t = false := Bool.eq_false_iff.mpr hmem
      have hbfs : bfs_level st.res s t = some none := by
        unfold bfs_level
        rw [hr]
        simp [hmemf]
      refine ⟨flow, st, ?_, inv, by ring, r, hr, hmemf⟩
      simp only [dinicLoop]
      rw [hbfs]


theorem lLookup_isSome_iff_mem_keys (l : LevelMap) (k : Node) :
    (lLookup l k).isSome ↔ k ∈ l.map Prod.fst := by
  induction l with
  | nil => simp [lLookup]
  | cons e rest ih =>
    obtain ⟨ka, va⟩ := e
    by_cases hk : ka = k
    · subst hk
      simp [lLookup]
    · have h2 : ¬ k = ka := fun hh => hk hh.symm
      simp [lLookup, hk, h2, ih]

/-- dinic's final state: the run returns the excess at the sink, and the set
levelled by the last (failed) level BFS is a saturated cut whose capacity the
flow value attains. -/
theorem dinic_final_cut (g : Graph) (s t : Node) (wf : GraphWF g)
    (hst : s ≠ t) (hs : (gGet (build_residual g) s).isSome)
    (hcap : ∀ p ∈ g, ∀ q ∈ p.2, 0 ≤ q.2)
    (htT : t ∈ targets (build_residual g)) :
    ∃ (F : Int) (stf : St) (S : Finset Node),
      dinicS g s t = some (F, stf) ∧
      RunInv (build_residual g) s t (universeU (build_residual g) s) stf.res ∧
      Nonneg stf.res ∧
      F = excess (build_residual g) stf.res (universeU (build_residual g) s) t ∧
      S ⊆ universeU (build_residual g) s ∧ s ∈ S ∧ t ∉ S ∧
      F = cutCap (build_residual g) (universeU (build_residual g) s) S := by
  have hnd0 := graphWF_resAdj_nodup (build_residual g) (build_graphWF g wf)
  have hsym0 : ∀ u v, (rowGet (resAdj (build_residual g) u) v).isSome →
      (rowGet (resAdj (build_residual g) v) u).isSome :=
    fun u v h => (symKeys_build g wf u v).mp h
  have hUs : s ∈ universeU (build_residual g) s := Finset.mem_insert_self _ _
  have hUt : ∀ x ∈ targets (build_residual g), x ∈ universeU (build_residual g) s :=
    fun x hx => Finset.mem_insert_of_mem (List.mem_toFinset.mpr hx)
  have hnn0 : Nonneg (build_residual g) := fun a b => by
    rw [resCap_build g wf]
    exact resCap_nonneg_of_caps g hcap a b
  obtain ⟨F, stf, hrun, invf, hFval, r, hr, hrmem⟩ :=
    dinicLoop_spec (build_residual g) (universeU (build_residual g) s) s t
      hnd0 hsym0 hUs hUt hst (ekFuel (build_residual g) s)
      { graph := g, res := build_residual g } 0
      (runInv_init _ s t _) (Nat.lt_succ_self _)
  have hnnf : Nonneg stf.res := invf.nnstep hnn0
  have hndf : ∀ w, ((resAdj stf.res w).map Prod.fst).Nodup := by
    intro w
    rw [invf.rkeys w]
    exact hnd0 w
  have hguard : ¬ ((gGet (build_residual g) s).isNone = true) := by
    rw [Option.isNone_iff_eq_none]
    intro hc
    rw [hc] at hs
    simp at hs
  have hkeys := levelLoop_keys stf.res s hndf (bfsFuel stf.res) [(s, 0)] [s] r
    (by
      intro v hv
      by_cases hsv : s = v
      · exact Or.inl hsv.symm
      · simp [lLookup, hsv] at hv) hr
  have hrs : lLookup r s = some 0 :=
    levelLoop_lookup_mono stf.res (bfsFuel stf.res) [(s, 0)] [s] r s 0
      (by simp [lLookup]) hr
  have hclosed := levelLoop_closed stf.res (bfsFuel stf.res) [(s, 0)] [s] r
    (by
      intro x hx
      rw [List.mem_singleton] at hx
      simp [lLookup, hx])
    (by
      intro x hx
      left
      have hsx : s = x := by
        by_contra hc
        simp [lLookup, hc] at hx
      rw [← hsx]
      exact List.mem_singleton.mpr rfl)
    hr
  have hSsub : (r.map Prod.fst).toFinset ⊆ universeU (build_residual g) s := by
    intro x hx
    have hpx : (lLookup r x).isSome :=
      (lLookup_isSome_iff_mem_keys r x).mpr (List.mem_toFinset.mp hx)
    rcases hkeys x hpx with hxs | ⟨u, hpos⟩
    · rw [hxs]
      exact hUs
    · have hkey : (rowGet (resAdj stf.res u) x).isSome :=
        resCap_pos_isSome stf.res u x hpos
      have hmem : x ∈ (resAdj (build_residual g) u).map Prod.fst := by
        rw [← invf.rkeys u]
        exact (rowGet_isSome_iff_mem_keys _ _).mp hkey
      exact hUt x (targets_of_adj (build_residual g) u x hmem)
  have hsS : s ∈ (r.map Prod.fst).toFinset :=
    List.mem_toFinset.mpr ((lLookup_isSome_iff_mem_keys r s).mp (by rw [hrs]; rfl))
  have htS : t ∉ (r.map Prod.fst).toFinset := by
    intro hc
    have hT : (lLookup r t).isSome :=
      (lLookup_isSome_iff_mem_keys r t).mpr (List.mem_toFinset.mp hc)
    rw [show ((lLookup r t).isSome : Bool) = bfs_level.pMemL r t from rfl, hrmem] at hT
    exact Bool.noConfusion hT
  have hSclosed : ∀ u ∈ (r.map Prod.fst).toFinset, ∀ v, 0 < resCap stf.res u v →
      v ∈ (r.map Prod.fst).toFinset := by
    intro u hu v hpos
    have hpu : (lLookup r u).isSome :=
      (lLookup_isSome_iff_mem_keys r u).mpr (List.mem_toFinset.mp hu)
    obtain ⟨c, hcv⟩ := Option.isSome_iff_exists.mp (resCap_pos_isSome stf.res u v hpos)
    have hcval : c = resCap stf.res u v := by
      unfold resCap
      rw [hcv]
      rfl
    have hvc : (v, c) ∈ resAdj stf.res u := rowGet_mem _ v c hcv
    have := hclosed u hpu v c hvc (by omega)
    exact List.mem_toFinset.mpr ((lLookup_isSome_iff_mem_keys r v).mp this)
  have hstart : excess (build_residual g) (build_residual g)
      (universeU (build_residual g) s) t = 0 := by
    unfold excess flowVal
    simp
  have hF : F = excess (build_residual g) stf.res (universeU (build_residual g) s) t := by
    rw [hFval]
    simp only at hstart ⊢
    rw [hstart]
    ring
  refine ⟨F, stf, (r.map Prod.fst).toFinset, ?_, invf, hnnf, hF, hSsub, hsS, htS, ?_⟩
  · simp only [dinicS]
    rw [if_neg hguard]
    exact hrun
  · rw [hF]
    exact excess_eq_cutCap (build_residual g) stf.res s t
      (universeU (build_residual g) s) _ invf hnnf hSsub hsS hUs
      (hUt t htT) htS hst hSclosed


/-- C1: for every well-formed capacity graph with non-negative integer
capacities, a source present in the node universe, and a sink distinct from
the source, `edmonds_karp` and `dinic` return the same flow value.  Both runs
terminate; each returns the net flow into the sink of its final residual and
exhibits a saturated source-side cut, and any conserving flow value is bounded
by any cut capacity, so the two values coincide. -/
theorem C1_agreement (g : Graph) (s t : Node) (wf : GraphWF g)
    (hcap : ∀ p ∈ g, ∀ q ∈ p.2, 0 ≤ q.2) (hst : s ≠ t)
    (hs : (gGet (build_residual g) s).isSome) :
    ∃ F : Int, edmonds_karp g s t = some F ∧ dinic g s t = some F := by
  by_cases htT : t ∈ targets (build_residual g)
  · obtain ⟨FE, stE, SE, hE, invE, hnnE, hFE, hSEsub, hsSE, htSE, hcutE⟩ :=
      edmonds_karp_final_cut g s t wf hst hs hcap htT
    obtain ⟨FD, stD, SD, hD, invD, hnnD, hFD, hSDsub, hsSD, htSD, hcutD⟩ :=
      dinic_final_cut g s t wf hst hs hcap htT
    have hUs : s ∈ universeU (build_residual g) s := Finset.mem_insert_self _ _
    have htU : t ∈ universeU (build_residual g) s :=
      Finset.mem_insert_of_mem (List.mem_toFinset.mpr htT)
    have h1 : FD ≤ FE := by
      rw [hcutE, hFD]
      exact excess_le_cutCap (build_residual g) stD.res s t _ SE invD hnnD
        hSEsub hsSE hUs htU htSE hst
    have h2 : FE ≤ FD := by
      rw [hcutD, hFE]
      exact excess_le_cutCap (build_residual g) stE.res s t _ SD invE hnnE
        hSDsub hsSD hUs htU htSD hst
    have hFeq : FE = FD := le_antisymm h2 h1
    refine ⟨FE, ?_, ?_⟩
    · unfold edmonds_karp
      rw [hE]
    · unfold dinic
      rw [hD, hFeq]
      rfl
  · have hnoin : ∀ u, resCap (build_residual g) u t ≤ 0 := by
      intro u
      cases hrg : rowGet (resAdj (build_residual g) u) t with
      | none =>
        unfold resCap
        rw [hrg]
        exact le_refl 0
      | some c =>
        exfalso
        exact htT (targets_of_adj (build_residual g) u t
          ((rowGet_isSome_iff_mem_keys _ _).mp (by rw [hrg]; rfl)))
    have hndr := graphWF_resAdj_nodup (build_residual g) (build_graphWF g wf)
    have hguard : ¬ ((gGet (build_residual g) s).isNone = true) := by
      rw [Option.isNone_iff_eq_none]
      intro hc
      rw [hc] at hs
      simp at hs
    refine ⟨0, ?_, ?_⟩
    · have hS : edmonds_karpS g s t =
          some (some 0, { graph := g, res := build_residual g }) := by
        simp only [edmonds_karpS]
        rw [if_neg hguard]
        exact ekLoop_noIncoming s t (rowPot (resAdj (build_residual g) s))
          { graph := g, res := build_residual g } (some 0) hndr hst hnoin
      unfold edmonds_karp
      rw [hS]
    · have hD : dinicS g s t = some (0, { graph := g, res := build_residual g }) := by
        simp only [dinicS]
        rw [if_neg hguard]
        show dinicLoop s t (rowPot (resAdj (build_residual g) s) + 1) _ 0 = _
        simp only [dinicLoop]
        rw [bfs_level_noIncoming (build_residual g) s t hndr hst hnoin]
      unfold dinic
      rw [hD]
      rfl

theorem C1_agreement_witness :
    ∃ F : Int, edmonds_karp scenarioA "A" "T" = some F ∧
      dinic scenarioA "A" "T" = some F :=
  C1_agreement scenarioA "A" "T" ⟨by decide, by decide⟩ (by decide) (by decide) (by rfl)


/-! ## The Backend flow-tracking variant violates capacity respect and
conservation -/

/-- C3 counterexample: `Backend/algorithms.py`'s `edmonds_karp_with_flows`
records gross pushed flow and never deducts a cancellation made through a
reverse residual edge.  On `cancelGraph` (every capacity 1, non-negative, no
self-loops) the run pushes `S→A→B→T`, cancels `A→B` along
`S→C→B→A→D→T`, then pushes `A→B` again along `S→X→Y→A→B→G→H→I→T`: the
returned assignment gives the capacity-1 edge `(A, B)` the value 2, violating
`assignment(u,v) ≤ capacity(u,v)`. -/
theorem C3_counterexample :
    Backend.edmonds_karp_with_flows cancelGraph "S" "T" = some (3, [(("S", "A"), 1), (("S", "C"), 1), (("S", "X"), 1), (("A", "B"), 2),
      (("A", "D"), 1), (("B", "T"), 1), (("B", "G"), 1), (("C", "B"), 1),
      (("D", "T"), 1), (("X", "Y"), 1), (("Y", "A"), 1), (("G", "H"), 1),
      (("H", "I"), 1), (("I", "T"), 1)]) ∧
    fdGet [(("S", "A"), 1), (("S", "C"), 1), (("S", "X"), 1), (("A", "B"), 2),
      (("A", "D"), 1), (("B", "T"), 1), (("B", "G"), 1), (("C", "B"), 1),
      (("D", "T"), 1), (("X", "Y"), 1), (("Y", "A"), 1), (("G", "H"), 1),
      (("H", "I"), 1), (("I", "T"), 1)] ("A", "B") = some 2 ∧
    rowGet (resAdj cancelGraph "A") "B" = some 1 ∧
    ¬ ((2 : Int) ≤ 1) :=
  ⟨by rfl, by rfl, by rfl, by decide⟩

/-- C4 counterexample: on `crossGraph` the second augmenting path of
`Backend/algorithms.py`'s `edmonds_karp_with_flows` is `S→E→B→A→F→T`, whose
reverse-edge step `B→A` is not tracked, so the returned assignment moves 1
unit into the intermediate node `A` but 2 units out of it: conservation fails
at `A`. -/
theorem C4_counterexample :
    Backend.edmonds_karp_with_flows crossGraph "S" "T" = some (2, [(("S", "A"), 1), (("S", "E"), 1), (("A", "B"), 1), (("A", "F"), 1),
      (("E", "B"), 1), (("B", "T"), 1), (("F", "T"), 1)]) ∧
    inFlowSum [(("S", "A"), 1), (("S", "E"), 1), (("A", "B"), 1), (("A", "F"), 1),
      (("E", "B"), 1), (("B", "T"), 1), (("F", "T"), 1)] crossGraph "A" = 1 ∧
    outFlowSum [(("S", "A"), 1), (("S", "E"), 1), (("A", "B"), 1), (("A", "F"), 1),
      (("E", "B"), 1), (("B", "T"), 1), (("F", "T"), 1)] crossGraph "A" = 2 ∧
    ("A" : Node) ≠ "S" ∧ ("A" : Node) ≠ "T" ∧ ¬ ((1 : Int) = 2) :=
  ⟨by rfl, by rfl, by rfl, by decide, by decide, by decide⟩

end Traffic
